import Mathlib

/-
Cluster connectivity tracker of the WangLandau cluster-expansion code.

A shallow embedding of `cpp/src/cluster_tracker.cpp` and a verification of its forest, followed
by the helpers `cyclic_permute` (`additional_tools.tpp`), `Khachaturyan::wave_vector`
(`khacaturyan.cpp`) and `PhaseFieldSimulation::get_digit_string`
(`phase_field_simulation.cpp`).

* `std::vector<int> atomic_clusters` is a `List Int` (`-1` marks a root), written with
  `List.set` and read with `List.getD`.
* `std::set<int>` members (`solute_atoms_indices`, `indices_in_cluster`) are ascending lists,
  iterated from the front as the C++ iterators do.
* `Matrix<int> trans_matrix` is read only through `trans_mat(site, offset)`, so it is a function.
* Every loop is a structural recursion over the list it iterates; the `while` loops of the root
  walks recurse over the number of iterations their counter still allows.
* A C++ exception is the `Except.error` outcome of a `Run`, which also carries the tracker as it
  is when the exception leaves the method.
* Reads outside a vector and negative indices are undefined in the source; the statements
  assume tables that map sites to sites and never depend on such a read.
* A `double` that holds a quotient is an exact rational; an `int` product is the value the
  32-bit multiplication leaves (`int_mul`).
-/

namespace WangLandau

/- Part 1. The embedded program and the notions the statements use. -/

/-- Modelled from the spec: the change record `SymbolChange` (its declaration is not among the
sources), one atomic site mutation: site index, old species, new species. -/
structure SymbolChange where
  indx : Nat
  old_symb : String
  new_symb : String

/-- Modelled from the spec: the paired swap `swap_move` (its declaration is not among the
sources), a fixed-size pair of `SymbolChange`s. -/
structure swap_move where
  c0 : SymbolChange
  c1 : SymbolChange

/-- The range-for loop `for (const SymbolChange &change : changes)` visits `changes[0]` and then
`changes[1]`. -/
def swap_move.toList (changes : swap_move) : List SymbolChange := [changes.c0, changes.c1]

/-- The members of `CEUpdater` that the tracker reads: `get_symbols()` and `get_trans_matrix()`.
The class `Matrix<int>` is not among the sources; the tracker only calls `trans_mat(site, offset)`,
so the table is the function of that call. -/
structure CEUpdater where
  symbols : List String
  trans_matrix : Nat → Nat → Nat

/-- The data members of `ClusterTracker`. -/
structure ClusterTracker where
  updater : CEUpdater
  elements : List String
  symbols_cpy : List String
  atomic_clusters : List Int
  solute_atoms_indices : List Nat
  indices_in_cluster : List Nat

/-- What a method call leaves behind: the tracker, and the returned value or the raised error. -/
structure Run (α : Type) where
  tracker : ClusterTracker
  outcome : Except String α

/-- Insertion into a `std::set<int>`, kept as an ascending list. -/
def set_insert (x : Nat) : List Nat → List Nat
  | [] => [x]
  | y :: ys =>
    if x < y then x :: y :: ys
    else if x = y then y :: ys
    else y :: set_insert x ys

/-- Removal from a `std::set<int>`: `erase(x)`. -/
def set_erase (x : Nat) : List Nat → List Nat
  | [] => []
  | y :: ys => if x = y then set_erase x ys else y :: set_erase x ys

/-- Modelled from the spec: `is_in_vector` of `additional_tools.hpp` (its body is not among the
sources); the spec reads `is_in_vector(refSite, sitesInChange)` as "`refSite` is among
`sitesInChange`", a membership test. -/
def is_in_vector (x : Nat) (vec : List Nat) : Bool := vec.contains x

/-- The search loop of `ClusterTracker::is_cluster_element`. -/
def is_cluster_element_loop (element : String) : List String → Bool
  | [] => false
  | item :: rest => if item = element then true else is_cluster_element_loop element rest

/-- The method `ClusterTracker::is_cluster_element`. -/
def is_cluster_element (t : ClusterTracker) (element : String) : Bool :=
  is_cluster_element_loop element t.elements

/-- The `while` loop of `ClusterTracker::root_indx`. The first argument is the number of
iterations the counter still allows, `max_cluster_size - counter`; the result is the site the
walk stopped at together with what is left of that allowance. -/
def root_indx_loop (atomic_clusters : List Int) : Nat → Nat → Nat × Nat
  | 0, root => (root, 0)
  | left + 1, root =>
    if atomic_clusters.getD root (-1) ≠ -1 then
      root_indx_loop atomic_clusters left (atomic_clusters.getD root (-1)).toNat
    else (root, left + 1)

/-- The method `ClusterTracker::root_indx`: raises when the counter reached `max_cluster_size`. -/
def root_indx (t : ClusterTracker) (indx : Nat) : Except String Nat :=
  let r := root_indx_loop t.atomic_clusters t.atomic_clusters.length indx
  if r.2 = 0 then .error "Circular connected clusters appears to be present!"
  else .ok r.1

/-- The loop over `indices_in_cluster` in `ClusterTracker::attach2cluster`. -/
def attach2cluster_loop (indx current_root_indx : Nat) :
    List Nat → ClusterTracker → Run Unit
  | [], t => ⟨t, .ok ()⟩
  | c_indx :: rest, t =>
    let indx2 := t.updater.trans_matrix indx c_indx
    if is_cluster_element t (t.symbols_cpy.getD indx2 "") then
      match root_indx t indx2 with
      | .error e => ⟨t, .error e⟩
      | .ok root =>
        if root ≠ current_root_indx then
          attach2cluster_loop indx current_root_indx rest
            { t with atomic_clusters := t.atomic_clusters.set root (current_root_indx : Int) }
        else attach2cluster_loop indx current_root_indx rest t
    else attach2cluster_loop indx current_root_indx rest t

/-- The method `ClusterTracker::attach2cluster`. -/
def attach2cluster (t : ClusterTracker) (indx : Nat) : Run Unit :=
  if !is_cluster_element t (t.symbols_cpy.getD indx "") then ⟨t, .ok ()⟩
  else
    match root_indx t indx with
    | .error e => ⟨t, .error e⟩
    | .ok current_root_indx =>
      if t.atomic_clusters.getD current_root_indx (-1) ≠ -1 then
        ⟨t, .error "Something strange happend. ID of root index is not -1!"⟩
      else attach2cluster_loop indx current_root_indx t.indices_in_cluster t

/-- The second loop of the `only_selected == false` branch of `find_clusters`: register the
solute sites and attach every site in index order. -/
def find_clusters_scan (symbs : List String) : List Nat → ClusterTracker → Run Unit
  | [], t => ⟨t, .ok ()⟩
  | i :: rest, t =>
    let t1 : ClusterTracker :=
      if is_cluster_element t (symbs.getD i "") then
        { t with solute_atoms_indices := set_insert i t.solute_atoms_indices }
      else t
    match attach2cluster t1 i with
    | ⟨t2, .ok _⟩ => find_clusters_scan symbs rest t2
    | ⟨t2, .error e⟩ => ⟨t2, .error e⟩

/-- The first loop of the `only_selected == true` branch: every solute site becomes a root. -/
def reset_sites : List Nat → List Int → List Int
  | [], atomic_clusters => atomic_clusters
  | indx :: rest, atomic_clusters => reset_sites rest (atomic_clusters.set indx (-1))

/-- The second loop of the `only_selected == true` branch. -/
def attach_sites : List Nat → ClusterTracker → Run Unit
  | [], t => ⟨t, .ok ()⟩
  | indx :: rest, t =>
    match attach2cluster t indx with
    | ⟨t2, .ok _⟩ => attach_sites rest t2
    | ⟨t2, .error e⟩ => ⟨t2, .error e⟩

/-- The method `ClusterTracker::find_clusters`. -/
def find_clusters (t : ClusterTracker) (only_selected : Bool) : Run Unit :=
  let symbs := t.updater.symbols
  if !only_selected then
    find_clusters_scan symbs (List.range symbs.length)
      { t with
        symbols_cpy := symbs
        solute_atoms_indices := []
        atomic_clusters := List.replicate symbs.length (-1) }
  else
    attach_sites t.solute_atoms_indices
      { t with atomic_clusters := reset_sites t.solute_atoms_indices t.atomic_clusters }

/-- The method `ClusterTracker::num_root_nodes`. -/
def num_root_nodes (t : ClusterTracker) : Nat :=
  (t.solute_atoms_indices.filter (fun s_indx => t.atomic_clusters.getD s_indx (-1) = -1)).length

/-- The locals and members written by the loop over the two changes that `update_clusters` and
`move_creates_new_cluster` share. -/
structure ChangeLoop where
  old_solute_indx : Nat
  new_solute_indx : Nat
  tracker : ClusterTracker

/-- One iteration of `for (const SymbolChange &change : changes)`. -/
def apply_change (s : ChangeLoop) (change : SymbolChange) : ChangeLoop :=
  if is_cluster_element s.tracker change.old_symb then
    { old_solute_indx := change.indx
      new_solute_indx := s.new_solute_indx
      tracker :=
        { s.tracker with
          atomic_clusters := s.tracker.atomic_clusters.set change.indx (-1)
          symbols_cpy := s.tracker.symbols_cpy.set change.indx change.new_symb } }
  else
    { old_solute_indx := s.old_solute_indx
      new_solute_indx := change.indx
      tracker :=
        { s.tracker with
          symbols_cpy := s.tracker.symbols_cpy.set change.indx change.new_symb } }

/-- The loop over both changes, then `erase(old_solute_indx)` and `insert(new_solute_indx)`. -/
def apply_changes (t : ClusterTracker) (changes : swap_move) : ChangeLoop :=
  let s := changes.toList.foldl apply_change ⟨0, 0, t⟩
  { s with
    tracker :=
      { s.tracker with
        solute_atoms_indices :=
          set_insert s.new_solute_indx (set_erase s.old_solute_indx s.tracker.solute_atoms_indices) } }

/-- The method `ClusterTracker::update_clusters(const swap_move&)`, the commit path `applyMove`. -/
def update_clusters (t : ClusterTracker) (changes : swap_move) : Run Unit :=
  if is_cluster_element t changes.c0.old_symb && is_cluster_element t changes.c0.new_symb then
    ⟨t, .ok ()⟩
  else if !is_cluster_element t changes.c0.old_symb
      && !is_cluster_element t changes.c0.new_symb then
    ⟨t, .ok ()⟩
  else
    find_clusters (apply_changes t changes).tracker true

/-- The snapshot `atomic_cluster_cpy` taken by `move_creates_new_cluster`. -/
def snapshot (t : ClusterTracker) : List Int :=
  t.solute_atoms_indices.map (fun s_indx => t.atomic_clusters.getD s_indx (-1))

/-- The loop "Reset the atomic clusters" of `move_creates_new_cluster`: walks the solute set and
the snapshot side by side. -/
def restore_sites : List Nat → List Int → List Int → List Int
  | [], _, atomic_clusters => atomic_clusters
  | s_indx :: rest, cpy, atomic_clusters =>
    restore_sites rest cpy.tail (atomic_clusters.set s_indx (cpy.headD (-1)))

/-- The loop "Reset the symbols_cpy" of `move_creates_new_cluster`. -/
def restore_symbols (symbols_cpy : List String) (changes : swap_move) : List String :=
  changes.toList.foldl (fun symbs change => symbs.set change.indx change.old_symb) symbols_cpy

/-- The method `ClusterTracker::move_creates_new_cluster(const swap_move&)`, the speculative probe
`wouldCreateSecondCluster`. -/
def move_creates_new_cluster (t : ClusterTracker) (changes : swap_move) : Run Bool :=
  if is_cluster_element t changes.c0.old_symb && is_cluster_element t changes.c0.new_symb then
    ⟨t, .ok false⟩
  else if !is_cluster_element t changes.c0.old_symb
      && !is_cluster_element t changes.c0.new_symb then
    ⟨t, .ok false⟩
  else
    let atomic_cluster_cpy := snapshot t
    let s := apply_changes t changes
    match find_clusters s.tracker true with
    | ⟨t1, .error e⟩ => ⟨t1, .error e⟩
    | ⟨t1, .ok _⟩ =>
      let num_roots := num_root_nodes t1
      let t2 : ClusterTracker :=
        { t1 with
          solute_atoms_indices :=
            set_insert s.old_solute_indx (set_erase s.new_solute_indx t1.solute_atoms_indices) }
      if t2.solute_atoms_indices.length ≠ atomic_cluster_cpy.length then
        ⟨t2, .error "Number of solute atoms tracker changes."⟩
      else
        ⟨{ t2 with
            atomic_clusters :=
              restore_sites t2.solute_atoms_indices atomic_cluster_cpy t2.atomic_clusters
            symbols_cpy := restore_symbols t2.symbols_cpy changes },
          .ok (decide (num_roots > 1))⟩

/-- The `while` loop of `ClusterTracker::is_connected`, with the early `return true`. The result
says whether `indx2` was met and how many iterations the counter still allowed at the exit. -/
def is_connected_loop (atomic_clusters : List Int) (indx2 : Nat) : Nat → Nat → Bool × Nat
  | 0, _ => (false, 0)
  | left + 1, root =>
    if atomic_clusters.getD root (-1) ≠ -1 then
      if (atomic_clusters.getD root (-1)).toNat = indx2 then (true, left)
      else is_connected_loop atomic_clusters indx2 left (atomic_clusters.getD root (-1)).toNat
    else (false, left + 1)

/-- The method `ClusterTracker::is_connected`. -/
def is_connected (t : ClusterTracker) (indx1 indx2 : Nat) : Except String Bool :=
  let r := is_connected_loop t.atomic_clusters indx2 t.atomic_clusters.length indx1
  if r.1 then .ok true
  else if r.2 = 0 then .error "Circular connected clusters appears to be present!"
  else .ok false

/-- The method `ClusterTracker::has_minimal_connectivity`. -/
def has_minimal_connectivity (t : ClusterTracker) : Bool :=
  (List.range t.atomic_clusters.length).all fun i =>
    if t.atomic_clusters.getD i (-1) ≠ -1 then
      t.indices_in_cluster.any fun off =>
        decide (t.atomic_clusters.getD i (-1) = (t.updater.trans_matrix i off : Int))
    else true

/-- The loop of `ClusterTracker::atomic_clusters2group_indx`: the root walk of every site, raising
at the first site whose walk uses up the counter. -/
def atomic_clusters2group_indx_loop (atomic_clusters : List Int) :
    List Nat → Except String (List Nat)
  | [] => .ok []
  | i :: rest =>
    let r := root_indx_loop atomic_clusters atomic_clusters.length i
    if r.2 = 0 then .error "Circular connected clusters seems to be present!"
    else
      match atomic_clusters2group_indx_loop atomic_clusters rest with
      | .ok group_indx => .ok (r.1 :: group_indx)
      | .error e => .error e

/-- The method `ClusterTracker::atomic_clusters2group_indx`. -/
def atomic_clusters2group_indx (t : ClusterTracker) : Except String (List Nat) :=
  atomic_clusters2group_indx_loop t.atomic_clusters (List.range t.atomic_clusters.length)

/-- The two vectors written by the inner loops of `rebuild_cluster`. -/
structure RebuildLoop where
  atomic_clusters : List Int
  already_inserted : List Bool

/-- The innermost loop of `rebuild_cluster`: attach the neighbours of `site` that belong to the
group and are not inserted yet. -/
def rebuild_attach (t : ClusterTracker) (indx_in_group : List Nat) (site : Nat) :
    List Nat → RebuildLoop → RebuildLoop
  | [], s => s
  | off :: rest, s =>
    let indx := t.updater.trans_matrix site off
    if is_in_vector indx indx_in_group && !(s.already_inserted.getD indx false) then
      rebuild_attach t indx_in_group site rest
        ⟨s.atomic_clusters.set indx (site : Int), s.already_inserted.set indx true⟩
    else rebuild_attach t indx_in_group site rest s

/-- The loop `for i < indx_in_group.size()` of `rebuild_cluster`. -/
def rebuild_group (t : ClusterTracker) (indx_in_group : List Nat) :
    List Nat → RebuildLoop → RebuildLoop
  | [], s => s
  | site :: rest, s =>
    rebuild_group t indx_in_group rest
      (rebuild_attach t indx_in_group site t.indices_in_cluster s)

/-- The sites of one group: `indx_in_group` of `rebuild_cluster`. -/
def sites_of_group (grp_indx : List Nat) (grp : Nat) : List Nat :=
  (List.range grp_indx.length).filter fun i => decide (grp_indx.getD i 0 = grp)

/-- The outer loop `for (int grp : grp_indx)` of `rebuild_cluster`. -/
def rebuild_groups (t : ClusterTracker) (grp_indx : List Nat) :
    List Nat → List Nat → List Int → List Int
  | [], _, atomic_clusters => atomic_clusters
  | grp :: rest, used_group_indx, atomic_clusters =>
    if is_in_vector grp used_group_indx then
      rebuild_groups t grp_indx rest used_group_indx atomic_clusters
    else
      let indx_in_group := sites_of_group grp_indx grp
      if indx_in_group.length ≤ 1 then
        rebuild_groups t grp_indx rest (used_group_indx ++ [grp]) atomic_clusters
      else
        let first := indx_in_group.headD 0
        let s : RebuildLoop :=
          ⟨atomic_clusters.set first (-1),
            (List.replicate atomic_clusters.length false).set first true⟩
        rebuild_groups t grp_indx rest (used_group_indx ++ [grp])
          (rebuild_group t indx_in_group indx_in_group s).atomic_clusters

/-- The method `ClusterTracker::rebuild_cluster`. -/
def rebuild_cluster (t : ClusterTracker) : Run Unit :=
  match atomic_clusters2group_indx t with
  | .error e => ⟨t, .error e⟩
  | .ok grp_indx =>
    ⟨{ t with atomic_clusters := rebuild_groups t grp_indx grp_indx [] t.atomic_clusters },
      .ok ()⟩

/-- The constructor `ClusterTracker::ClusterTracker` after name validation and
`init_cluster_indices`: the full scan followed by `rebuild_cluster`. -/
def construct (t : ClusterTracker) : Run Unit :=
  match find_clusters t false with
  | ⟨t1, .error e⟩ => ⟨t1, .error e⟩
  | ⟨t1, .ok _⟩ => rebuild_cluster t1

/-- The inner loop of `detach_neighbours`: the first neighbour `indx2` of `indx` that is not in
the change, is solute and is not connected to `indx`; it stops there (`break`). -/
def detach_search (t : ClusterTracker) (indx : Nat) (indx_in_change : List Nat) :
    List Nat → Except String (Option Nat)
  | [] => .ok none
  | off2 :: rest =>
    let indx2 := t.updater.trans_matrix indx off2
    if is_in_vector indx2 indx_in_change then detach_search t indx indx_in_change rest
    else if is_cluster_element t (t.symbols_cpy.getD indx2 "") then
      match is_connected t indx2 indx with
      | .error e => .error e
      | .ok connected =>
        if !connected then .ok (some indx2)
        else detach_search t indx indx_in_change rest
    else detach_search t indx indx_in_change rest

/-- The outer loop of `detach_neighbours` over the neighbour offsets of `ref_indx`. -/
def detach_loop (ref_indx : Nat) (can_create_new_clusters : Bool) (indx_in_change : List Nat)
    (is_ref_indx : Bool) : List Nat → Bool → ClusterTracker → Run Bool
  | [], _, t => ⟨t, .ok true⟩
  | off :: rest, new_ref_indx_assigned, t =>
    let indx := t.updater.trans_matrix ref_indx off
    if !is_cluster_element t (t.symbols_cpy.getD indx "") then
      detach_loop ref_indx can_create_new_clusters indx_in_change is_ref_indx rest
        new_ref_indx_assigned t
    else if t.atomic_clusters.getD indx (-1) ≠ (ref_indx : Int) then
      detach_loop ref_indx can_create_new_clusters indx_in_change is_ref_indx rest
        new_ref_indx_assigned t
    else if is_ref_indx && !new_ref_indx_assigned then
      detach_loop ref_indx can_create_new_clusters indx_in_change is_ref_indx rest true
        { t with
          atomic_clusters := (t.atomic_clusters.set indx (-1)).set ref_indx (indx : Int) }
    else
      match detach_search t indx indx_in_change t.indices_in_cluster with
      | .error e => ⟨t, .error e⟩
      | .ok (some indx2) =>
        detach_loop ref_indx can_create_new_clusters indx_in_change is_ref_indx rest
          new_ref_indx_assigned
          { t with atomic_clusters := t.atomic_clusters.set indx (indx2 : Int) }
      | .ok none =>
        if can_create_new_clusters then
          detach_loop ref_indx can_create_new_clusters indx_in_change is_ref_indx rest
            new_ref_indx_assigned
            { t with atomic_clusters := t.atomic_clusters.set indx (-1) }
        else ⟨t, .ok false⟩

/-- The method `ClusterTracker::detach_neighbours`, compiled with `CLUSTER_TRACK_DEBUG` defined as the source
file does. -/
def detach_neighbours (t : ClusterTracker) (ref_indx : Nat) (can_create_new_clusters : Bool)
    (indx_in_change : List Nat) : Run Bool :=
  if !is_in_vector ref_indx indx_in_change then
    ⟨t, .error "Ref_indx not in the change vector!"⟩
  else if !has_minimal_connectivity t then
    ⟨t, .error "The cluster no longer has minimal connectivity!"⟩
  else
    detach_loop ref_indx can_create_new_clusters indx_in_change
      (decide (t.atomic_clusters.getD ref_indx (-1) = -1)) t.indices_in_cluster false t

/-- The relation `Walk ac k i r`: following the parent entries from site `i` for `k` steps ends at the root
`r`. -/
inductive Walk (ac : List Int) : Nat → Nat → Nat → Prop
  | root {i : Nat} : ac.getD i (-1) = -1 → Walk ac 0 i i
  | step {k i r : Nat} : ac.getD i (-1) ≠ -1 → Walk ac k (ac.getD i (-1)).toNat r →
      Walk ac (k + 1) i r

/-- A set `S` of sites on which the parent entries form a forest: `S` lies inside the vector, is
closed under taking parents, and every parent chain starting in `S` ends in a root. -/
structure Forest (S : Nat → Prop) (ac : List Int) : Prop where
  lt : ∀ i, S i → i < ac.length
  closed : ∀ i, S i → ac.getD i (-1) ≠ -1 → 0 ≤ ac.getD i (-1) ∧ S (ac.getD i (-1)).toNat
  reach : ∀ i, S i → ∃ k r, Walk ac k i r

/-- Undirected connection through the edges `E`. -/
def Conn (E : Nat → Nat → Prop) : Nat → Nat → Prop :=
  Relation.ReflTransGen fun x y => E x y ∨ E y x

/-- The forest represents the partition of `S` into the groups connected through `E`: two
sites of `S` have the same root exactly when they are connected. -/
def Partition (S : Nat → Prop) (E : Nat → Nat → Prop) (ac : List Int) : Prop :=
  ∀ a b ka kb ra rb, S a → S b → Walk ac ka a ra → Walk ac kb b rb → (ra = rb ↔ Conn E a b)

/-- The species the tracker believes site `i` holds: `symbols_cpy[i]`. -/
abbrev species (t : ClusterTracker) (i : Nat) : String := t.symbols_cpy.getD i ""

/-- Site `y` is reached from `x` by one of the tracked offsets in `cs` and holds a cluster
element. -/
def SoluteNbr (t : ClusterTracker) (cs : List Nat) (x y : Nat) : Prop :=
  ∃ c ∈ cs, t.updater.trans_matrix x c = y ∧ is_cluster_element t (species t y) = true

/-- Site `x` holds a cluster element and `y` is a neighbour of `x` under the tracked offsets
that holds one too. -/
def DirEdge (t : ClusterTracker) (x y : Nat) : Prop :=
  is_cluster_element t (species t x) = true ∧ SoluteNbr t t.indices_in_cluster x y

/-- Site `i` is a solute site: a site of the lattice whose shadow species is a cluster
element. -/
def Solute (t : ClusterTracker) (i : Nat) : Prop :=
  i < t.symbols_cpy.length ∧ is_cluster_element t (species t i) = true

/-- Site `y` is a neighbour of site `x` under one of the tracked offsets. -/
def Neighbour (t : ClusterTracker) (x y : Nat) : Prop :=
  ∃ c ∈ t.indices_in_cluster, t.updater.trans_matrix x c = y

/-- Two solute sites one of which is a neighbour of the other: one link of a chain. -/
def Adjacent (t : ClusterTracker) (x y : Nat) : Prop :=
  Solute t x ∧ Solute t y ∧ (Neighbour t x y ∨ Neighbour t y x)

/-- Sites `a` and `b` are linked by a chain of solute sites in which consecutive sites are
neighbours under the tracked offsets. -/
def Linked (t : ClusterTracker) : Nat → Nat → Prop :=
  Relation.ReflTransGen (Adjacent t)

/-- Every tracked offset maps a site of the lattice (of `n` sites) to a site of the lattice. -/
def InRange (t : ClusterTracker) (n : Nat) : Prop :=
  ∀ i, i < n → ∀ c ∈ t.indices_in_cluster, t.updater.trans_matrix i c < n

/-- A directed link: both sites are solute and `y` is a neighbour of `x`. -/
def SoluteEdge (t : ClusterTracker) (x y : Nat) : Prop :=
  Solute t x ∧ Solute t y ∧ Neighbour t x y

/-- What the full scan `find_clusters(false)` leaves: the forest over the solute sites represents
their partition into linked groups, every other site is an untouched root. -/
structure Scanned (t : ClusterTracker) : Prop where
  length_eq : t.atomic_clusters.length = t.symbols_cpy.length
  forest : Forest (Solute t) t.atomic_clusters
  partition : Partition (Solute t) (SoluteEdge t) t.atomic_clusters
  outside : ∀ x, ¬ Solute t x → t.atomic_clusters.getD x (-1) = -1
  solute_mem : ∀ x, x ∈ t.solute_atoms_indices ↔ Solute t x
  solute_sorted : t.solute_atoms_indices.Pairwise (· < ·)

/-- The solute index set mirrors the shadow species: it holds exactly the solute sites. -/
def Consistent (t : ClusterTracker) : Prop :=
  ∀ x, x ∈ t.solute_atoms_indices ↔ Solute t x

/-- The paired swap is consistent with the shadow species: two different sites of the lattice,
each old symbol is the shadow species of its site, the new symbols are the exchanged old
symbols. -/
structure ConsistentSwap (t : ClusterTracker) (changes : swap_move) : Prop where
  lt0 : changes.c0.indx < t.symbols_cpy.length
  lt1 : changes.c1.indx < t.symbols_cpy.length
  distinct : changes.c0.indx ≠ changes.c1.indx
  old0 : changes.c0.old_symb = species t changes.c0.indx
  old1 : changes.c1.old_symb = species t changes.c1.indx
  new0 : changes.c0.new_symb = changes.c1.old_symb
  new1 : changes.c1.new_symb = changes.c0.old_symb

/-- The swap exchanges a solute site with a non-solute site. -/
def CrossesBoundary (t : ClusterTracker) (changes : swap_move) : Prop :=
  is_cluster_element t changes.c0.old_symb ≠ is_cluster_element t changes.c1.old_symb

/-- The site that loses its cluster element in a swap across the boundary. -/
def vacated (t : ClusterTracker) (changes : swap_move) : Nat :=
  if is_cluster_element t changes.c0.old_symb then changes.c0.indx else changes.c1.indx

/-- The site that receives the cluster element in a swap across the boundary. -/
def arrived (t : ClusterTracker) (changes : swap_move) : Nat :=
  if is_cluster_element t changes.c0.old_symb then changes.c1.indx else changes.c0.indx

/-- The species assignment after the swap. -/
def species_after (t : ClusterTracker) (changes : swap_move) : List String :=
  (t.symbols_cpy.set changes.c0.indx changes.c0.new_symb).set changes.c1.indx
    changes.c1.new_symb

/-- The tracker with the species assignment after the swap. -/
def after_swap (t : ClusterTracker) (changes : swap_move) : ClusterTracker :=
  { t with symbols_cpy := species_after t changes }

/-- The tracker vectors have the size of the lattice and the solute set is an ordered set. -/
structure WellFormed (t : ClusterTracker) : Prop where
  length_eq : t.atomic_clusters.length = t.symbols_cpy.length
  in_range : InRange t t.symbols_cpy.length
  sorted : t.solute_atoms_indices.Pairwise (· < ·)

/-- The tracker on which `update_clusters` and `move_creates_new_cluster` run
`find_clusters(true)`. -/
def moved (t : ClusterTracker) (changes : swap_move) : ClusterTracker :=
  { t with
    atomic_clusters := t.atomic_clusters.set (vacated t changes) (-1)
    symbols_cpy := species_after t changes
    solute_atoms_indices :=
      set_insert (arrived t changes) (set_erase (vacated t changes) t.solute_atoms_indices) }

/-- Two sites belong to the same group of the species assignment: they are the same site, or
they are solute sites linked by a chain. -/
def SameGroup (t : ClusterTracker) (i j : Nat) : Prop :=
  i = j ∨ (Solute t i ∧ Solute t j ∧ Linked t i j)

/-- The invariant of the inner loops of `rebuild_cluster` for the group with sites `L`: the
vectors keep the lattice size, and an inserted site belongs to the group and is either the new
root or points to a site of the group it is a neighbour of. -/
structure Rebuilding (t : ClusterTracker) (n : Nat) (L : List Nat) (s : RebuildLoop) : Prop where
  len_ac : s.atomic_clusters.length = n
  len_ins : s.already_inserted.length = n
  inserted : ∀ x, s.already_inserted.getD x false = true →
    x ∈ L ∧ (s.atomic_clusters.getD x (-1) = -1 ∨
      ∃ y ∈ L, s.atomic_clusters.getD x (-1) = (y : Int) ∧ Neighbour t y x)

/-- The group index `atomic_clusters2group_indx` computes for site `i`: the site where the root
walk from `i` stops. -/
def group_of (ac : List Int) (i : Nat) : Nat := (root_indx_loop ac ac.length i).1

/-- What `rebuild_cluster` makes of a site: a root, or a site pointing to a site of its group
that it is a neighbour of. -/
def Rebuilt (t : ClusterTracker) (g0 : Nat → Nat) (n x : Nat) (v : Int) : Prop :=
  v = -1 ∨ ∃ y, y < n ∧ v = (y : Int) ∧ Neighbour t y x ∧ g0 y = g0 x

/-- The neighbour relation under the tracked offsets is symmetric on the lattice of `n` sites. -/
def SymmetricLattice (t : ClusterTracker) (n : Nat) : Prop :=
  ∀ x, x < n → ∀ y, y < n → Neighbour t x y → Neighbour t y x

/-- A call of one of the two entry points that change the forest. -/
inductive Call where
  | applyMove (changes : swap_move)
  | detachNeighbours (ref_indx : Nat) (can_create_new_clusters : Bool)
      (indx_in_change : List Nat)

/-- A sequence of calls made one after the other; the sequence ends at a call that raises. -/
def run_calls : List Call → ClusterTracker → Run Unit
  | [], t => ⟨t, .ok ()⟩
  | Call.applyMove changes :: rest, t =>
    match update_clusters t changes with
    | ⟨t1, .ok _⟩ => run_calls rest t1
    | ⟨t1, .error e⟩ => ⟨t1, .error e⟩
  | Call.detachNeighbours ref_indx can_create_new_clusters indx_in_change :: rest, t =>
    match detach_neighbours t ref_indx can_create_new_clusters indx_in_change with
    | ⟨t1, .ok _⟩ => run_calls rest t1
    | ⟨t1, .error e⟩ => ⟨t1, .error e⟩

/-- The sites a call names are sites of the lattice of `n` sites. -/
def Call.valid (n : Nat) : Call → Prop
  | Call.applyMove changes => changes.c0.indx < n ∧ changes.c1.indx < n
  | Call.detachNeighbours ref_indx _ _ => ref_indx < n

/-- No site is its own neighbour under the tracked offsets. -/
def NoSelfNeighbour (t : ClusterTracker) (n : Nat) : Prop :=
  ∀ i, i < n → ∀ c ∈ t.indices_in_cluster, t.updater.trans_matrix i c ≠ i

/-- The forest over the `n` sites of the lattice is acyclic: every entry is `-1` or a site, and
every parent chain ends in a root; the solute index set holds sites of the lattice. -/
structure AcyclicState (t : ClusterTracker) (n : Nat) : Prop where
  length_eq : t.atomic_clusters.length = n
  forest : Forest (fun i => i < n) t.atomic_clusters
  solute_lt : ∀ x ∈ t.solute_atoms_indices, x < n

/-- Two trackers over the same lattice and the same cluster elements. -/
def SameLattice (t t' : ClusterTracker) : Prop :=
  t'.updater.trans_matrix = t.updater.trans_matrix ∧
    t'.indices_in_cluster = t.indices_in_cluster ∧ t'.elements = t.elements

/-- The translation table of a ring of `n` sites: offset `0` is the next site, every other offset
the previous one. -/
def ring_trans (n : Nat) : Nat → Nat → Nat :=
  fun i c => if c = 0 then (i + 1) % n else (i + n - 1) % n

/-- The tracker handed to the constructor for a ring lattice with the given species, cluster
element `A` and the two offsets of the ring. -/
def ring_tracker (symbs : List String) : ClusterTracker :=
  ⟨⟨symbs, ring_trans symbs.length⟩, ["A"], [], [], [], [0, 1]⟩

/-- The tracker as the constructor leaves it on the ring with the given species. -/
def ring_constructed (symbs : List String) : ClusterTracker :=
  (construct (ring_tracker symbs)).tracker

/-- The translation table of a ring of five sites visited in the order 0, 3, 2, 1, 4: offset `0`
is the next site of the ring, offset `1` the previous one. -/
def ring5_trans : Nat → Nat → Nat :=
  fun i c => if c = 0 then [3, 4, 1, 2, 0].getD i 0 else [4, 2, 3, 0, 1].getD i 0

/-- The tracker handed to the constructor for that ring with species `A A A A B`. -/
def ring5_tracker : ClusterTracker :=
  ⟨⟨["A", "A", "A", "A", "B"], ring5_trans⟩, ["A"], [], [], [], [0, 1]⟩

/-- The swap that moves the cluster element of site 2 to site 1. -/
def swap_2_1 : swap_move := ⟨⟨2, "A", "B"⟩, ⟨1, "B", "A"⟩⟩

/-- The swap that moves the cluster element of site 3 to site 2. -/
def swap_3_2 : swap_move := ⟨⟨3, "A", "B"⟩, ⟨2, "B", "A"⟩⟩

/-- A paired change between two sites that both hold the species `B`. -/
def swap_1_3_same : swap_move := ⟨⟨1, "B", "B"⟩, ⟨3, "B", "B"⟩⟩

/-- The update `num_members_in_cluster[r_indx] += 1`, or `= 1` for a key that is not there yet,
on a `std::map<int,int>` kept as a list of entries with ascending keys. -/
def map_count (r_indx : Nat) : List (Nat × Nat) → List (Nat × Nat)
  | [] => [(r_indx, 1)]
  | (key, value) :: rest =>
    if r_indx < key then (r_indx, 1) :: (key, value) :: rest
    else if r_indx = key then (key, value + 1) :: rest
    else (key, value) :: map_count r_indx rest

/-- The loop of `ClusterTracker::get_cluster_size` over the sites. -/
def get_cluster_size_loop (t : ClusterTracker) :
    List Nat → List (Nat × Nat) → Except String (List (Nat × Nat))
  | [], num_members_in_cluster => .ok num_members_in_cluster
  | i :: rest, num_members_in_cluster =>
    match root_indx t i with
    | .error e => .error e
    | .ok r_indx =>
      if r_indx ≠ i then
        get_cluster_size_loop t rest (map_count r_indx num_members_in_cluster)
      else get_cluster_size_loop t rest num_members_in_cluster

/-- The method `ClusterTracker::get_cluster_size`, the cluster size histogram: it adds to the map
it is handed. -/
def get_cluster_size (t : ClusterTracker) (num_members_in_cluster : List (Nat × Nat)) :
    Except String (List (Nat × Nat)) :=
  get_cluster_size_loop t (List.range t.atomic_clusters.length) num_members_in_cluster

/-- The product of two `int`s as the 32-bit multiplication leaves it: the exact product when it
fits, and the two's complement wrap of it when it overflows. -/
def int_mul (a b : Int) : Int := Int.bmod (a * b) (2 ^ 32)

/-- The results of `ClusterTracker::get_cluster_statistics`: the four entries of `res` and the
vector `cluster_sizes`. The `double` entries only ever hold sums of integers, kept here as the
integers they are; `avg_size_sq` sums `int` products, which can be negative after a wrap. -/
structure ClusterStatistics where
  avg_size : Nat
  max_size : Nat
  avg_size_sq : Int
  number_of_clusters : Nat
  cluster_sizes : List Nat

/-- The loop of `get_cluster_statistics` over the entries of the histogram, carrying
`average_size`, `max_size`, `avg_size_sq` and `cluster_sizes`. -/
def get_cluster_statistics_loop :
    List (Nat × Nat) → Nat → Nat → Int → List Nat → Nat × Nat × Int × List Nat
  | [], average_size, max_size, avg_size_sq, cluster_sizes =>
    (average_size, max_size, avg_size_sq, cluster_sizes)
  | (_, second) :: rest, average_size, max_size, avg_size_sq, cluster_sizes =>
    let size := if second ≥ 1 then second + 1 else 0
    get_cluster_statistics_loop rest (average_size + size)
      (if size > max_size then size else max_size) (avg_size_sq + int_mul size size)
      (if second ≥ 1 then cluster_sizes ++ [size] else cluster_sizes)

/-- The method `ClusterTracker::get_cluster_statistics`. -/
def get_cluster_statistics (t : ClusterTracker) : Except String ClusterStatistics :=
  match get_cluster_size t [] with
  | .error e => .error e
  | .ok num_members_in_cluster =>
    let r := get_cluster_statistics_loop num_members_in_cluster 0 0 0 []
    .ok ⟨r.1, r.2.1, r.2.2.1, r.2.2.2.length, r.2.2.2⟩

/-- The loop of `root_indx_largest_cluster` over the entries of the histogram. -/
def root_indx_largest_cluster_loop : List (Nat × Nat) → Nat → Nat → Nat
  | [], largest_root_indx, _ => largest_root_indx
  | (first, second) :: rest, largest_root_indx, largest_size =>
    if second > largest_size then root_indx_largest_cluster_loop rest first second
    else root_indx_largest_cluster_loop rest largest_root_indx largest_size

/-- The method `ClusterTracker::root_indx_largest_cluster`. -/
def root_indx_largest_cluster (t : ClusterTracker) : Except String Nat :=
  match get_cluster_size t [] with
  | .error e => .error e
  | .ok clust_size => .ok (root_indx_largest_cluster_loop clust_size 0 0)

/-- The loop of `get_members_of_largest_cluster` over the sites. -/
def get_members_of_largest_cluster_loop (t : ClusterTracker) (root_indx_largest : Nat) :
    List Nat → Except String (List Nat)
  | [] => .ok []
  | id :: rest =>
    match root_indx t id with
    | .error e => .error e
    | .ok r =>
      match get_members_of_largest_cluster_loop t root_indx_largest rest with
      | .error e => .error e
      | .ok members => .ok (if r = root_indx_largest then id :: members else members)

/-- The method `ClusterTracker::get_members_of_largest_cluster`. -/
def get_members_of_largest_cluster (t : ClusterTracker) : Except String (List Nat) :=
  match root_indx_largest_cluster t with
  | .error e => .error e
  | .ok root_indx_largest =>
    get_members_of_largest_cluster_loop t root_indx_largest
      (List.range t.atomic_clusters.length)

/-- Modelled from the spec: the cluster catalog `updater->get_clusters()` (the classes `Cluster`
and `cluster_dict` are not among the sources): per symmetry group a map from the cluster name to
the member-index lists of the cluster (one list of offset indices per instance), kept as a list of
entries. -/
abbrev cluster_catalog := List (List (String × List (List Nat)))

/-- The lookup `clusters[symm_group].find(cname)` followed by `.at(cname).get()`. -/
def find_cluster (cname : String) : List (String × List (List Nat)) → Option (List (List Nat))
  | [] => none
  | (name, members) :: rest => if name = cname then some members else find_cluster cname rest

/-- The statement `if (surf.find(root) == surf.end()) surf[root] = 0` on a map kept as a list of
entries with ascending keys. -/
def map_touch (root : Nat) : List (Nat × Nat) → List (Nat × Nat)
  | [] => [(root, 0)]
  | (key, value) :: rest =>
    if root < key then (root, 0) :: (key, value) :: rest
    else if root = key then (key, value) :: rest
    else (key, value) :: map_touch root rest

/-- The loop over `subgroup` in `surface`: one increment of `surf[root]` for every member list
whose first offset leads from site `i` to a site that holds no cluster element. -/
def surface_members (t : ClusterTracker) (i root : Nat) :
    List (List Nat) → List (Nat × Nat) → List (Nat × Nat)
  | [], surf => surf
  | member :: rest, surf =>
    if !is_cluster_element t (t.updater.symbols.getD (t.updater.trans_matrix i (member.headD 0)) "")
    then surface_members t i root rest (map_count root surf)
    else surface_members t i root rest surf

/-- The loop over `cnames` in `surface`, for one symmetry group. -/
def surface_names (t : ClusterTracker) (i root : Nat) (group : List (String × List (List Nat))) :
    List String → List (Nat × Nat) → List (Nat × Nat)
  | [], surf => surf
  | cname :: rest, surf =>
    match find_cluster cname group with
    | none => surface_names t i root group rest surf
    | some members => surface_names t i root group rest (surface_members t i root members surf)

/-- The loop over `symm_group` in `surface`. -/
def surface_groups (t : ClusterTracker) (cnames : List String) (i root : Nat) :
    cluster_catalog → List (Nat × Nat) → List (Nat × Nat)
  | [], surf => surf
  | group :: rest, surf =>
    surface_groups t cnames i root rest (surface_names t i root group cnames surf)

/-- The loop of `surface` over the sites. -/
def surface_loop (clusters : cluster_catalog) (cnames : List String) (t : ClusterTracker) :
    List Nat → List (Nat × Nat) → Except String (List (Nat × Nat))
  | [], surf => .ok surf
  | i :: rest, surf =>
    if t.atomic_clusters.getD i (-1) ≠ -1 then
      match root_indx t i with
      | .error e => .error e
      | .ok root =>
        surface_loop clusters cnames t rest
          (surface_groups t cnames i root clusters (map_touch root surf))
    else surface_loop clusters cnames t rest surf

/-- The method `ClusterTracker::surface`, with the cluster catalog of the updater and the
member `cnames` as arguments. -/
def surface (clusters : cluster_catalog) (cnames : List String) (t : ClusterTracker)
    (surf : List (Nat × Nat)) : Except String (List (Nat × Nat)) :=
  surface_loop clusters cnames t (List.range t.atomic_clusters.length) surf

/-- Minimal connectivity as a property of the forest: every site whose parent is not `-1` has
its parent among its own neighbours under the tracked offsets. -/
def MinimalConnectivity (t : ClusterTracker) (ac : List Int) : Prop :=
  ∀ i, i < ac.length → ac.getD i (-1) ≠ -1 →
    ∃ c ∈ t.indices_in_cluster, ac.getD i (-1) = (t.updater.trans_matrix i c : Int)

/-- The swap of sites 0 and 2 whose second change names `B` as the old species of site 2. -/
def swap_0_2_wrong : swap_move := ⟨⟨0, "A", "B"⟩, ⟨2, "B", "A"⟩⟩

/-- Every entry of the forest array is `-1` or a site of the lattice. -/
def EntriesInRange (ac : List Int) : Prop :=
  ∀ i, i < ac.length →
    ac.getD i (-1) = -1 ∨ (0 ≤ ac.getD i (-1) ∧ ac.getD i (-1) < (ac.length : Int))

/-- The forest of `n` sites that is one chain: site 0 is the root and every other site `j` has
parent `j - 1`. -/
def chain_forest (n : Nat) : List Int := (List.range n).map fun (j : Nat) => (j : Int) - 1

/-- Site `b` lies on the root path of site `a`: it is reached from `a` by following one or more
parent entries. -/
inductive Ancestor (ac : List Int) : Nat → Nat → Prop
  | parent {a : Nat} : ac.getD a (-1) ≠ -1 → Ancestor ac a (ac.getD a (-1)).toNat
  | step {a b : Nat} : ac.getD a (-1) ≠ -1 → Ancestor ac (ac.getD a (-1)).toNat b →
      Ancestor ac a b

/-- The value a map kept as a list of entries holds at key `x` (`0` when the key is absent). -/
def map_value (m : List (Nat × Nat)) (x : Nat) : Nat :=
  ((m.filter fun e => decide (e.1 = x)).map Prod.snd).sum

/-- A map with ascending keys and positive values that holds `f x` at every key `x`. -/
structure Histogram (m : List (Nat × Nat)) (f : Nat → Nat) : Prop where
  sorted : m.Pairwise fun e1 e2 => e1.1 < e2.1
  positive : ∀ e ∈ m, 1 ≤ e.2
  value : ∀ x, map_value m x = f x

/-- The number of sites other than `r` whose root is `r`: the attached members of `r`. -/
def attached (ac : List Int) (r : Nat) : Nat :=
  ((List.range ac.length).filter fun i => decide (i ≠ r ∧ group_of ac i = r)).length

/-- The roots that have at least one attached member, in ascending order: the clusters. -/
def cluster_roots (ac : List Int) : List Nat :=
  (List.range ac.length).filter fun r => decide (1 ≤ attached ac r)

/-- The number of sites whose root is `r`, the site `r` itself included when it is a root. -/
def group_size (ac : List Int) (r : Nat) : Nat :=
  ((List.range ac.length).filter fun i => decide (group_of ac i = r)).length

/-- The forest over all the sites of the lattice is acyclic: every entry is `-1` or a site and
every parent chain ends in a root. -/
def Acyclic (ac : List Int) : Prop := Forest (fun i => i < ac.length) ac

/-- The number of tracked offsets that lead from site `i` to a site holding no cluster element. -/
def exposed_offsets (t : ClusterTracker) (i : Nat) : Nat :=
  (t.indices_in_cluster.filter fun off =>
    !is_cluster_element t (t.updater.symbols.getD (t.updater.trans_matrix i off) "")).length

/-- The surface of the cluster with root `root` as the claim counts it: the pairs of a site of
the group, the root included, and a tracked offset that leads to a site holding no cluster
element. -/
def surface_by_claim (t : ClusterTracker) (root : Nat) : Nat :=
  (((List.range t.atomic_clusters.length).filter fun i =>
    decide (group_of t.atomic_clusters i = root)).map (exposed_offsets t)).sum

/-- The cluster catalog of the ring: one symmetry group, one pair cluster `c2` with an instance
for each of the two offsets. -/
def ring_catalog : cluster_catalog := [[("c2", [[0], [1]])]]

/-- One iteration of the loop of `cyclic_permute` (`additional_tools.tpp`):
`prev = vec[0]; vec[0] = vec[i+1]; vec[i+1] = prev`. -/
def cyclic_permute_step {α : Type} (vec : List α) (i : Nat) : List α :=
  match vec[0]?, vec[i + 1]? with
  | some prev, some next => (vec.set 0 next).set (i + 1) prev
  | _, _ => vec

/-- The template function `cyclic_permute`: the loop runs for `i = 0, ..., vec.size() - 2`. For an
empty vector the unsigned bound `vec.size() - 1` wraps around and the source reads outside the
vector; the model returns the empty vector there. -/
def cyclic_permute {α : Type} (vec : List α) : List α :=
  (List.range (vec.length - 1)).foldl cyclic_permute_step vec

/-- One component of `Khachaturyan::wave_vector` (`khacaturyan.cpp`) for the index `indx` along
an axis of `size` points. The comparison `indx[i] < sizes[i]/2` is on integers; the `double`
quotient `static_cast<double>(indx[i])/sizes[i]` is kept as the exact rational. -/
def wave_vector_component (indx size : Nat) : ℚ :=
  if indx < size / 2 then (indx : ℚ) / size else -1 + (indx : ℚ) / size

/-- The method `Khachaturyan::wave_vector`: `sizes` are the three dimensions of `ft_shape_func`,
the result is the array `vec`. -/
def wave_vector (sizes indx : Nat × Nat × Nat) : ℚ × ℚ × ℚ :=
  (wave_vector_component indx.1 sizes.1, wave_vector_component indx.2.1 sizes.2.1,
    wave_vector_component indx.2.2 sizes.2.2)

/-- The Numpy frequency convention as the claim states it: entry `k` of `numpy.fft.fftfreq(n)`
is `k/n` for `k ≤ (n-1) div 2` and `(k-n)/n` otherwise. -/
def fftfreq (n k : Nat) : ℚ :=
  if k ≤ (n - 1) / 2 then (k : ℚ) / n else ((k : ℚ) - n) / n

/-- The value of `int num_digits = log10(iter)` for `iter ≥ 1`: the logarithm to base 10,
truncated. -/
def int_log10 (iter : Nat) : Nat := Nat.log 10 iter

/-- The method `PhaseFieldSimulation::get_digit_string` (`phase_field_simulation.cpp`) with the
member `num_digits_in_file` as an argument: `num_digits_in_file - num_digits` times the
character `0`, then the decimal digits of `iter`. -/
def get_digit_string (num_digits_in_file iter : Nat) : String :=
  let num_digits := int_log10 iter
  (if num_digits < num_digits_in_file then
      String.mk (List.replicate (num_digits_in_file - num_digits) '0')
    else "") ++ toString iter

/-- The output of `operator<<` for a `std::vector` (`additional_tools.tpp`): `[`, every entry
followed by a blank, `]`. -/
def show_vector (vec : List String) : String :=
  "[" ++ String.join (vec.map fun item => item ++ " ") ++ "]"

/-- The message of the `invalid_argument` that `verify_cluster_name_exists` raises: the requested
names and the names of the first symmetry group. -/
def no_cluster_name_message (clusters : cluster_catalog) (cnames : List String) : String :=
  "There are no correlation functions corresponding to the cluster name given!\n"
    ++ "Given: " ++ show_vector cnames ++ "\n" ++ "Available names:\n"
    ++ show_vector ((clusters.headD []).map Prod.fst)

/-- The loop over `cnames` in `verify_cluster_name_exists`, for one symmetry group. -/
def verify_cluster_name_exists_names (clusters : cluster_catalog) (cnames : List String)
    (group : List (String × List (List Nat))) : List String → Except String Unit
  | [] => .ok ()
  | cname :: rest =>
    match find_cluster cname group with
    | none => .error (no_cluster_name_message clusters cnames)
    | some _ => verify_cluster_name_exists_names clusters cnames group rest

/-- The loop over the symmetry groups in `verify_cluster_name_exists`. -/
def verify_cluster_name_exists_groups (clusters : cluster_catalog) (cnames : List String) :
    cluster_catalog → Except String Unit
  | [] => .ok ()
  | group :: rest =>
    match verify_cluster_name_exists_names clusters cnames group cnames with
    | .error e => .error e
    | .ok _ => verify_cluster_name_exists_groups clusters cnames rest

/-- The method `ClusterTracker::verify_cluster_name_exists`, with the cluster catalog of the
updater and the member `cnames` as arguments. -/
def verify_cluster_name_exists (clusters : cluster_catalog) (cnames : List String) :
    Except String Unit :=
  verify_cluster_name_exists_groups clusters cnames clusters

/-- The loop over the member lists of one cluster in `init_cluster_indices`:
`indices_in_cluster.insert(indices[0])`. For an empty member list the source reads outside the
vector; the model inserts offset `0` there. -/
def init_cluster_indices_members : List (List Nat) → List Nat → List Nat
  | [], indices_in_cluster => indices_in_cluster
  | indices :: rest, indices_in_cluster =>
    init_cluster_indices_members rest (set_insert (indices.headD 0) indices_in_cluster)

/-- The loop over `cnames` in `init_cluster_indices`, for one symmetry group. -/
def init_cluster_indices_names (group : List (String × List (List Nat))) :
    List String → List Nat → List Nat
  | [], indices_in_cluster => indices_in_cluster
  | cname :: rest, indices_in_cluster =>
    match find_cluster cname group with
    | none => init_cluster_indices_names group rest indices_in_cluster
    | some members =>
      init_cluster_indices_names group rest
        (init_cluster_indices_members members indices_in_cluster)

/-- The method `ClusterTracker::init_cluster_indices`. -/
def init_cluster_indices (clusters : cluster_catalog) (cnames : List String)
    (t : ClusterTracker) : ClusterTracker :=
  { t with
    indices_in_cluster :=
      clusters.foldl (fun indices_in_cluster group =>
        init_cluster_indices_names group cnames indices_in_cluster) t.indices_in_cluster }

/-- The constructor `ClusterTracker::ClusterTracker(updater, cname, elements)`, with the cluster
catalog of the updater as an argument: name validation, `init_cluster_indices`, the full scan and
`rebuild_cluster`. -/
def construct_tracker (updater : CEUpdater) (clusters : cluster_catalog)
    (cnames elements : List String) : Run Unit :=
  match verify_cluster_name_exists clusters cnames with
  | .error e => ⟨⟨updater, elements, [], [], [], []⟩, .error e⟩
  | .ok _ => construct (init_cluster_indices clusters cnames ⟨updater, elements, [], [], [], []⟩)

/-- The tracker constructed on the ring `A B A B` after the updater has changed the species of
site 1 to `A`: its updater holds `A A A B`, its own members are as the constructor left them. -/
def ring_site_1_changed : ClusterTracker :=
  { ring_constructed ["A", "B", "A", "B"] with
    updater := ⟨["A", "A", "A", "B"], ring_trans 4⟩ }

/-- The messages of the `runtime_error`s that the scan and the rebuild of the constructor can
raise. -/
def runtime_error_messages : List String :=
  ["Circular connected clusters appears to be present!",
    "Something strange happend. ID of root index is not -1!",
    "Circular connected clusters seems to be present!"]

/-- The forest of `n` sites in which site 0 is the root and every other site points to site 0:
what the full scan `find_clusters(false)` leaves on a ring whose sites all hold the cluster
element. -/
def star_forest (n : Nat) : List Int := -1 :: List.replicate (n - 1) 0

/-- The tracker of a ring of `n` sites that all hold the cluster element `A`, with the forest
`star_forest n`. -/
def star_tracker (n : Nat) : ClusterTracker :=
  ⟨⟨List.replicate n "A", ring_trans n⟩, ["A"], List.replicate n "A", star_forest n,
    List.range n, [0, 1]⟩

/-- The ring `A A A B` as the full scan `find_clusters(false)` has it before it attaches the
first site: every site is a root. -/
def ring_unlinked : ClusterTracker :=
  ⟨⟨["A", "A", "A", "B"], ring_trans 4⟩, ["A"], ["A", "A", "A", "B"], [-1, -1, -1, -1],
    [0, 1, 2], [0, 1]⟩

/-- What `detach_neighbours` makes of a re-parented site `x`: the new entry `v` is `-1` (a root),
or a neighbour of `x` under the tracked offsets that holds a cluster element and is not in
`indx_in_change`. -/
def Reattached (t : ClusterTracker) (indx_in_change : List Nat) (x : Nat) (v : Int) : Prop :=
  v = -1 ∨ ∃ off2 ∈ t.indices_in_cluster, v = (t.updater.trans_matrix x off2 : Int) ∧
    is_cluster_element t (species t (t.updater.trans_matrix x off2)) = true ∧
    is_in_vector (t.updater.trans_matrix x off2) indx_in_change = false

/-- The state the probe of C1 leaves on the ring `A B A B`: site 1 holds `B` and points to
site 0. -/
def ring_after_probe : ClusterTracker :=
  (move_creates_new_cluster (ring_constructed ["A", "B", "A", "B"]) swap_2_1).tracker

/-- A lattice of two sites whose tracked offsets are `0`, the site itself, and `1`, the other
site; both sites hold `A` and site 1 points to site 0. -/
def pair_with_self_offset : ClusterTracker :=
  ⟨⟨["A", "A"], fun i c => if c = 0 then i else 1 - i⟩, ["A"], ["A", "A"], [-1, 0], [0, 1],
    [0, 1]⟩

/- Part 2. Lemmas and theorems. -/

theorem getD_set_int (ac : List Int) (x i : Nat) (v : Int) :
    (ac.set x v).getD i (-1) = if i = x ∧ x < ac.length then v else ac.getD i (-1) := by
  simp only [List.getD_eq_getElem?_getD, List.getElem?_set]
  by_cases h : x = i
  · subst h
    by_cases hx : x < ac.length
    · simp [hx]
    · simp [hx]
      rw [List.getElem?_eq_none (by omega)]
      rfl
  · have : ¬ (i = x ∧ x < ac.length) := fun hh => h hh.1.symm
    simp [h, this]

theorem Walk.isRoot {ac : List Int} {k i r : Nat} (h : Walk ac k i r) : ac.getD r (-1) = -1 := by
  induction h with
  | root h => exact h
  | step _ _ ih => exact ih

theorem Walk.det {ac : List Int} {k i r : Nat} (h : Walk ac k i r) :
    ∀ {k' r' : Nat}, Walk ac k' i r' → k = k' ∧ r = r' := by
  induction h with
  | root h =>
    intro k' r' h'
    cases h' with
    | root _ => exact ⟨rfl, rfl⟩
    | step hn _ => exact absurd h hn
  | step hn _ ih =>
    intro k' r' h'
    cases h' with
    | root h0 => exact absurd h0 hn
    | step _ hw =>
      obtain ⟨h1, h2⟩ := ih hw
      exact ⟨by omega, h2⟩

theorem root_indx_loop_of_walk {ac : List Int} {k i r : Nat} (h : Walk ac k i r) :
    ∀ fuel, k < fuel → root_indx_loop ac fuel i = (r, fuel - k) := by
  induction h with
  | root h =>
    intro fuel hf
    obtain ⟨f, rfl⟩ : ∃ f, fuel = f + 1 := ⟨fuel - 1, by omega⟩
    simp only [root_indx_loop]
    rw [if_neg (by simpa using h)]
    simp
  | step hn _ ih =>
    intro fuel hf
    obtain ⟨f, rfl⟩ : ∃ f, fuel = f + 1 := ⟨fuel - 1, by omega⟩
    simp only [root_indx_loop, hn, ne_eq, not_false_eq_true, if_true]
    rw [ih f (by omega)]
    simp

theorem Walk.mem {S : Nat → Prop} {ac : List Int} (hF : Forest S ac) {k i r : Nat}
    (h : Walk ac k i r) : S i → S r := by
  induction h with
  | root _ => exact id
  | step hn _ ih => exact fun hi => ih (hF.closed _ hi hn).2

/-- The sites visited by a walk are pairwise different, so a walk is shorter than the vector. -/
theorem Walk.path {S : Nat → Prop} {ac : List Int} (hF : Forest S ac) {k i r : Nat}
    (h : Walk ac k i r) : S i →
    ∃ path : List Nat, path.length = k + 1 ∧ path.Nodup ∧
      ∀ p ∈ path, p < ac.length ∧ ∃ k', k' ≤ k ∧ Walk ac k' p r := by
  induction h with
  | @root i h0 =>
    intro hi
    refine ⟨[i], rfl, List.nodup_singleton i, ?_⟩
    intro p hp
    rw [List.mem_singleton] at hp
    subst hp
    exact ⟨hF.lt _ hi, 0, le_refl 0, Walk.root h0⟩
  | @step k i r hn hw ih =>
    intro hi
    obtain ⟨path, hlen, hnd, hall⟩ := ih (hF.closed _ hi hn).2
    refine ⟨i :: path, by simp [hlen], ?_, ?_⟩
    · refine List.nodup_cons.2 ⟨?_, hnd⟩
      intro hmem
      obtain ⟨_, k', hk', hw'⟩ := hall i hmem
      have := (Walk.step hn hw).det hw'
      omega
    · intro p hp
      rcases List.mem_cons.1 hp with rfl | hp
      · exact ⟨hF.lt _ hi, k + 1, le_refl _, Walk.step hn hw⟩
      · obtain ⟨h1, k', hk', hw'⟩ := hall p hp
        exact ⟨h1, k', by omega, hw'⟩

theorem Walk.lt_length {S : Nat → Prop} {ac : List Int} (hF : Forest S ac) {k i r : Nat}
    (h : Walk ac k i r) (hi : S i) : k < ac.length := by
  obtain ⟨path, hlen, hnd, hall⟩ := h.path hF hi
  have hsub : path.toFinset ⊆ Finset.range ac.length := by
    intro p hp
    rw [List.mem_toFinset] at hp
    exact Finset.mem_range.2 (hall p hp).1
  have hcard := Finset.card_le_card hsub
  rw [List.toFinset_card_of_nodup hnd, Finset.card_range] at hcard
  omega

theorem root_indx_of_walk {S : Nat → Prop} {t : ClusterTracker} (hF : Forest S t.atomic_clusters)
    {k i r : Nat} (h : Walk t.atomic_clusters k i r) (hi : S i) : root_indx t i = .ok r := by
  have hk := h.lt_length hF hi
  simp only [root_indx, root_indx_loop_of_walk h _ hk]
  have : t.atomic_clusters.length - k ≠ 0 := by omega
  simp [this]

theorem Walk.avoid {ac : List Int} {x : Nat} (v : Int) (hx : ac.getD x (-1) = -1)
    {k y r : Nat} (h : Walk ac k y r) (hr : r ≠ x) : Walk (ac.set x v) k y r := by
  induction h with
  | @root i h0 =>
    refine Walk.root ?_
    rw [getD_set_int, if_neg (fun hh => hr hh.1)]
    exact h0
  | @step k i r hn hw ih =>
    have hix : i ≠ x := fun hh => hn (hh ▸ hx)
    have he : (ac.set x v).getD i (-1) = ac.getD i (-1) := by
      rw [getD_set_int, if_neg (fun hh => hix hh.1)]
    refine Walk.step (by rw [he]; exact hn) ?_
    rw [he]
    exact ih hr

theorem Walk.link_walk {ac : List Int} {x y ky r : Nat} (hx : ac.getD x (-1) = -1)
    (hxl : x < ac.length) (hy : Walk ac ky y r) (hr : r ≠ x) {k i ρ : Nat}
    (h : Walk ac k i ρ) :
    ∃ k', Walk (ac.set x (y : Int)) k' i (if ρ = x then r else ρ) := by
  induction h with
  | @root i h0 =>
    by_cases hix : i = x
    · subst hix
      rw [if_pos rfl]
      have he : (ac.set i (y : Int)).getD i (-1) = (y : Int) := by
        rw [getD_set_int, if_pos ⟨rfl, hxl⟩]
      refine ⟨ky + 1, Walk.step (by rw [he]; omega) ?_⟩
      rw [he, Int.toNat_ofNat]
      exact hy.avoid _ hx hr
    · rw [if_neg hix]
      refine ⟨0, Walk.root ?_⟩
      rw [getD_set_int, if_neg (fun hh => hix hh.1)]
      exact h0
  | @step k i ρ hn hw ih =>
    obtain ⟨k', hk'⟩ := ih
    have hix : i ≠ x := fun hh => hn (hh ▸ hx)
    have he : (ac.set x (y : Int)).getD i (-1) = ac.getD i (-1) := by
      rw [getD_set_int, if_neg (fun hh => hix hh.1)]
    refine ⟨k' + 1, Walk.step (by rw [he]; exact hn) ?_⟩
    rw [he]
    exact hk'

theorem Walk.cut_walk {ac : List Int} (x : Nat) {k i ρ : Nat} (h : Walk ac k i ρ) :
    ∃ k' ρ', Walk (ac.set x (-1)) k' i ρ' := by
  induction h with
  | @root i h0 =>
    refine ⟨0, i, Walk.root ?_⟩
    rw [getD_set_int]
    split
    · rfl
    · exact h0
  | @step k i ρ hn hw ih =>
    obtain ⟨k', ρ', hk'⟩ := ih
    by_cases hix : i = x ∧ x < ac.length
    · refine ⟨0, i, Walk.root ?_⟩
      rw [getD_set_int, if_pos hix]
    · have he : (ac.set x (-1)).getD i (-1) = ac.getD i (-1) := by
        rw [getD_set_int, if_neg hix]
      refine ⟨k' + 1, ρ', Walk.step (by rw [he]; exact hn) ?_⟩
      rw [he]
      exact hk'

theorem Forest.link_root {S : Nat → Prop} {ac : List Int} (hF : Forest S ac) {x y ky r : Nat}
    (hx : ac.getD x (-1) = -1) (hxS : S x) (hyS : S y) (hy : Walk ac ky y r) (hr : r ≠ x) :
    Forest S (ac.set x (y : Int)) := by
  refine ⟨fun i hi => by rw [List.length_set]; exact hF.lt i hi, ?_, ?_⟩
  · intro i hi hne
    rw [getD_set_int] at hne ⊢
    split
    · rw [Int.toNat_ofNat]
      exact ⟨by omega, hyS⟩
    · rename_i hc
      rw [if_neg hc] at hne
      exact hF.closed i hi hne
  · intro i hi
    obtain ⟨k, ρ, hw⟩ := hF.reach i hi
    obtain ⟨k', hk'⟩ := Walk.link_walk hx (hF.lt x hxS) hy hr hw
    exact ⟨k', _, hk'⟩

theorem Forest.cut_site {S : Nat → Prop} {ac : List Int} (hF : Forest S ac) (x : Nat) :
    Forest S (ac.set x (-1)) := by
  refine ⟨fun i hi => by rw [List.length_set]; exact hF.lt i hi, ?_, ?_⟩
  · intro i hi hne
    rw [getD_set_int] at hne ⊢
    split
    · rename_i hc
      rw [if_pos hc] at hne
      exact absurd rfl hne
    · rename_i hc
      rw [if_neg hc] at hne
      exact hF.closed i hi hne
  · intro i hi
    obtain ⟨k, ρ, hw⟩ := hF.reach i hi
    obtain ⟨k', ρ', hk'⟩ := hw.cut_walk x
    exact ⟨k', ρ', hk'⟩

theorem Conn.symm {E : Nat → Nat → Prop} {a b : Nat} (h : Conn E a b) : Conn E b a := by
  induction h with
  | refl => exact Relation.ReflTransGen.refl
  | tail _ hs ih => exact Relation.ReflTransGen.head hs.symm ih

theorem Conn.mono {E E' : Nat → Nat → Prop} (hE : ∀ x y, E x y → E' x y) {a b : Nat}
    (h : Conn E a b) : Conn E' a b :=
  Relation.ReflTransGen.mono (fun x y hxy => hxy.imp (hE x y) (hE y x)) h

theorem Conn.edge {E : Nat → Nat → Prop} {a b : Nat} (h : E a b) : Conn E a b :=
  Relation.ReflTransGen.single (Or.inl h)

/-- Soundness of a partition: when both ends of every edge lie in `S` and share their root,
connected sites share their root. -/
theorem same_root_of_conn {S : Nat → Prop} {E : Nat → Nat → Prop} {ac : List Int}
    (hF : Forest S ac) (hES : ∀ x y, E x y → S x ∧ S y)
    (hE : ∀ x y kx ky rx ry, E x y → Walk ac kx x rx → Walk ac ky y ry → rx = ry)
    {a b : Nat} (h : Conn E a b) (ha : S a) :
    S b ∧ ∀ ka kb ra rb, Walk ac ka a ra → Walk ac kb b rb → ra = rb := by
  induction h with
  | refl => exact ⟨ha, fun ka kb ra rb wa wb => (wa.det wb).2⟩
  | @tail c d _ hs ih =>
    obtain ⟨hc, ihc⟩ := ih
    have hd : S d := by
      rcases hs with h | h
      · exact (hES _ _ h).2
      · exact (hES _ _ h).1
    refine ⟨hd, fun ka kb ra rb wa wb => ?_⟩
    obtain ⟨kc, rc, wc⟩ := hF.reach c hc
    have h1 := ihc ka kc ra rc wa wc
    have h2 : rc = rb := by
      rcases hs with h | h
      · exact hE _ _ _ _ _ _ h wc wb
      · exact (hE _ _ _ _ _ _ h wb wc).symm
    exact h1.trans h2

/-- Adding the edge `i`–`j` to a partition by pointing the root of `j` at the root of `i`. -/
theorem Partition.link_edge {S : Nat → Prop} {E : Nat → Nat → Prop} {ac : List Int}
    (hF : Forest S ac) (hP : Partition S E ac) (hES : ∀ x y, E x y → S x ∧ S y)
    {i j ki kj ri rj : Nat} (hi : S i) (hj : S j) (wi : Walk ac ki i ri)
    (wj : Walk ac kj j rj) (hne : rj ≠ ri) :
    Partition S (fun x y => E x y ∨ (x = i ∧ y = j)) (ac.set rj (ri : Int)) := by
  have hrjS : S rj := wj.mem hF hj
  have hriS : S ri := wi.mem hF hi
  have wri : Walk ac 0 ri ri := Walk.root wi.isRoot
  have hF' : Forest S (ac.set rj (ri : Int)) :=
    hF.link_root wj.isRoot hrjS hriS wri (Ne.symm hne)
  -- the root of every site of `S` after the link
  have key : ∀ a ka ra, S a → Walk ac ka a ra → ∀ ka' ra', Walk (ac.set rj (ri : Int)) ka' a ra' →
      ra' = if ra = rj then ri else ra := by
    intro a ka ra _ wa ka' ra' wa'
    obtain ⟨k2, h2⟩ := Walk.link_walk wj.isRoot (hF.lt rj hrjS) wri (Ne.symm hne) wa
    exact (wa'.det h2).2
  intro a b ka kb ra rb ha hb wa wb
  obtain ⟨ka0, ra0, wa0⟩ := hF.reach a ha
  obtain ⟨kb0, rb0, wb0⟩ := hF.reach b hb
  have ea := key a ka0 ra0 ha wa0 ka ra wa
  have eb := key b kb0 rb0 hb wb0 kb rb wb
  have hmono : ∀ {u v : Nat}, Conn E u v → Conn (fun x y => E x y ∨ (x = i ∧ y = j)) u v :=
    fun h => h.mono fun x y hxy => Or.inl hxy
  have hij : Conn (fun x y => E x y ∨ (x = i ∧ y = j)) i j := Conn.edge (Or.inr ⟨rfl, rfl⟩)
  constructor
  · intro hab
    by_cases h1 : ra0 = rj <;> by_cases h2 : rb0 = rj
    · exact hmono ((hP a b ka0 kb0 ra0 rb0 ha hb wa0 wb0).1 (h1.trans h2.symm))
    · rw [if_pos h1] at ea
      rw [if_neg h2] at eb
      have hib : ri = rb0 := by rw [← ea, hab, eb]
      have c1 := hmono ((hP a j ka0 kj ra0 rj ha hj wa0 wj).1 h1)
      have c2 := hmono ((hP i b ki kb0 ri rb0 hi hb wi wb0).1 hib)
      exact c1.trans (hij.symm.trans c2)
    · rw [if_neg h1] at ea
      rw [if_pos h2] at eb
      have hai : ra0 = ri := by rw [← ea, hab, eb]
      have c1 := hmono ((hP a i ka0 ki ra0 ri ha hi wa0 wi).1 hai)
      have c2 := hmono ((hP j b kj kb0 rj rb0 hj hb wj wb0).1 h2.symm)
      exact c1.trans (hij.trans c2)
    · rw [if_neg h1] at ea
      rw [if_neg h2] at eb
      exact hmono ((hP a b ka0 kb0 ra0 rb0 ha hb wa0 wb0).1 (by rw [← ea, hab, eb]))
  · intro hc
    refine (same_root_of_conn hF' ?_ ?_ hc ha).2 ka kb ra rb wa wb
    · rintro x y (h | ⟨rfl, rfl⟩)
      · exact hES x y h
      · exact ⟨hi, hj⟩
    · rintro x y kx ky rx ry (h | ⟨rfl, rfl⟩) wx wy
      · obtain ⟨hx, hy⟩ := hES x y h
        obtain ⟨kx0, rx0, wx0⟩ := hF.reach x hx
        obtain ⟨ky0, ry0, wy0⟩ := hF.reach y hy
        have e := (hP x y kx0 ky0 rx0 ry0 hx hy wx0 wy0).2 (Conn.edge h)
        rw [key x kx0 rx0 hx wx0 kx rx wx, key y ky0 ry0 hy wy0 ky ry wy, e]
      · rw [key _ ki ri hi wi kx rx wx, key _ kj rj hj wj ky ry wy, if_pos rfl,
          if_neg (Ne.symm hne)]

/-- Adding an edge between two sites that already share their root changes nothing. -/
theorem Partition.same {S : Nat → Prop} {E : Nat → Nat → Prop} {ac : List Int}
    (hF : Forest S ac) (hP : Partition S E ac) (hES : ∀ x y, E x y → S x ∧ S y)
    {i j ki kj r : Nat} (hi : S i) (hj : S j) (wi : Walk ac ki i r) (wj : Walk ac kj j r) :
    Partition S (fun x y => E x y ∨ (x = i ∧ y = j)) ac := by
  intro a b ka kb ra rb ha hb wa wb
  constructor
  · intro hab
    exact ((hP a b ka kb ra rb ha hb wa wb).1 hab).mono fun x y hxy => Or.inl hxy
  · intro hc
    refine (same_root_of_conn hF ?_ ?_ hc ha).2 ka kb ra rb wa wb
    · rintro x y (h | ⟨rfl, rfl⟩)
      · exact hES x y h
      · exact ⟨hi, hj⟩
    · rintro x y kx ky rx ry (h | ⟨rfl, rfl⟩) wx wy
      · obtain ⟨hx, hy⟩ := hES x y h
        exact (hP x y kx ky rx ry hx hy wx wy).2 (Conn.edge h)
      · rw [(wx.det wi).2, (wy.det wj).2]

theorem Partition.congr {S : Nat → Prop} {E E' : Nat → Nat → Prop} {ac : List Int}
    (h : ∀ x y, E x y ↔ E' x y) (hP : Partition S E ac) : Partition S E' ac := by
  intro a b ka kb ra rb ha hb wa wb
  rw [hP a b ka kb ra rb ha hb wa wb]
  exact ⟨fun hc => hc.mono fun x y => (h x y).1, fun hc => hc.mono fun x y => (h x y).2⟩

theorem attach2cluster_loop_spec {S : Nat → Prop} (i cur k : Nat) :
    ∀ (cs : List Nat) (t : ClusterTracker) (E : Nat → Nat → Prop),
      Forest S t.atomic_clusters → Partition S E t.atomic_clusters →
      (∀ x y, E x y → S x ∧ S y) → S i → Walk t.atomic_clusters k i cur →
      (∀ c ∈ cs, is_cluster_element t (species t (t.updater.trans_matrix i c)) = true →
        S (t.updater.trans_matrix i c)) →
      ∃ ac', attach2cluster_loop i cur cs t = ⟨{ t with atomic_clusters := ac' }, .ok ()⟩ ∧
        Forest S ac' ∧
        Partition S (fun x y => E x y ∨ (x = i ∧ SoluteNbr t cs x y)) ac' ∧
        Walk ac' k i cur ∧ ac'.length = t.atomic_clusters.length ∧
        ∀ x, ¬ S x → ac'.getD x (-1) = t.atomic_clusters.getD x (-1) := by
  intro cs
  induction cs with
  | nil =>
    intro t E hF hP hES hi wi _
    refine ⟨t.atomic_clusters, rfl, hF, ?_, wi, rfl, fun _ _ => rfl⟩
    refine hP.congr fun x y => ⟨Or.inl, ?_⟩
    rintro (h | ⟨_, c, hc, _⟩)
    · exact h
    · exact absurd hc (List.not_mem_nil c)
  | cons c rest ih =>
    intro t E hF hP hES hi wi hS
    have hSrest : ∀ c' ∈ rest,
        is_cluster_element t (species t (t.updater.trans_matrix i c')) = true →
        S (t.updater.trans_matrix i c') := fun c' hc' => hS c' (List.mem_cons_of_mem _ hc')
    by_cases hel : is_cluster_element t (species t (t.updater.trans_matrix i c)) = true
    · have hj : S (t.updater.trans_matrix i c) := hS c (List.mem_cons_self _ _) hel
      obtain ⟨kj, rj, wj⟩ := hF.reach _ hj
      have hroot : root_indx t (t.updater.trans_matrix i c) = .ok rj :=
        root_indx_of_walk hF wj hj
      by_cases hne : rj = cur
      · -- the neighbour already has the root of `indx`
        subst hne
        have hP1 := Partition.same hF hP hES hi hj wi wj
        obtain ⟨ac', h1, h2, h3, h4, h5, h6⟩ := ih t _ hF hP1 (by
          rintro x y (h | ⟨rfl, rfl⟩)
          · exact hES x y h
          · exact ⟨hi, hj⟩) hi wi hSrest
        refine ⟨ac', ?_, h2, ?_, h4, h5, h6⟩
        · rw [← h1]
          simp only [attach2cluster_loop]
          rw [if_pos hel, hroot]
          simp
        · refine h3.congr fun x y => ?_
          constructor
          · rintro ((h | ⟨rfl, rfl⟩) | ⟨rfl, c', hc', h'⟩)
            · exact Or.inl h
            · exact Or.inr ⟨rfl, c, List.mem_cons_self _ _, rfl, hel⟩
            · exact Or.inr ⟨rfl, c', List.mem_cons_of_mem _ hc', h'⟩
          · rintro (h | ⟨rfl, c', hc', h1', h2'⟩)
            · exact Or.inl (Or.inl h)
            · rcases List.mem_cons.1 hc' with rfl | hc'
              · exact Or.inl (Or.inr ⟨rfl, h1'.symm⟩)
              · exact Or.inr ⟨rfl, c', hc', h1', h2'⟩
      · -- the root of the neighbour is pointed at the root of `indx`
        have hP1 := Partition.link_edge hF hP hES hi hj wi wj hne
        have hF1 : Forest S (t.atomic_clusters.set rj (cur : Int)) :=
          hF.link_root wj.isRoot (wj.mem hF hj) (wi.mem hF hi) (Walk.root wi.isRoot) (Ne.symm hne)
        have wi1 : Walk (t.atomic_clusters.set rj (cur : Int)) k i cur :=
          wi.avoid _ wj.isRoot (Ne.symm hne)
        obtain ⟨ac', h1, h2, h3, h4, h5, h6⟩ :=
          ih { t with atomic_clusters := t.atomic_clusters.set rj (cur : Int) } _ hF1 hP1 (by
            rintro x y (h | ⟨rfl, rfl⟩)
            · exact hES x y h
            · exact ⟨hi, hj⟩) hi wi1 hSrest
        refine ⟨ac', ?_, h2, ?_, h4, ?_, ?_⟩
        · rw [← h1]
          simp only [attach2cluster_loop]
          rw [if_pos hel, hroot]
          simp [hne]
        · refine h3.congr fun x y => ?_
          constructor
          · rintro ((h | ⟨rfl, rfl⟩) | ⟨rfl, c', hc', h'⟩)
            · exact Or.inl h
            · exact Or.inr ⟨rfl, c, List.mem_cons_self _ _, rfl, hel⟩
            · exact Or.inr ⟨rfl, c', List.mem_cons_of_mem _ hc', h'⟩
          · rintro (h | ⟨rfl, c', hc', h1', h2'⟩)
            · exact Or.inl (Or.inl h)
            · rcases List.mem_cons.1 hc' with rfl | hc'
              · exact Or.inl (Or.inr ⟨rfl, h1'.symm⟩)
              · exact Or.inr ⟨rfl, c', hc', h1', h2'⟩
        · rw [h5]
          exact List.length_set _ _ _
        · intro x hx
          rw [h6 x hx]
          show (t.atomic_clusters.set rj (cur : Int)).getD x (-1) = _
          rw [getD_set_int, if_neg]
          rintro ⟨rfl, _⟩
          exact hx (wj.mem hF hj)
    · obtain ⟨ac', h1, h2, h3, h4, h5, h6⟩ := ih t E hF hP hES hi wi hSrest
      refine ⟨ac', ?_, h2, ?_, h4, h5, h6⟩
      · rw [← h1]
        simp only [attach2cluster_loop]
        rw [if_neg hel]
      · refine h3.congr fun x y => ?_
        constructor
        · rintro (h | ⟨rfl, c', hc', h'⟩)
          · exact Or.inl h
          · exact Or.inr ⟨rfl, c', List.mem_cons_of_mem _ hc', h'⟩
        · rintro (h | ⟨rfl, c', hc', h1', h2'⟩)
          · exact Or.inl h
          · rcases List.mem_cons.1 hc' with rfl | hc'
            · rw [← h1'] at h2'
              exact absurd h2' hel
            · exact Or.inr ⟨rfl, c', hc', h1', h2'⟩

theorem mem_set_insert (x y : Nat) (l : List Nat) : y ∈ set_insert x l ↔ y = x ∨ y ∈ l := by
  induction l with
  | nil => simp [set_insert]
  | cons z zs ih =>
    simp only [set_insert]
    split
    · simp
    · split
      · rename_i h
        subst h
        simp
      · simp only [List.mem_cons, ih]
        tauto

theorem mem_set_erase (x y : Nat) (l : List Nat) : y ∈ set_erase x l ↔ y ≠ x ∧ y ∈ l := by
  induction l with
  | nil => simp [set_erase]
  | cons z zs ih =>
    simp only [set_erase]
    split
    · rename_i h
      subst h
      simp only [ih, List.mem_cons]
      tauto
    · rename_i h
      simp only [List.mem_cons, ih]
      constructor
      · rintro (rfl | ⟨h1, h2⟩)
        · exact ⟨fun hh => h hh.symm, Or.inl rfl⟩
        · exact ⟨h1, Or.inr h2⟩
      · rintro ⟨h1, rfl | h2⟩
        · exact Or.inl rfl
        · exact Or.inr ⟨h1, h2⟩

theorem pairwise_set_insert (x : Nat) (l : List Nat) (h : l.Pairwise (· < ·)) :
    (set_insert x l).Pairwise (· < ·) := by
  induction l with
  | nil => simp [set_insert]
  | cons z zs ih =>
    rw [List.pairwise_cons] at h
    simp only [set_insert]
    split
    · rename_i hxz
      refine List.pairwise_cons.2 ⟨?_, List.pairwise_cons.2 h⟩
      intro a ha
      rcases List.mem_cons.1 ha with rfl | ha
      · exact hxz
      · exact lt_trans hxz (h.1 a ha)
    · split
      · exact List.pairwise_cons.2 h
      · rename_i h1 h2
        refine List.pairwise_cons.2 ⟨?_, ih h.2⟩
        intro a ha
        rcases (mem_set_insert x a zs).1 ha with rfl | ha
        · omega
        · exact h.1 a ha

theorem pairwise_set_erase (x : Nat) (l : List Nat) (h : l.Pairwise (· < ·)) :
    (set_erase x l).Pairwise (· < ·) := by
  induction l with
  | nil => simp [set_erase]
  | cons z zs ih =>
    rw [List.pairwise_cons] at h
    simp only [set_erase]
    split
    · exact ih h.2
    · refine List.pairwise_cons.2 ⟨?_, ih h.2⟩
      intro a ha
      exact h.1 a ((mem_set_erase x a zs).1 ha).2

theorem is_cluster_element_loop_iff (element : String) (l : List String) :
    is_cluster_element_loop element l = true ↔ element ∈ l := by
  induction l with
  | nil => simp [is_cluster_element_loop]
  | cons a l ih =>
    simp only [is_cluster_element_loop, List.mem_cons]
    split
    · rename_i h
      simp [h]
    · rename_i h
      rw [ih]
      constructor
      · exact Or.inr
      · rintro (h' | h')
        · exact absurd h'.symm h
        · exact h'

theorem attach2cluster_spec {S : Nat → Prop} (i : Nat) (t : ClusterTracker)
    (E : Nat → Nat → Prop) (hF : Forest S t.atomic_clusters)
    (hP : Partition S E t.atomic_clusters) (hES : ∀ x y, E x y → S x ∧ S y)
    (hi : is_cluster_element t (species t i) = true → S i)
    (hS : ∀ c ∈ t.indices_in_cluster,
      is_cluster_element t (species t i) = true →
      is_cluster_element t (species t (t.updater.trans_matrix i c)) = true →
        S (t.updater.trans_matrix i c)) :
    ∃ ac', attach2cluster t i = ⟨{ t with atomic_clusters := ac' }, .ok ()⟩ ∧
      Forest S ac' ∧ Partition S (fun x y => E x y ∨ (x = i ∧ DirEdge t x y)) ac' ∧
      ac'.length = t.atomic_clusters.length ∧
      ∀ x, ¬ S x → ac'.getD x (-1) = t.atomic_clusters.getD x (-1) := by
  by_cases hel : is_cluster_element t (species t i) = true
  · have hiS := hi hel
    obtain ⟨k, cur, wi⟩ := hF.reach i hiS
    obtain ⟨ac', h1, h2, h3, _, h5, h6⟩ :=
      attach2cluster_loop_spec i cur k t.indices_in_cluster t E hF hP hES hiS wi
        (fun c hc => hS c hc hel)
    refine ⟨ac', ?_, h2, ?_, h5, h6⟩
    · rw [← h1]
      simp only [attach2cluster]
      rw [if_neg (by
        rw [show is_cluster_element t (t.symbols_cpy.getD i "") = true from hel]
        simp), root_indx_of_walk hF wi hiS]
      simp only
      rw [if_neg (by simpa using wi.isRoot)]
    · refine h3.congr fun x y => ?_
      constructor
      · rintro (h | ⟨rfl, h⟩)
        · exact Or.inl h
        · exact Or.inr ⟨rfl, hel, h⟩
      · rintro (h | ⟨rfl, _, h⟩)
        · exact Or.inl h
        · exact Or.inr ⟨rfl, h⟩
  · refine ⟨t.atomic_clusters, ?_, hF, ?_, rfl, fun _ _ => rfl⟩
    · simp only [attach2cluster]
      rw [if_pos (by simpa using hel)]
    · refine hP.congr fun x y => ⟨Or.inl, ?_⟩
      rintro (h | ⟨rfl, h, _⟩)
      · exact h
      · exact absurd h hel

theorem attach_sites_spec {S : Nat → Prop} :
    ∀ (sites : List Nat) (t : ClusterTracker) (E : Nat → Nat → Prop),
      Forest S t.atomic_clusters → Partition S E t.atomic_clusters →
      (∀ x y, E x y → S x ∧ S y) →
      (∀ i ∈ sites, is_cluster_element t (species t i) = true → S i) →
      (∀ i ∈ sites, ∀ c ∈ t.indices_in_cluster,
        is_cluster_element t (species t i) = true →
        is_cluster_element t (species t (t.updater.trans_matrix i c)) = true →
          S (t.updater.trans_matrix i c)) →
      ∃ ac', attach_sites sites t = ⟨{ t with atomic_clusters := ac' }, .ok ()⟩ ∧
        Forest S ac' ∧ Partition S (fun x y => E x y ∨ (x ∈ sites ∧ DirEdge t x y)) ac' ∧
        ac'.length = t.atomic_clusters.length ∧
        ∀ x, ¬ S x → ac'.getD x (-1) = t.atomic_clusters.getD x (-1) := by
  intro sites
  induction sites with
  | nil =>
    intro t E hF hP hES _ _
    refine ⟨t.atomic_clusters, rfl, hF, ?_, rfl, fun _ _ => rfl⟩
    refine hP.congr fun x y => ⟨Or.inl, ?_⟩
    rintro (h | ⟨h, _⟩)
    · exact h
    · exact absurd h (List.not_mem_nil x)
  | cons i rest ih =>
    intro t E hF hP hES hi hS
    obtain ⟨ac1, h1, hF1, hP1, hl1, ho1⟩ :=
      attach2cluster_spec i t E hF hP hES (hi i (List.mem_cons_self _ _))
        (hS i (List.mem_cons_self _ _))
    obtain ⟨ac2, h2, hF2, hP2, hl2, ho2⟩ :=
      ih { t with atomic_clusters := ac1 } _ hF1 hP1 (by
        rintro x y (h | ⟨rfl, h1, c, _, h2, h3⟩)
        · exact hES x y h
        · exact ⟨hi x (List.mem_cons_self _ _) h1,
            h2 ▸ hS x (List.mem_cons_self _ _) c ‹_› h1 (h2 ▸ h3)⟩)
        (fun j hj => hi j (List.mem_cons_of_mem _ hj))
        (fun j hj => hS j (List.mem_cons_of_mem _ hj))
    refine ⟨ac2, ?_, hF2, ?_, hl2.trans hl1, fun x hx => (ho2 x hx).trans (ho1 x hx)⟩
    · rw [← h2]
      simp only [attach_sites]
      rw [h1]
    · refine hP2.congr fun x y => ?_
      constructor
      · rintro ((h | ⟨rfl, h⟩) | ⟨h1, h2⟩)
        · exact Or.inl h
        · exact Or.inr ⟨List.mem_cons_self _ _, h⟩
        · exact Or.inr ⟨List.mem_cons_of_mem _ h1, h2⟩
      · rintro (h | ⟨h1, h2⟩)
        · exact Or.inl (Or.inl h)
        · rcases List.mem_cons.1 h1 with rfl | h1
          · exact Or.inl (Or.inr ⟨rfl, h2⟩)
          · exact Or.inr ⟨h1, h2⟩

theorem getD_replicate_neg_one (n i : Nat) : (List.replicate n (-1 : Int)).getD i (-1) = -1 := by
  rw [List.getD_eq_getElem?_getD, List.getElem?_replicate]
  split <;> rfl

theorem conn_false_eq {a b : Nat} (h : Conn (fun _ _ => False) a b) : a = b := by
  induction h with
  | refl => rfl
  | tail _ hs _ => exact absurd hs (by simp)

theorem find_clusters_scan_spec {S : Nat → Prop} (symbs : List String) (n : Nat) :
    ∀ (sites : List Nat) (t : ClusterTracker) (E : Nat → Nat → Prop),
      (∀ x, S x ↔ x < n ∧ is_cluster_element t (species t x) = true) →
      InRange t n → (∀ i ∈ sites, i < n) →
      Forest S t.atomic_clusters → Partition S E t.atomic_clusters →
      (∀ x y, E x y → S x ∧ S y) →
      ∃ ac' sol', find_clusters_scan symbs sites t =
          ⟨{ t with atomic_clusters := ac', solute_atoms_indices := sol' }, .ok ()⟩ ∧
        Forest S ac' ∧ Partition S (fun x y => E x y ∨ (x ∈ sites ∧ DirEdge t x y)) ac' ∧
        ac'.length = t.atomic_clusters.length ∧
        (∀ x, ¬ S x → ac'.getD x (-1) = t.atomic_clusters.getD x (-1)) ∧
        (∀ x, x ∈ sol' ↔ x ∈ t.solute_atoms_indices ∨
          (x ∈ sites ∧ is_cluster_element t (symbs.getD x "") = true)) ∧
        (t.solute_atoms_indices.Pairwise (· < ·) → sol'.Pairwise (· < ·)) := by
  intro sites
  induction sites with
  | nil =>
    intro t E _ _ _ hF hP _
    refine ⟨t.atomic_clusters, t.solute_atoms_indices, rfl, hF, ?_, rfl, fun _ _ => rfl, ?_, id⟩
    · refine hP.congr fun x y => ⟨Or.inl, ?_⟩
      rintro (h | ⟨h, _⟩)
      · exact h
      · exact absurd h (List.not_mem_nil x)
    · intro x
      simp
  | cons i rest ih =>
    intro t E hS hR hlt hF hP hES
    have hin : i < n := hlt i (List.mem_cons_self _ _)
    have hi : is_cluster_element t (species t i) = true → S i := fun h => (hS i).2 ⟨hin, h⟩
    have hnb : ∀ c ∈ t.indices_in_cluster, is_cluster_element t (species t i) = true →
        is_cluster_element t (species t (t.updater.trans_matrix i c)) = true →
        S (t.updater.trans_matrix i c) := fun c hc _ h => (hS _).2 ⟨hR i hin c hc, h⟩
    have hcongr : ∀ (ac2 : List Int), Partition S
        (fun x y => (E x y ∨ (x = i ∧ DirEdge t x y)) ∨ (x ∈ rest ∧ DirEdge t x y)) ac2 →
        Partition S (fun x y => E x y ∨ (x ∈ i :: rest ∧ DirEdge t x y)) ac2 := by
      intro ac2 hp
      refine hp.congr fun x y => ?_
      constructor
      · rintro ((h | ⟨rfl, h⟩) | ⟨h1, h2⟩)
        · exact Or.inl h
        · exact Or.inr ⟨List.mem_cons_self _ _, h⟩
        · exact Or.inr ⟨List.mem_cons_of_mem _ h1, h2⟩
      · rintro (h | ⟨h1, h2⟩)
        · exact Or.inl (Or.inl h)
        · rcases List.mem_cons.1 h1 with rfl | h1
          · exact Or.inl (Or.inr ⟨rfl, h2⟩)
          · exact Or.inr ⟨h1, h2⟩
    have hES1 : ∀ x y, (E x y ∨ (x = i ∧ DirEdge t x y)) → S x ∧ S y := by
      rintro x y (h | ⟨rfl, h1, c, hc, h2, h3⟩)
      · exact hES x y h
      · exact ⟨hi h1, h2 ▸ hnb c hc h1 (h2 ▸ h3)⟩
    by_cases hel : is_cluster_element t (symbs.getD i "") = true
    · obtain ⟨ac1, h1, hF1, hP1, hl1, ho1⟩ :=
        attach2cluster_spec i
          { t with solute_atoms_indices := set_insert i t.solute_atoms_indices } E hF hP hES
          hi hnb
      obtain ⟨ac2, sol2, h2, hF2, hP2, hl2, ho2, hm2, hp2⟩ :=
        ih { t with
              solute_atoms_indices := set_insert i t.solute_atoms_indices
              atomic_clusters := ac1 } _ hS hR
          (fun j hj => hlt j (List.mem_cons_of_mem _ hj)) hF1 hP1 hES1
      refine ⟨ac2, sol2, ?_, hF2, hcongr ac2 hP2, hl2.trans hl1,
        fun x hx => (ho2 x hx).trans (ho1 x hx), ?_, ?_⟩
      · rw [← h2]
        simp only [find_clusters_scan]
        rw [if_pos hel, h1]
      · intro x
        rw [hm2 x]
        show x ∈ set_insert i t.solute_atoms_indices ∨ _ ↔ _
        rw [mem_set_insert]
        constructor
        · rintro ((rfl | h) | ⟨h1, h2⟩)
          · exact Or.inr ⟨List.mem_cons_self _ _, hel⟩
          · exact Or.inl h
          · exact Or.inr ⟨List.mem_cons_of_mem _ h1, h2⟩
        · rintro (h | ⟨h1, h2⟩)
          · exact Or.inl (Or.inr h)
          · rcases List.mem_cons.1 h1 with rfl | h1
            · exact Or.inl (Or.inl rfl)
            · exact Or.inr ⟨h1, h2⟩
      · intro hp
        exact hp2 (pairwise_set_insert i _ hp)
    · obtain ⟨ac1, h1, hF1, hP1, hl1, ho1⟩ := attach2cluster_spec i t E hF hP hES hi hnb
      obtain ⟨ac2, sol2, h2, hF2, hP2, hl2, ho2, hm2, hp2⟩ :=
        ih { t with atomic_clusters := ac1 } _ hS hR
          (fun j hj => hlt j (List.mem_cons_of_mem _ hj)) hF1 hP1 hES1
      refine ⟨ac2, sol2, ?_, hF2, hcongr ac2 hP2, hl2.trans hl1,
        fun x hx => (ho2 x hx).trans (ho1 x hx), ?_, hp2⟩
      · rw [← h2]
        simp only [find_clusters_scan]
        rw [if_neg hel, h1]
      · intro x
        rw [hm2 x]
        show x ∈ t.solute_atoms_indices ∨ _ ↔ _
        constructor
        · rintro (h | ⟨h1, h2⟩)
          · exact Or.inl h
          · exact Or.inr ⟨List.mem_cons_of_mem _ h1, h2⟩
        · rintro (h | ⟨h1, h2⟩)
          · exact Or.inl h
          · rcases List.mem_cons.1 h1 with rfl | h1
            · exact absurd h2 hel
            · exact Or.inr ⟨h1, h2⟩

theorem conn_soluteEdge_iff (t : ClusterTracker) (a b : Nat) :
    Conn (SoluteEdge t) a b ↔ Linked t a b := by
  have h : ∀ x y, (SoluteEdge t x y ∨ SoluteEdge t y x) ↔ Adjacent t x y := by
    intro x y
    constructor
    · rintro (⟨h1, h2, h3⟩ | ⟨h1, h2, h3⟩)
      · exact ⟨h1, h2, Or.inl h3⟩
      · exact ⟨h2, h1, Or.inr h3⟩
    · rintro ⟨h1, h2, h3 | h3⟩
      · exact Or.inl ⟨h1, h2, h3⟩
      · exact Or.inr ⟨h2, h1, h3⟩
  exact ⟨fun hc => Relation.ReflTransGen.mono (fun x y => (h x y).1) hc,
    fun hc => Relation.ReflTransGen.mono (fun x y => (h x y).2) hc⟩

theorem soluteEdge_iff_dirEdge (t : ClusterTracker) (hR : InRange t t.symbols_cpy.length)
    (x y : Nat) : SoluteEdge t x y ↔ x < t.symbols_cpy.length ∧ DirEdge t x y := by
  constructor
  · rintro ⟨⟨h1, h2⟩, ⟨_, h4⟩, c, hc, h5⟩
    exact ⟨h1, h2, c, hc, h5, h4⟩
  · rintro ⟨h1, h2, c, hc, h3, h4⟩
    exact ⟨⟨h1, h2⟩, ⟨h3 ▸ hR x h1 c hc, h4⟩, c, hc, h3⟩

theorem find_clusters_false_spec (t : ClusterTracker)
    (hR : InRange t t.updater.symbols.length) :
    ∃ ac' sol', find_clusters t false =
        ⟨{ t with
            symbols_cpy := t.updater.symbols
            atomic_clusters := ac'
            solute_atoms_indices := sol' }, .ok ()⟩ ∧
      Scanned { t with
        symbols_cpy := t.updater.symbols
        atomic_clusters := ac'
        solute_atoms_indices := sol' } := by
  obtain ⟨ac', sol', h1, hF, hP, hl, ho, hm, hp⟩ :=
    find_clusters_scan_spec
      (S := fun x => x < t.updater.symbols.length ∧
        is_cluster_element t (t.updater.symbols.getD x "") = true)
      t.updater.symbols t.updater.symbols.length
      (List.range t.updater.symbols.length)
      { t with
        symbols_cpy := t.updater.symbols
        solute_atoms_indices := []
        atomic_clusters := List.replicate t.updater.symbols.length (-1) }
      (fun _ _ => False) (fun x => Iff.rfl) hR (fun i hi => List.mem_range.1 hi)
      ⟨fun i hi => by simpa using hi.1,
        fun i _ hne => absurd (getD_replicate_neg_one _ _) hne,
        fun i _ => ⟨0, i, Walk.root (getD_replicate_neg_one _ _)⟩⟩
      (by
        intro a b ka kb ra rb _ _ wa wb
        have ea := (wa.det (Walk.root (getD_replicate_neg_one _ a))).2
        have eb := (wb.det (Walk.root (getD_replicate_neg_one _ b))).2
        subst ea eb
        exact ⟨fun h => h ▸ Relation.ReflTransGen.refl, conn_false_eq⟩)
      (fun _ _ h => absurd h id)
  refine ⟨ac', sol', ?_, ?_⟩
  · rw [← h1]
    simp [find_clusters]
  · refine ⟨by rw [hl]; simp, hF, ?_, ?_, ?_, hp List.Pairwise.nil⟩
    · refine hP.congr fun x y => ?_
      refine Iff.trans ?_
        (soluteEdge_iff_dirEdge { t with
          symbols_cpy := t.updater.symbols
          atomic_clusters := ac'
          solute_atoms_indices := sol' } hR x y).symm
      constructor
      · rintro (h | ⟨h1, h2⟩)
        · exact absurd h id
        · exact ⟨List.mem_range.1 h1, h2⟩
      · rintro ⟨h1, h2⟩
        exact Or.inr ⟨List.mem_range.2 h1, h2⟩
    · intro x hx
      rw [ho x hx]
      exact getD_replicate_neg_one _ _
    · intro x
      rw [hm x]
      constructor
      · rintro (h | ⟨h1, h2⟩)
        · exact absurd h (List.not_mem_nil x)
        · exact ⟨List.mem_range.1 h1, h2⟩
      · rintro ⟨h1, h2⟩
        exact Or.inr ⟨List.mem_range.2 h1, h2⟩

theorem getD_set_str (l : List String) (x i : Nat) (v : String) :
    (l.set x v).getD i "" = if i = x ∧ x < l.length then v else l.getD i "" := by
  simp only [List.getD_eq_getElem?_getD, List.getElem?_set]
  by_cases h : x = i
  · subst h
    by_cases hx : x < l.length
    · simp [hx]
    · simp [hx]
      rw [List.getElem?_eq_none (by omega)]
      rfl
  · have : ¬ (i = x ∧ x < l.length) := fun hh => h hh.1.symm
    simp [h, this]

theorem root_indx_of_root (t : ClusterTracker) (i : Nat)
    (h : t.atomic_clusters.getD i (-1) = -1) (hn : 0 < t.atomic_clusters.length) :
    root_indx t i = .ok i := by
  simp only [root_indx, root_indx_loop_of_walk (Walk.root h) _ hn]
  rw [if_neg (by omega)]

theorem reset_sites_length : ∀ (sites : List Nat) (ac : List Int),
    (reset_sites sites ac).length = ac.length := by
  intro sites
  induction sites with
  | nil => intro ac; rfl
  | cons i rest ih =>
    intro ac
    simp only [reset_sites]
    rw [ih, List.length_set]

theorem reset_sites_getD : ∀ (sites : List Nat) (ac : List Int) (x : Nat),
    (reset_sites sites ac).getD x (-1) =
      if x ∈ sites ∧ x < ac.length then -1 else ac.getD x (-1) := by
  intro sites
  induction sites with
  | nil => intro ac x; simp [reset_sites]
  | cons i rest ih =>
    intro ac x
    simp only [reset_sites]
    rw [ih, List.length_set, getD_set_int]
    by_cases h1 : x ∈ rest ∧ x < ac.length
    · rw [if_pos h1, if_pos ⟨List.mem_cons_of_mem _ h1.1, h1.2⟩]
    · rw [if_neg h1]
      by_cases h2 : x = i ∧ i < ac.length
      · rw [if_pos h2, if_pos ⟨h2.1 ▸ List.mem_cons_self _ _, h2.1 ▸ h2.2⟩]
      · rw [if_neg h2, if_neg]
        rintro ⟨h3, h4⟩
        rcases List.mem_cons.1 h3 with rfl | h3
        · exact h2 ⟨rfl, h4⟩
        · exact h1 ⟨h3, h4⟩

theorem find_clusters_true_spec (t : ClusterTracker)
    (hl : t.atomic_clusters.length = t.symbols_cpy.length)
    (hR : InRange t t.symbols_cpy.length) (hm : Consistent t) :
    ∃ ac', find_clusters t true = ⟨{ t with atomic_clusters := ac' }, .ok ()⟩ ∧
      Forest (Solute t) ac' ∧ Partition (Solute t) (SoluteEdge t) ac' ∧
      ac'.length = t.atomic_clusters.length ∧
      ∀ x, ¬ Solute t x → ac'.getD x (-1) = t.atomic_clusters.getD x (-1) := by
  have hreset : ∀ x, Solute t x →
      (reset_sites t.solute_atoms_indices t.atomic_clusters).getD x (-1) = -1 := by
    intro x hx
    rw [reset_sites_getD, if_pos ⟨(hm x).2 hx, hl ▸ hx.1⟩]
  obtain ⟨ac', h1, hF, hP, hlen, ho⟩ :=
    attach_sites_spec (S := Solute t) t.solute_atoms_indices
      { t with atomic_clusters := reset_sites t.solute_atoms_indices t.atomic_clusters }
      (fun _ _ => False)
      ⟨fun i hi => by
          show i < (reset_sites t.solute_atoms_indices t.atomic_clusters).length
          rw [reset_sites_length, hl]
          exact hi.1,
        fun i hi hne => absurd (hreset i hi) hne,
        fun i hi => ⟨0, i, Walk.root (hreset i hi)⟩⟩
      (by
        intro a b ka kb ra rb ha hb wa wb
        have ea := (wa.det (Walk.root (hreset a ha))).2
        have eb := (wb.det (Walk.root (hreset b hb))).2
        subst ea eb
        exact ⟨fun h => h ▸ Relation.ReflTransGen.refl, conn_false_eq⟩)
      (fun _ _ h => absurd h id)
      (fun i hi _ => (hm i).1 hi)
      (fun i hi c hc _ h => ⟨hR i ((hm i).1 hi).1 c hc, h⟩)
  refine ⟨ac', ?_, hF, ?_, ?_, ?_⟩
  · rw [← h1]
    simp [find_clusters]
  · refine hP.congr fun x y => ?_
    refine Iff.trans ?_ (soluteEdge_iff_dirEdge t hR x y).symm
    constructor
    · rintro (h | ⟨h1, h2⟩)
      · exact absurd h id
      · exact ⟨((hm x).1 h1).1, h2⟩
    · rintro ⟨h1, h2⟩
      exact Or.inr ⟨(hm x).2 ⟨h1, h2.1⟩, h2⟩
  · rw [hlen]
    exact reset_sites_length _ _
  · intro x hx
    rw [ho x hx]
    show (reset_sites t.solute_atoms_indices t.atomic_clusters).getD x (-1) = _
    rw [reset_sites_getD, if_neg]
    exact fun h => hx ((hm x).1 h.1)

theorem apply_changes_eq (t : ClusterTracker) (changes : swap_move)
    (hx : CrossesBoundary t changes) :
    apply_changes t changes =
      ⟨vacated t changes, arrived t changes,
        { t with
          atomic_clusters := t.atomic_clusters.set (vacated t changes) (-1)
          symbols_cpy := species_after t changes
          solute_atoms_indices :=
            set_insert (arrived t changes)
              (set_erase (vacated t changes) t.solute_atoms_indices) }⟩ := by
  unfold CrossesBoundary at hx
  cases h0 : is_cluster_element t changes.c0.old_symb <;>
    cases h1 : is_cluster_element t changes.c1.old_symb <;>
    rw [h0, h1] at hx
  · exact absurd rfl hx
  · have h1' : is_cluster_element_loop changes.c1.old_symb t.elements = true := h1
    have h0' : is_cluster_element_loop changes.c0.old_symb t.elements = false := h0
    simp [apply_changes, apply_change, swap_move.toList, is_cluster_element, h0', h1',
      vacated, arrived, species_after]
  · have h1' : is_cluster_element_loop changes.c1.old_symb t.elements = false := h1
    have h0' : is_cluster_element_loop changes.c0.old_symb t.elements = true := h0
    simp [apply_changes, apply_change, swap_move.toList, is_cluster_element, h0', h1',
      vacated, arrived, species_after]
  · exact absurd rfl hx

theorem species_after_getD (t : ClusterTracker) (changes : swap_move)
    (h : ConsistentSwap t changes) (x : Nat) :
    (species_after t changes).getD x "" =
      if x = changes.c1.indx then changes.c0.old_symb
      else if x = changes.c0.indx then changes.c1.old_symb
      else species t x := by
  unfold species_after
  rw [getD_set_str, List.length_set, getD_set_str]
  by_cases h1 : x = changes.c1.indx
  · rw [if_pos ⟨h1, h.lt1⟩, if_pos h1, h.new1]
  · rw [if_neg (fun hh => h1 hh.1), if_neg h1]
    by_cases h0 : x = changes.c0.indx
    · rw [if_pos ⟨h0, h.lt0⟩, if_pos h0, h.new0]
    · rw [if_neg (fun hh => h0 hh.1), if_neg h0]

theorem species_after_length (t : ClusterTracker) (changes : swap_move) :
    (species_after t changes).length = t.symbols_cpy.length := by
  simp [species_after]

/-- Across the boundary the solute sites after the swap are the old ones without the vacated
site and with the site the cluster element arrived at. -/
theorem solute_after_swap (t : ClusterTracker) (changes : swap_move)
    (h : ConsistentSwap t changes) (hx : CrossesBoundary t changes) (x : Nat) :
    Solute (after_swap t changes) x ↔
      x = arrived t changes ∨ (x ≠ vacated t changes ∧ Solute t x) := by
  unfold CrossesBoundary at hx
  have hsp : species (after_swap t changes) x = (species_after t changes).getD x "" := rfl
  have hel : ∀ s, is_cluster_element (after_swap t changes) s = is_cluster_element t s :=
    fun _ => rfl
  have hlen : (after_swap t changes).symbols_cpy.length = t.symbols_cpy.length :=
    species_after_length t changes
  unfold Solute
  rw [hsp, hel, hlen, species_after_getD t changes h x]
  have hd := h.distinct
  have hl0 := h.lt0
  have hl1 := h.lt1
  have ho0 := h.old0
  have ho1 := h.old1
  cases h0 : is_cluster_element t changes.c0.old_symb <;>
    cases h1 : is_cluster_element t changes.c1.old_symb <;>
    rw [h0, h1] at hx
  · exact absurd rfl hx
  · simp only [vacated, arrived, h0, Bool.false_eq_true, if_false]
    by_cases e1 : x = changes.c1.indx
    · subst e1
      simp [h0, Ne.symm hd, hl1]
    · by_cases e0 : x = changes.c0.indx
      · subst e0
        simp [h1, e1, hl0]
      · simp [e0, e1]
  · simp only [vacated, arrived, h0, if_true]
    by_cases e1 : x = changes.c1.indx
    · subst e1
      simp [h0, hl1]
    · by_cases e0 : x = changes.c0.indx
      · subst e0
        simp [h1, e1]
      · simp [e0, e1]
  · exact absurd rfl hx

theorem branch_conditions (t : ClusterTracker) (changes : swap_move)
    (h : ConsistentSwap t changes) (hx : CrossesBoundary t changes) :
    (is_cluster_element t changes.c0.old_symb && is_cluster_element t changes.c0.new_symb)
        = false ∧
      (!is_cluster_element t changes.c0.old_symb && !is_cluster_element t changes.c0.new_symb)
        = false := by
  unfold CrossesBoundary at hx
  rw [h.new0]
  cases h0 : is_cluster_element t changes.c0.old_symb <;>
    cases h1 : is_cluster_element t changes.c1.old_symb <;>
    rw [h0, h1] at hx <;> simp at hx ⊢

theorem moved_consistent (t : ClusterTracker) (changes : swap_move) (hc : Consistent t)
    (h : ConsistentSwap t changes) (hx : CrossesBoundary t changes) :
    Consistent (moved t changes) := by
  intro x
  show x ∈ set_insert _ (set_erase _ _) ↔ Solute (after_swap t changes) x
  rw [solute_after_swap t changes h hx, mem_set_insert, mem_set_erase, hc x]

theorem moved_wellFormed (t : ClusterTracker) (changes : swap_move) (hw : WellFormed t) :
    WellFormed (moved t changes) := by
  refine ⟨?_, ?_, pairwise_set_insert _ _ (pairwise_set_erase _ _ hw.sorted)⟩
  · show (t.atomic_clusters.set _ _).length = (species_after t changes).length
    rw [List.length_set, species_after_length, hw.length_eq]
  · show InRange (moved t changes) (species_after t changes).length
    rw [species_after_length]
    exact hw.in_range

theorem update_clusters_eq (t : ClusterTracker) (changes : swap_move)
    (h : ConsistentSwap t changes) (hx : CrossesBoundary t changes) :
    update_clusters t changes = find_clusters (moved t changes) true := by
  obtain ⟨hb1, hb2⟩ := branch_conditions t changes h hx
  unfold update_clusters
  rw [hb1, hb2, apply_changes_eq t changes hx]
  rfl

theorem Scanned.no_child_of_outside {t : ClusterTracker} (h : Scanned t) {i : Nat}
    (hi : ¬ Solute t i) (j : Nat) : t.atomic_clusters.getD j (-1) ≠ (i : Int) := by
  intro hj
  by_cases hs : Solute t j
  · have hne : t.atomic_clusters.getD j (-1) ≠ -1 := by rw [hj]; omega
    have := (h.forest.closed j hs hne).2
    rw [hj, Int.toNat_ofNat] at this
    exact hi this
  · rw [h.outside j hs] at hj
    omega

theorem Scanned.root_indx_outside {t : ClusterTracker} (h : Scanned t) {i : Nat}
    (hi : ¬ Solute t i) (hlt : i < t.symbols_cpy.length) : root_indx t i = .ok i :=
  root_indx_of_root t i (h.outside i hi) (by rw [h.length_eq]; omega)

theorem Scanned.root_indx_solute {t : ClusterTracker} (h : Scanned t) {i : Nat}
    (hi : Solute t i) :
    ∃ k r, Walk t.atomic_clusters k i r ∧ root_indx t i = .ok r ∧ Solute t r := by
  obtain ⟨k, r, w⟩ := h.forest.reach i hi
  exact ⟨k, r, w, root_indx_of_walk h.forest w hi, w.mem h.forest hi⟩

/-- C4. After the full scan `find_clusters(false)`, for every species assignment and every
translation table that maps sites to sites: the scan returns, two solute sites have the same
`root_indx` if and only if they are linked by a chain of solute sites whose consecutive members
are neighbours under the tracked offsets, and every non-solute site is a root to which no site is
attached. -/
theorem find_clusters_scan_groups_linked_sites (t : ClusterTracker)
    (hR : InRange t t.updater.symbols.length) :
    (find_clusters t false).outcome = .ok () ∧
    (find_clusters t false).tracker.symbols_cpy = t.updater.symbols ∧
    (∀ a b, Solute (find_clusters t false).tracker a → Solute (find_clusters t false).tracker b →
      ∃ ra rb, root_indx (find_clusters t false).tracker a = .ok ra ∧
        root_indx (find_clusters t false).tracker b = .ok rb ∧
        (ra = rb ↔ Linked (find_clusters t false).tracker a b)) ∧
    (∀ i, i < t.updater.symbols.length → ¬ Solute (find_clusters t false).tracker i →
      root_indx (find_clusters t false).tracker i = .ok i ∧
      (find_clusters t false).tracker.atomic_clusters.getD i (-1) = -1 ∧
      ∀ j, (find_clusters t false).tracker.atomic_clusters.getD j (-1) ≠ (i : Int)) := by
  obtain ⟨ac', sol', h1, hS⟩ := find_clusters_false_spec t hR
  rw [h1]
  refine ⟨rfl, rfl, ?_, ?_⟩
  · intro a b ha hb
    obtain ⟨ka, ra, wa, ea, _⟩ := hS.root_indx_solute ha
    obtain ⟨kb, rb, wb, eb, _⟩ := hS.root_indx_solute hb
    refine ⟨ra, rb, ea, eb, ?_⟩
    rw [hS.partition a b ka kb ra rb ha hb wa wb]
    exact conn_soluteEdge_iff _ a b
  · intro i hi hns
    exact ⟨hS.root_indx_outside hns hi, hS.outside i hns, hS.no_child_of_outside hns⟩

/-- C10. Off the solute boundary `applyMove` is a no-op: when the old and the new species of the
first change are both cluster elements or both not, `update_clusters` returns leaving the tracker
as it was, and `move_creates_new_cluster` returns `false` leaving the tracker as it was. -/
theorem update_clusters_noop_off_boundary (t : ClusterTracker) (changes : swap_move)
    (h : is_cluster_element t changes.c0.old_symb = is_cluster_element t changes.c0.new_symb) :
    update_clusters t changes = ⟨t, .ok ()⟩ ∧
      move_creates_new_cluster t changes = ⟨t, .ok false⟩ := by
  unfold update_clusters move_creates_new_cluster
  rw [← h]
  cases is_cluster_element t changes.c0.old_symb <;> simp

/-- What `find_clusters(true)` leaves after a swap across the boundary from a consistent
tracker. -/
theorem update_clusters_spec (t : ClusterTracker) (changes : swap_move)
    (hw : WellFormed t) (hc : Consistent t)
    (h : ConsistentSwap t changes) (hx : CrossesBoundary t changes) :
    ∃ ac', update_clusters t changes =
        ⟨{ moved t changes with atomic_clusters := ac' }, .ok ()⟩ ∧
      Forest (Solute (after_swap t changes)) ac' ∧
      Partition (Solute (after_swap t changes)) (SoluteEdge (after_swap t changes)) ac' ∧
      ac'.length = t.atomic_clusters.length ∧
      ∀ x, ¬ Solute (after_swap t changes) x →
        ac'.getD x (-1) = (t.atomic_clusters.set (vacated t changes) (-1)).getD x (-1) := by
  have hw' := moved_wellFormed t changes hw
  obtain ⟨ac', h1, hF, hP, hl, ho⟩ :=
    find_clusters_true_spec (moved t changes) hw'.length_eq hw'.in_range
      (moved_consistent t changes hc h hx)
  refine ⟨ac', ?_, hF, hP, ?_, ho⟩
  · rw [update_clusters_eq t changes h hx, h1]
  · rw [hl]
    exact List.length_set _ _ _

theorem Scanned.root_indx_eq_iff {t : ClusterTracker} (h : Scanned t) (i j : Nat)
    (hi : i < t.symbols_cpy.length) (hj : j < t.symbols_cpy.length) :
    ∃ ri rj, root_indx t i = .ok ri ∧ root_indx t j = .ok rj ∧
      (ri = rj ↔ SameGroup t i j) := by
  by_cases si : Solute t i <;> by_cases sj : Solute t j
  · obtain ⟨ki, ri, wi, ei, _⟩ := h.root_indx_solute si
    obtain ⟨kj, rj, wj, ej, _⟩ := h.root_indx_solute sj
    refine ⟨ri, rj, ei, ej, ?_⟩
    rw [h.partition i j ki kj ri rj si sj wi wj, conn_soluteEdge_iff]
    constructor
    · exact fun hl => Or.inr ⟨si, sj, hl⟩
    · rintro (rfl | ⟨_, _, hl⟩)
      · exact Relation.ReflTransGen.refl
      · exact hl
  · obtain ⟨ki, ri, wi, ei, sri⟩ := h.root_indx_solute si
    refine ⟨ri, j, ei, h.root_indx_outside sj hj, ?_⟩
    constructor
    · rintro rfl
      exact absurd sri sj
    · rintro (rfl | ⟨_, hh, _⟩)
      · exact absurd si sj
      · exact absurd hh sj
  · obtain ⟨kj, rj, wj, ej, srj⟩ := h.root_indx_solute sj
    refine ⟨i, rj, h.root_indx_outside si hi, ej, ?_⟩
    constructor
    · rintro rfl
      exact absurd srj si
    · rintro (rfl | ⟨hh, _, _⟩)
      · exact absurd sj si
      · exact absurd hh si
  · refine ⟨i, j, h.root_indx_outside si hi, h.root_indx_outside sj hj, ?_⟩
    constructor
    · exact fun hh => Or.inl hh
    · rintro (rfl | ⟨hh, _, _⟩)
      · rfl
      · exact absurd hh si

theorem getD_set_bool (l : List Bool) (x i : Nat) (v : Bool) :
    (l.set x v).getD i false = if i = x ∧ x < l.length then v else l.getD i false := by
  simp only [List.getD_eq_getElem?_getD, List.getElem?_set]
  by_cases h : x = i
  · subst h
    by_cases hx : x < l.length
    · simp [hx]
    · simp [hx]
      rw [List.getElem?_eq_none (by omega)]
      rfl
  · have : ¬ (i = x ∧ x < l.length) := fun hh => h hh.1.symm
    simp [h, this]

theorem is_in_vector_iff (x : Nat) (vec : List Nat) : is_in_vector x vec = true ↔ x ∈ vec := by
  simp [is_in_vector]

theorem rebuild_attach_spec (t : ClusterTracker) (n : Nat) (L : List Nat) (site : Nat)
    (hL : ∀ x ∈ L, x < n) (hsite : site ∈ L) :
    ∀ (cs : List Nat) (s : RebuildLoop), (∀ c ∈ cs, c ∈ t.indices_in_cluster) →
      Rebuilding t n L s →
      Rebuilding t n L (rebuild_attach t L site cs s) ∧
      (∀ x, s.already_inserted.getD x false = true →
        (rebuild_attach t L site cs s).already_inserted.getD x false = true) ∧
      (∀ x, x ∉ L → (rebuild_attach t L site cs s).atomic_clusters.getD x (-1) =
        s.atomic_clusters.getD x (-1)) ∧
      (∀ c ∈ cs, t.updater.trans_matrix site c ∈ L →
        (rebuild_attach t L site cs s).already_inserted.getD
          (t.updater.trans_matrix site c) false = true) := by
  intro cs
  induction cs with
  | nil =>
    intro s _ hK
    exact ⟨hK, fun _ h => h, fun _ _ => rfl, fun c hc => absurd hc (List.not_mem_nil c)⟩
  | cons c rest ih =>
    intro s hcs hK
    have hrest : ∀ c' ∈ rest, c' ∈ t.indices_in_cluster :=
      fun c' hc' => hcs c' (List.mem_cons_of_mem _ hc')
    simp only [rebuild_attach]
    by_cases hcond : (is_in_vector (t.updater.trans_matrix site c) L &&
        !(s.already_inserted.getD (t.updater.trans_matrix site c) false)) = true
    · rw [if_pos hcond]
      rw [Bool.and_eq_true, is_in_vector_iff] at hcond
      obtain ⟨hin, hnot⟩ := hcond
      have hlt : t.updater.trans_matrix site c < n := hL _ hin
      have hK1 : Rebuilding t n L
          ⟨s.atomic_clusters.set (t.updater.trans_matrix site c) (site : Int),
            s.already_inserted.set (t.updater.trans_matrix site c) true⟩ := by
        refine ⟨by simp [hK.len_ac], by simp [hK.len_ins], ?_⟩
        intro x hx
        simp only [getD_set_bool, getD_set_int, hK.len_ac, hK.len_ins] at hx ⊢
        by_cases hxe : x = t.updater.trans_matrix site c
        · rw [if_pos ⟨hxe, hlt⟩]
          exact ⟨hxe ▸ hin, Or.inr ⟨site, hsite, rfl,
            c, hcs c (List.mem_cons_self _ _), hxe.symm⟩⟩
        · rw [if_neg (fun hh => hxe hh.1)] at hx ⊢
          exact hK.inserted x hx
      obtain ⟨h1, h2, h3, h4⟩ := ih _ hrest hK1
      refine ⟨h1, ?_, ?_, ?_⟩
      · intro x hx
        refine h2 x ?_
        simp only [getD_set_bool]
        split
        · rfl
        · exact hx
      · intro x hx
        rw [h3 x hx]
        simp only [getD_set_int]
        rw [if_neg]
        rintro ⟨rfl, _⟩
        exact hx hin
      · intro c' hc' hmem
        rcases List.mem_cons.1 hc' with rfl | hc'
        · refine h2 _ ?_
          show (s.already_inserted.set _ true).getD _ false = true
          rw [getD_set_bool, if_pos ⟨rfl, by rw [hK.len_ins]; exact hlt⟩]
        · exact h4 c' hc' hmem
    · rw [if_neg hcond]
      obtain ⟨h1, h2, h3, h4⟩ := ih s hrest hK
      refine ⟨h1, h2, h3, ?_⟩
      intro c' hc' hmem
      rcases List.mem_cons.1 hc' with rfl | hc'
      · refine h2 _ ?_
        rw [Bool.and_eq_true, is_in_vector_iff] at hcond
        by_contra hne
        exact hcond ⟨hmem, by simpa using hne⟩
      · exact h4 c' hc' hmem

theorem rebuild_group_spec (t : ClusterTracker) (n : Nat) (L : List Nat)
    (hL : ∀ x ∈ L, x < n) :
    ∀ (sites : List Nat) (s : RebuildLoop), (∀ y ∈ sites, y ∈ L) →
      Rebuilding t n L s →
      Rebuilding t n L (rebuild_group t L sites s) ∧
      (∀ x, s.already_inserted.getD x false = true →
        (rebuild_group t L sites s).already_inserted.getD x false = true) ∧
      (∀ x, x ∉ L → (rebuild_group t L sites s).atomic_clusters.getD x (-1) =
        s.atomic_clusters.getD x (-1)) ∧
      (∀ y ∈ sites, ∀ c ∈ t.indices_in_cluster, t.updater.trans_matrix y c ∈ L →
        (rebuild_group t L sites s).already_inserted.getD
          (t.updater.trans_matrix y c) false = true) := by
  intro sites
  induction sites with
  | nil =>
    intro s _ hK
    exact ⟨hK, fun _ h => h, fun _ _ => rfl, fun y hy => absurd hy (List.not_mem_nil y)⟩
  | cons site rest ih =>
    intro s hsites hK
    obtain ⟨a1, a2, a3, a4⟩ :=
      rebuild_attach_spec t n L site hL (hsites site (List.mem_cons_self _ _))
        t.indices_in_cluster s (fun _ h => h) hK
    obtain ⟨b1, b2, b3, b4⟩ := ih _ (fun y hy => hsites y (List.mem_cons_of_mem _ hy)) a1
    simp only [rebuild_group]
    refine ⟨b1, fun x hx => b2 x (a2 x hx), fun x hx => (b3 x hx).trans (a3 x hx), ?_⟩
    intro y hy c hc hmem
    rcases List.mem_cons.1 hy with rfl | hy
    · exact b2 _ (a4 c hc hmem)
    · exact b4 y hy c hc hmem

theorem group_of_eq_of_walk {S : Nat → Prop} {ac : List Int} (hF : Forest S ac) {k i r : Nat}
    (h : Walk ac k i r) (hi : S i) : group_of ac i = r := by
  unfold group_of
  rw [root_indx_loop_of_walk h _ (h.lt_length hF hi)]

theorem atomic_clusters2group_indx_loop_eq {S : Nat → Prop} {ac : List Int} (hF : Forest S ac) :
    ∀ sites : List Nat, (∀ i ∈ sites, S i) →
      atomic_clusters2group_indx_loop ac sites = .ok (sites.map (group_of ac)) := by
  intro sites
  induction sites with
  | nil => intro _; rfl
  | cons i rest ih =>
    intro hs
    obtain ⟨k, r, w⟩ := hF.reach i (hs i (List.mem_cons_self _ _))
    have hk := w.lt_length hF (hs i (List.mem_cons_self _ _))
    simp only [atomic_clusters2group_indx_loop, List.map_cons]
    rw [ih (fun j hj => hs j (List.mem_cons_of_mem _ hj))]
    simp only [group_of]
    rw [root_indx_loop_of_walk w _ hk, if_neg (by omega)]

theorem mem_sites_of_group (g0 : Nat → Nat) (n g x : Nat) :
    x ∈ sites_of_group ((List.range n).map g0) g ↔ x < n ∧ g0 x = g := by
  unfold sites_of_group
  rw [List.mem_filter, List.length_map, List.length_range, List.mem_range]
  constructor
  · rintro ⟨h1, h2⟩
    refine ⟨h1, ?_⟩
    rw [List.getD_eq_getElem _ _ (by simpa using h1)] at h2
    simpa using h2
  · rintro ⟨h1, h2⟩
    refine ⟨h1, ?_⟩
    rw [List.getD_eq_getElem _ _ (by simpa using h1)]
    simpa using h2

theorem rebuild_one_group (t : ClusterTracker) (n : Nat) (L : List Nat) (ac : List Int)
    (hlen : ac.length = n) (hL : ∀ x ∈ L, x < n) (hne : L ≠ [])
    (hNb : ∀ x ∈ L, ∃ y ∈ L, Neighbour t y x) :
    (rebuild_group t L L
        ⟨ac.set (L.headD 0) (-1),
          (List.replicate ac.length false).set (L.headD 0) true⟩).atomic_clusters.length = n ∧
    (∀ x ∈ L,
      (rebuild_group t L L
        ⟨ac.set (L.headD 0) (-1),
          (List.replicate ac.length false).set (L.headD 0) true⟩).atomic_clusters.getD x (-1)
          = -1 ∨
      ∃ y ∈ L,
        (rebuild_group t L L
          ⟨ac.set (L.headD 0) (-1),
            (List.replicate ac.length false).set (L.headD 0) true⟩).atomic_clusters.getD x (-1)
            = (y : Int) ∧ Neighbour t y x) ∧
    (∀ x, x ∉ L →
      (rebuild_group t L L
        ⟨ac.set (L.headD 0) (-1),
          (List.replicate ac.length false).set (L.headD 0) true⟩).atomic_clusters.getD x (-1)
          = ac.getD x (-1)) := by
  have hfirst : L.headD 0 ∈ L := by
    cases L with
    | nil => exact absurd rfl hne
    | cons a l => simp
  have hflt : L.headD 0 < n := hL _ hfirst
  have hK0 : Rebuilding t n L
      ⟨ac.set (L.headD 0) (-1), (List.replicate ac.length false).set (L.headD 0) true⟩ := by
    refine ⟨by simp [hlen], by simp [hlen], ?_⟩
    intro x hx
    simp only [getD_set_bool, getD_set_int] at hx ⊢
    by_cases hxe : x = L.headD 0
    · rw [if_pos ⟨hxe, by rw [hlen]; exact hflt⟩]
      exact ⟨hxe ▸ hfirst, Or.inl rfl⟩
    · rw [if_neg (fun hh => hxe hh.1)] at hx
      rw [List.getD_eq_getElem?_getD, List.getElem?_replicate] at hx
      split at hx <;> simp at hx
  obtain ⟨b1, _, b3, b4⟩ := rebuild_group_spec t n L hL L _ (fun _ h => h) hK0
  refine ⟨b1.len_ac, ?_, ?_⟩
  · intro x hx
    obtain ⟨y, hy, c, hc, hyx⟩ := hNb x hx
    have := b4 y hy c hc (hyx ▸ hx)
    rw [hyx] at this
    exact (b1.inserted x this).2
  · intro x hx
    rw [b3 x hx]
    show (ac.set (L.headD 0) (-1)).getD x (-1) = _
    rw [getD_set_int, if_neg]
    rintro ⟨rfl, _⟩
    exact hx hfirst

theorem rebuild_groups_spec (t : ClusterTracker) (n : Nat) (g0 : Nat → Nat) (ac0 : List Int)
    (hg : ∀ x, x < n → g0 x < n ∧ g0 (g0 x) = g0 x ∧ ac0.getD (g0 x) (-1) = -1)
    (hNb : ∀ g, 2 ≤ (sites_of_group ((List.range n).map g0) g).length →
      ∀ x ∈ sites_of_group ((List.range n).map g0) g,
        ∃ y ∈ sites_of_group ((List.range n).map g0) g, Neighbour t y x) :
    ∀ (rest used : List Nat) (ac : List Int), ac.length = n →
      (∀ x, x < n → g0 x ∉ used → ac.getD x (-1) = ac0.getD x (-1)) →
      (∀ x, x < n → g0 x ∈ used → Rebuilt t g0 n x (ac.getD x (-1))) →
      (rebuild_groups t ((List.range n).map g0) rest used ac).length = n ∧
      ∀ x, x < n → g0 x ∈ used ∨ g0 x ∈ rest →
        Rebuilt t g0 n x
          ((rebuild_groups t ((List.range n).map g0) rest used ac).getD x (-1)) := by
  intro rest
  induction rest with
  | nil =>
    intro used ac hlen _ h2
    refine ⟨hlen, fun x hx hmem => ?_⟩
    rcases hmem with hmem | hmem
    · exact h2 x hx hmem
    · exact absurd hmem (List.not_mem_nil _)
  | cons g rest ih =>
    intro used ac hlen h1 h2
    simp only [rebuild_groups]
    by_cases hused : is_in_vector g used = true
    · rw [if_pos hused]
      obtain ⟨a1, a2⟩ := ih used ac hlen h1 h2
      refine ⟨a1, fun x hx hmem => a2 x hx ?_⟩
      rcases hmem with hmem | hmem
      · exact Or.inl hmem
      · rcases List.mem_cons.1 hmem with hmem | hmem
        · exact Or.inl (hmem ▸ (is_in_vector_iff g used).1 hused)
        · exact Or.inr hmem
    · rw [if_neg hused]
      have hgu : g ∉ used := fun hh => hused ((is_in_vector_iff g used).2 hh)
      have hfin : ∀ (ac1 : List Int), ac1.length = n →
          (∀ x, x < n → g0 x ∉ used ++ [g] → ac1.getD x (-1) = ac0.getD x (-1)) →
          (∀ x, x < n → g0 x ∈ used ++ [g] → Rebuilt t g0 n x (ac1.getD x (-1))) →
          (rebuild_groups t ((List.range n).map g0) rest (used ++ [g]) ac1).length = n ∧
          ∀ x, x < n → g0 x ∈ used ∨ g0 x ∈ g :: rest →
            Rebuilt t g0 n x
              ((rebuild_groups t ((List.range n).map g0) rest (used ++ [g]) ac1).getD x
                (-1)) := by
        intro ac1 hl1 i1 i2
        obtain ⟨a1, a2⟩ := ih (used ++ [g]) ac1 hl1 i1 i2
        refine ⟨a1, fun x hx hmem => a2 x hx ?_⟩
        rcases hmem with hmem | hmem
        · exact Or.inl (List.mem_append_left _ hmem)
        · rcases List.mem_cons.1 hmem with hmem | hmem
          · exact Or.inl (by rw [hmem]; simp)
          · exact Or.inr hmem
      by_cases hsz : (sites_of_group ((List.range n).map g0) g).length ≤ 1
      · rw [if_pos hsz]
        refine hfin ac hlen ?_ ?_
        · intro x hx hn
          exact h1 x hx fun hh => hn (List.mem_append_left _ hh)
        · intro x hx hmem
          rcases List.mem_append.1 hmem with hmem | hmem
          · exact h2 x hx hmem
          · have hxg : g0 x = g := by simpa using hmem
            obtain ⟨hg1, hg2, hg3⟩ := hg x hx
            have mx : x ∈ sites_of_group ((List.range n).map g0) g :=
              (mem_sites_of_group g0 n g x).2 ⟨hx, hxg⟩
            have mg : g ∈ sites_of_group ((List.range n).map g0) g :=
              (mem_sites_of_group g0 n g g).2 ⟨hxg ▸ hg1, by rw [← hxg]; exact hg2⟩
            have hxeq : x = g := by
              match hL : sites_of_group ((List.range n).map g0) g, hsz, mx, mg with
              | [], _, mx, _ => simp at mx
              | [z], _, mx, mg =>
                simp at mx mg
                rw [mx, mg]
              | _ :: _ :: _, hsz, _, _ => simp at hsz
            left
            rw [h1 x hx (by rw [hxg]; exact hgu), hxeq, ← hxg]
            exact hg3
      · rw [if_neg hsz]
        have hL : ∀ x ∈ sites_of_group ((List.range n).map g0) g, x < n :=
          fun x hx => ((mem_sites_of_group g0 n g x).1 hx).1
        have hne : sites_of_group ((List.range n).map g0) g ≠ [] := by
          intro hh
          rw [hh] at hsz
          simp at hsz
        obtain ⟨r1, r2, r3⟩ := rebuild_one_group t n _ ac hlen hL hne (hNb g (by omega))
        refine hfin _ r1 ?_ ?_
        · intro x hx hn
          have hxg : g0 x ≠ g := fun hh => hn (by rw [hh]; simp)
          rw [r3 x (fun hh => hxg ((mem_sites_of_group g0 n g x).1 hh).2)]
          exact h1 x hx fun hh => hn (List.mem_append_left _ hh)
        · intro x hx hmem
          by_cases hxg : g0 x = g
          · rcases r2 x ((mem_sites_of_group g0 n g x).2 ⟨hx, hxg⟩) with h | ⟨y, hy, e, nb⟩
            · exact Or.inl h
            · obtain ⟨hy1, hy2⟩ := (mem_sites_of_group g0 n g y).1 hy
              exact Or.inr ⟨y, hy1, e, nb, by rw [hy2, hxg]⟩
          · rw [r3 x (fun hh => hxg ((mem_sites_of_group g0 n g x).1 hh).2)]
            rcases List.mem_append.1 hmem with hmem | hmem
            · exact h2 x hx hmem
            · exact absurd (by simpa using hmem) hxg

theorem Scanned.forest_all {t : ClusterTracker} (h : Scanned t) :
    Forest (fun i => i < t.symbols_cpy.length) t.atomic_clusters := by
  refine ⟨fun i hi => by rw [h.length_eq]; exact hi, ?_, ?_⟩
  · intro i _ hne
    by_cases hs : Solute t i
    · obtain ⟨h1, h2⟩ := h.forest.closed i hs hne
      exact ⟨h1, h2.1⟩
    · exact absurd (h.outside i hs) hne
  · intro i _
    by_cases hs : Solute t i
    · exact h.forest.reach i hs
    · exact ⟨0, i, Walk.root (h.outside i hs)⟩

theorem group_of_eq_of_root_indx (t : ClusterTracker) (i r : Nat)
    (h : root_indx t i = .ok r) : group_of t.atomic_clusters i = r := by
  unfold root_indx at h
  simp only at h
  split at h
  · exact absurd h (by simp)
  · simpa [group_of] using h

theorem Scanned.group_of_eq_iff {t : ClusterTracker} (h : Scanned t) (i j : Nat)
    (hi : i < t.symbols_cpy.length) (hj : j < t.symbols_cpy.length) :
    group_of t.atomic_clusters i = group_of t.atomic_clusters j ↔ SameGroup t i j := by
  obtain ⟨ri, rj, e1, e2, e3⟩ := h.root_indx_eq_iff i j hi hj
  rw [group_of_eq_of_root_indx t i ri e1, group_of_eq_of_root_indx t j rj e2, e3]

theorem Scanned.group_of_root {t : ClusterTracker} (h : Scanned t) (x : Nat)
    (hx : x < t.symbols_cpy.length) :
    group_of t.atomic_clusters x < t.symbols_cpy.length ∧
      group_of t.atomic_clusters (group_of t.atomic_clusters x) =
        group_of t.atomic_clusters x ∧
      t.atomic_clusters.getD (group_of t.atomic_clusters x) (-1) = -1 := by
  obtain ⟨k, r, w⟩ := h.forest_all.reach x hx
  have hr : r < t.symbols_cpy.length := w.mem h.forest_all hx
  rw [group_of_eq_of_walk h.forest_all w hx]
  exact ⟨hr, group_of_eq_of_walk h.forest_all (Walk.root w.isRoot) hr, w.isRoot⟩

/-- On a symmetric lattice every site of a group with at least two sites is a neighbour of a
site of its group. -/
theorem Scanned.group_neighbour {t : ClusterTracker} (h : Scanned t)
    (hsym : SymmetricLattice t t.symbols_cpy.length) (g : Nat)
    (hsz : 2 ≤ (sites_of_group
      ((List.range t.symbols_cpy.length).map (group_of t.atomic_clusters)) g).length) :
    ∀ x ∈ sites_of_group
        ((List.range t.symbols_cpy.length).map (group_of t.atomic_clusters)) g,
      ∃ y ∈ sites_of_group
          ((List.range t.symbols_cpy.length).map (group_of t.atomic_clusters)) g,
        Neighbour t y x := by
  intro x hx
  have hnd : (sites_of_group
      ((List.range t.symbols_cpy.length).map (group_of t.atomic_clusters)) g).Nodup := by
    unfold sites_of_group
    exact (List.nodup_range _).filter _
  -- another site of the group
  obtain ⟨x', hx', hne⟩ : ∃ x' ∈ sites_of_group
      ((List.range t.symbols_cpy.length).map (group_of t.atomic_clusters)) g, x' ≠ x := by
    match hL : sites_of_group
        ((List.range t.symbols_cpy.length).map (group_of t.atomic_clusters)) g, hsz, hnd with
    | a :: b :: rest, _, hnd' =>
      have hab : a ≠ b := by
        intro hh
        rw [hh] at hnd'
        simp at hnd'
      by_cases ha : a = x
      · exact ⟨b, by simp, fun hb => hab (ha.trans hb.symm)⟩
      · exact ⟨a, by simp, ha⟩
  rw [mem_sites_of_group] at hx hx'
  have hsame : SameGroup t x' x :=
    (h.group_of_eq_iff x' x hx'.1 hx.1).1 (hx'.2.trans hx.2.symm)
  rcases hsame with hsame | ⟨s1, s2, hl⟩
  · exact absurd hsame hne
  · rcases Relation.ReflTransGen.cases_tail hl with heq | ⟨z, hz, hadj⟩
    · exact absurd heq.symm hne
    · obtain ⟨sz, _, hnb⟩ := hadj
      have hzg : group_of t.atomic_clusters z = g := by
        rw [← hx'.2]
        exact ((h.group_of_eq_iff x' z hx'.1 sz.1).2 (Or.inr ⟨s1, sz, hz⟩)).symm
      refine ⟨z, (mem_sites_of_group _ _ g z).2 ⟨sz.1, hzg⟩, ?_⟩
      rcases hnb with hnb | hnb
      · exact hnb
      · exact hsym x hx.1 z sz.1 hnb

theorem rebuild_cluster_eq {t : ClusterTracker} (h : Scanned t) :
    rebuild_cluster t =
      ⟨{ t with
          atomic_clusters :=
            rebuild_groups t
              ((List.range t.symbols_cpy.length).map (group_of t.atomic_clusters))
              ((List.range t.symbols_cpy.length).map (group_of t.atomic_clusters)) []
              t.atomic_clusters },
        .ok ()⟩ := by
  unfold rebuild_cluster atomic_clusters2group_indx
  rw [h.length_eq, atomic_clusters2group_indx_loop_eq h.forest_all _
    (fun i hi => List.mem_range.1 hi)]

theorem rebuild_cluster_spec {t : ClusterTracker} (h : Scanned t)
    (hsym : SymmetricLattice t t.symbols_cpy.length) :
    (rebuild_cluster t).tracker.atomic_clusters.length = t.symbols_cpy.length ∧
    ∀ x, x < t.symbols_cpy.length →
      Rebuilt t (group_of t.atomic_clusters) t.symbols_cpy.length x
        ((rebuild_cluster t).tracker.atomic_clusters.getD x (-1)) := by
  rw [rebuild_cluster_eq h]
  obtain ⟨a1, a2⟩ :=
    rebuild_groups_spec t t.symbols_cpy.length (group_of t.atomic_clusters) t.atomic_clusters
      (fun x hx => h.group_of_root x hx) (fun g hsz => h.group_neighbour hsym g hsz)
      ((List.range t.symbols_cpy.length).map (group_of t.atomic_clusters)) []
      t.atomic_clusters h.length_eq (fun _ _ _ => rfl)
      (fun x _ hh => absurd hh (List.not_mem_nil _))
  refine ⟨a1, fun x hx => a2 x hx (Or.inr ?_)⟩
  exact List.mem_map.2 ⟨x, List.mem_range.2 hx, rfl⟩

theorem construct_eq (t : ClusterTracker) (hR : InRange t t.updater.symbols.length) :
    ∃ ac' sol', find_clusters t false =
        ⟨{ t with
            symbols_cpy := t.updater.symbols
            atomic_clusters := ac'
            solute_atoms_indices := sol' }, .ok ()⟩ ∧
      Scanned { t with
        symbols_cpy := t.updater.symbols
        atomic_clusters := ac'
        solute_atoms_indices := sol' } ∧
      construct t = rebuild_cluster { t with
        symbols_cpy := t.updater.symbols
        atomic_clusters := ac'
        solute_atoms_indices := sol' } := by
  obtain ⟨ac', sol', h1, hS⟩ := find_clusters_false_spec t hR
  refine ⟨ac', sol', h1, hS, ?_⟩
  unfold construct
  rw [h1]

theorem has_minimal_connectivity_iff (t : ClusterTracker) :
    has_minimal_connectivity t = true ↔
      ∀ i, i < t.atomic_clusters.length → t.atomic_clusters.getD i (-1) ≠ -1 →
        ∃ c ∈ t.indices_in_cluster,
          t.atomic_clusters.getD i (-1) = (t.updater.trans_matrix i c : Int) := by
  unfold has_minimal_connectivity
  rw [List.all_eq_true]
  constructor
  · intro h i hi hne
    have := h i (List.mem_range.2 hi)
    rw [if_pos hne, List.any_eq_true] at this
    obtain ⟨c, hc, hd⟩ := this
    exact ⟨c, hc, of_decide_eq_true hd⟩
  · intro h i hi
    split
    · rename_i hne
      obtain ⟨c, hc, he⟩ := h i (List.mem_range.1 hi) hne
      exact List.any_eq_true.2 ⟨c, hc, decide_eq_true he⟩
    · rfl

/-- C6. After construction on a lattice whose neighbour relation under the tracked offsets is
symmetric, the forest is in minimal connectivity form: the constructor returns,
`has_minimal_connectivity()` returns `true`, and every site whose parent is not `-1` has as
parent one of its own neighbours under the tracked offsets, a site of its own group. -/
theorem construct_minimal_connectivity (t : ClusterTracker)
    (hR : InRange t t.updater.symbols.length)
    (hsym : SymmetricLattice t t.updater.symbols.length) :
    (construct t).outcome = .ok () ∧
    has_minimal_connectivity (construct t).tracker = true ∧
    ∀ i, i < t.updater.symbols.length →
      (construct t).tracker.atomic_clusters.getD i (-1) ≠ -1 →
      ∃ p : Nat, (construct t).tracker.atomic_clusters.getD i (-1) = (p : Int) ∧
        Neighbour (construct t).tracker i p ∧ SameGroup (construct t).tracker i p := by
  obtain ⟨ac', sol', _, hS, hc⟩ := construct_eq t hR
  obtain ⟨r1, r2⟩ := rebuild_cluster_spec hS hsym
  have key : ∀ i, i < t.updater.symbols.length →
      (construct t).tracker.atomic_clusters.getD i (-1) ≠ -1 →
      ∃ p : Nat, (construct t).tracker.atomic_clusters.getD i (-1) = (p : Int) ∧
        Neighbour (construct t).tracker i p ∧ SameGroup (construct t).tracker i p := by
    rw [hc]
    intro i hi hne
    rcases r2 i hi with h | ⟨y, hy, e, nb, hg⟩
    · exact absurd h hne
    · refine ⟨y, e, ?_, ?_⟩
      · rw [rebuild_cluster_eq hS]
        exact hsym y hy i hi nb
      · rw [rebuild_cluster_eq hS]
        exact (hS.group_of_eq_iff i y hi hy).1 hg.symm
  refine ⟨by rw [hc, rebuild_cluster_eq hS], ?_, key⟩
  rw [has_minimal_connectivity_iff]
  intro i hi hne
  have hi' : i < t.updater.symbols.length := by
    rw [hc, r1] at hi
    exact hi
  obtain ⟨p, e, ⟨c, hcm, hcp⟩, _⟩ := key i hi' hne
  exact ⟨c, hcm, by rw [e, hcp]⟩

/-- C9. The solute index set mirrors the shadow species: after construction, and after every
`update_clusters` call with a paired swap consistent with the shadow species (two distinct
sites, old symbols equal to the shadow species, new symbols the exchanged old symbols) on a
tracker for which it held, the call returns and `solute_atoms_indices` holds exactly the sites
whose shadow species is a cluster element. -/
theorem solute_index_set_invariant (t0 t : ClusterTracker) (changes : swap_move)
    (hR : InRange t0 t0.updater.symbols.length)
    (hw : WellFormed t) (hc : Consistent t) (h : ConsistentSwap t changes) :
    ((construct t0).outcome = .ok () ∧ Consistent (construct t0).tracker) ∧
    ((update_clusters t changes).outcome = .ok () ∧
      Consistent (update_clusters t changes).tracker) := by
  constructor
  · obtain ⟨ac', sol', _, hS, hce⟩ := construct_eq t0 hR
    rw [hce, rebuild_cluster_eq hS]
    exact ⟨rfl, hS.solute_mem⟩
  · by_cases hx : CrossesBoundary t changes
    · obtain ⟨ac', h1, _⟩ := update_clusters_spec t changes hw hc h hx
      rw [h1]
      exact ⟨rfl, moved_consistent t changes hc h hx⟩
    · have he : is_cluster_element t changes.c0.old_symb =
          is_cluster_element t changes.c0.new_symb := by
        rw [h.new0]
        exact not_not.1 hx
      have hnoop : update_clusters t changes = ⟨t, .ok ()⟩ := by
        unfold update_clusters
        rw [← he]
        cases is_cluster_element t changes.c0.old_symb <;> simp
      rw [hnoop]
      exact ⟨rfl, hc⟩

theorem SameLattice.trans {a b c : ClusterTracker} (h1 : SameLattice a b)
    (h2 : SameLattice b c) : SameLattice a c :=
  ⟨h2.1.trans h1.1, h2.2.1.trans h1.2.1, h2.2.2.trans h1.2.2⟩

theorem SameLattice.inRange {a b : ClusterTracker} (h : SameLattice a b) {n : Nat}
    (hR : InRange a n) : InRange b n := by
  unfold InRange at hR ⊢
  rw [h.1, h.2.1]
  exact hR

theorem SameLattice.noSelf {a b : ClusterTracker} (h : SameLattice a b) {n : Nat}
    (hR : NoSelfNeighbour a n) : NoSelfNeighbour b n := by
  unfold NoSelfNeighbour at hR ⊢
  rw [h.1, h.2.1]
  exact hR

theorem Partition.self {S : Nat → Prop} {ac : List Int} (hF : Forest S ac) :
    Partition S (fun a b => S a ∧ S b ∧ ∃ ka kb r, Walk ac ka a r ∧ Walk ac kb b r) ac := by
  intro a b ka kb ra rb ha hb wa wb
  constructor
  · rintro rfl
    exact Conn.edge ⟨ha, hb, ka, kb, ra, wa, wb⟩
  · intro hc
    refine (same_root_of_conn hF (fun x y h => ⟨h.1, h.2.1⟩) ?_ hc ha).2 ka kb ra rb wa wb
    rintro x y kx ky rx ry ⟨_, _, k1, k2, r, w1, w2⟩ wx wy
    rw [(wx.det w1).2, (wy.det w2).2]

theorem reset_sites_forest {S : Nat → Prop} : ∀ (sites : List Nat) (ac : List Int),
    Forest S ac → Forest S (reset_sites sites ac) := by
  intro sites
  induction sites with
  | nil => exact fun _ h => h
  | cons i rest ih => exact fun ac h => ih _ (h.cut_site i)

theorem find_clusters_true_acyclic (t : ClusterTracker) (n : Nat) (hA : AcyclicState t n)
    (hR : InRange t n) :
    ∃ ac', find_clusters t true = ⟨{ t with atomic_clusters := ac' }, .ok ()⟩ ∧
      AcyclicState { t with atomic_clusters := ac' } n := by
  have hF1 : Forest (fun i => i < n) (reset_sites t.solute_atoms_indices t.atomic_clusters) :=
    reset_sites_forest _ _ hA.forest
  obtain ⟨ac', h1, hF, _, hlen, _⟩ :=
    attach_sites_spec (S := fun i => i < n) t.solute_atoms_indices
      { t with atomic_clusters := reset_sites t.solute_atoms_indices t.atomic_clusters }
      _ hF1 (Partition.self hF1) (fun x y h => ⟨h.1, h.2.1⟩)
      (fun i hi _ => hA.solute_lt i hi)
      (fun i hi c hc _ _ => hR i (hA.solute_lt i hi) c hc)
  refine ⟨ac', ?_, ?_, hF, hA.solute_lt⟩
  · rw [← h1]
    simp [find_clusters]
  · show ac'.length = n
    rw [hlen]
    show (reset_sites t.solute_atoms_indices t.atomic_clusters).length = n
    rw [reset_sites_length, hA.length_eq]

theorem apply_change_acyclic (n : Nat) (s : ChangeLoop) (change : SymbolChange)
    (hA : AcyclicState s.tracker n) (hnew : s.new_solute_indx < n) (hc : change.indx < n) :
    AcyclicState (apply_change s change).tracker n ∧
      (apply_change s change).new_solute_indx < n ∧
      SameLattice s.tracker (apply_change s change).tracker ∧
      (apply_change s change).tracker.solute_atoms_indices =
        s.tracker.solute_atoms_indices := by
  unfold apply_change
  split
  · refine ⟨⟨?_, hA.forest.cut_site _, hA.solute_lt⟩, hnew, ⟨rfl, rfl, rfl⟩, rfl⟩
    show (s.tracker.atomic_clusters.set _ _).length = n
    rw [List.length_set, hA.length_eq]
  · exact ⟨⟨hA.length_eq, hA.forest, hA.solute_lt⟩, hc, ⟨rfl, rfl, rfl⟩, rfl⟩

theorem update_clusters_acyclic (t : ClusterTracker) (n : Nat) (changes : swap_move)
    (hA : AcyclicState t n) (hR : InRange t n)
    (hv : changes.c0.indx < n ∧ changes.c1.indx < n) :
    ∃ t', update_clusters t changes = ⟨t', .ok ()⟩ ∧ AcyclicState t' n ∧
      SameLattice t t' := by
  unfold update_clusters
  split
  · exact ⟨t, rfl, hA, rfl, rfl, rfl⟩
  · split
    · exact ⟨t, rfl, hA, rfl, rfl, rfl⟩
    · have hn : 0 < n := by omega
      obtain ⟨a1, a2, a3, a4⟩ := apply_change_acyclic n ⟨0, 0, t⟩ changes.c0 hA hn hv.1
      obtain ⟨b1, b2, b3, b4⟩ := apply_change_acyclic n _ changes.c1 a1 a2 hv.2
      have hL : SameLattice t (apply_changes t changes).tracker := a3.trans b3
      have hA2 : AcyclicState (apply_changes t changes).tracker n := by
        refine ⟨b1.length_eq, b1.forest, ?_⟩
        intro x hx
        have hx' : x ∈ set_insert _ (set_erase _ _) := hx
        rw [mem_set_insert, mem_set_erase] at hx'
        rcases hx' with rfl | ⟨_, hx'⟩
        · exact b2
        · exact b1.solute_lt x hx'
      obtain ⟨ac', h1, hA3⟩ :=
        find_clusters_true_acyclic (apply_changes t changes).tracker n hA2 (hL.inRange hR)
      exact ⟨_, h1, hA3, hL⟩

/-- When the walk of `is_connected` from `y` does not meet `x`, the root walk from `y` does not
pass through `x`, so it is still there after the entry of `x` is written. -/
theorem Walk.of_not_connected {ac : List Int} {x : Nat} (v : Int) {k y r : Nat}
    (h : Walk ac k y r) :
    ∀ fuel, k < fuel → (is_connected_loop ac x fuel y).1 = false → y ≠ x →
      Walk (ac.set x v) k y r ∧ r ≠ x := by
  induction h with
  | @root i h0 =>
    intro fuel _ _ hne
    refine ⟨Walk.root ?_, hne⟩
    rw [getD_set_int, if_neg (fun hh => hne hh.1)]
    exact h0
  | @step k i r hn hw ih =>
    intro fuel hf hc hne
    obtain ⟨f, rfl⟩ : ∃ f, fuel = f + 1 := ⟨fuel - 1, by omega⟩
    simp only [is_connected_loop] at hc
    rw [if_pos hn] at hc
    by_cases hp : (ac.getD i (-1)).toNat = x
    · rw [if_pos hp] at hc
      exact absurd hc (by simp)
    · rw [if_neg hp] at hc
      obtain ⟨h1, h2⟩ := ih f (by omega) hc hp
      have he : (ac.set x v).getD i (-1) = ac.getD i (-1) := by
        rw [getD_set_int, if_neg (fun hh => hne hh.1)]
      refine ⟨Walk.step (by rw [he]; exact hn) ?_, h2⟩
      rw [he]
      exact h1

theorem is_connected_false (t : ClusterTracker) (a b : Nat)
    (h : is_connected t a b = .ok false) :
    (is_connected_loop t.atomic_clusters b t.atomic_clusters.length a).1 = false := by
  unfold is_connected at h
  simp only at h
  split at h
  · exact absurd h (by simp)
  · rename_i hne
    simpa using hne

theorem detach_search_some (t : ClusterTracker) (indx : Nat) (indx_in_change : List Nat) :
    ∀ (offs : List Nat) (indx2 : Nat),
      detach_search t indx indx_in_change offs = .ok (some indx2) →
      ∃ off ∈ offs, t.updater.trans_matrix indx off = indx2 ∧
        is_connected t indx2 indx = .ok false := by
  intro offs
  induction offs with
  | nil =>
    intro indx2 h
    simp [detach_search] at h
  | cons off rest ih =>
    intro indx2 h
    simp only [detach_search] at h
    split at h
    · obtain ⟨o, ho, h1, h2⟩ := ih indx2 h
      exact ⟨o, List.mem_cons_of_mem _ ho, h1, h2⟩
    · split at h
      · split at h
        · exact absurd h (by simp)
        · rename_i connected hcon
          split at h
          · rename_i hnc
            have e : t.updater.trans_matrix indx off = indx2 := by
              simpa using h
            have hc : connected = false := by simpa using hnc
            exact ⟨off, List.mem_cons_self _ _, e, by rw [← e, hcon, hc]⟩
          · obtain ⟨o, ho, h1, h2⟩ := ih indx2 h
            exact ⟨o, List.mem_cons_of_mem _ ho, h1, h2⟩
      · obtain ⟨o, ho, h1, h2⟩ := ih indx2 h
        exact ⟨o, List.mem_cons_of_mem _ ho, h1, h2⟩

/-- Pointing a site at a site whose root walk does not pass through it keeps the forest. -/
theorem Forest.reparent {n : Nat} {ac : List Int} (hF : Forest (fun i => i < n) ac)
    (hlen : ac.length = n) {x y : Nat} (hx : x < n) (hy : y < n) (hxy : y ≠ x)
    (hc : (is_connected_loop ac x ac.length y).1 = false) :
    Forest (fun i => i < n) (ac.set x (y : Int)) := by
  obtain ⟨k, r, w⟩ := hF.reach y hy
  obtain ⟨w1, hr⟩ := w.of_not_connected (-1) ac.length (w.lt_length hF hy) hc hxy
  have hF1 := hF.cut_site x
  have hroot : (ac.set x (-1)).getD x (-1) = -1 := by
    rw [getD_set_int, if_pos ⟨rfl, by rw [hlen]; exact hx⟩]
  have := hF1.link_root hroot hx hy w1 hr
  rw [List.set_set] at this
  exact this

theorem detach_loop_acyclic (n ref_indx : Nat) (can_create_new_clusters : Bool)
    (indx_in_change : List Nat) (is_ref_indx : Bool) (href : ref_indx < n) :
    ∀ (offs : List Nat) (assigned : Bool) (t : ClusterTracker),
      AcyclicState t n → InRange t n → NoSelfNeighbour t n →
      (∀ off ∈ offs, off ∈ t.indices_in_cluster) →
      (is_ref_indx = true → assigned = false → t.atomic_clusters.getD ref_indx (-1) = -1) →
      ∀ (answer : Bool) (t' : ClusterTracker),
        detach_loop ref_indx can_create_new_clusters indx_in_change is_ref_indx offs assigned t
          = ⟨t', .ok answer⟩ →
        AcyclicState t' n ∧ SameLattice t t' := by
  intro offs
  induction offs with
  | nil =>
    intro assigned t hA _ _ _ _ answer t' h
    simp only [detach_loop, Run.mk.injEq] at h
    rw [← h.1]
    exact ⟨hA, rfl, rfl, rfl⟩
  | cons off rest ih =>
    intro assigned t hA hR hN hoffs hroot answer t' h
    have hrest : ∀ o ∈ rest, o ∈ t.indices_in_cluster :=
      fun o ho => hoffs o (List.mem_cons_of_mem _ ho)
    have hoff : off ∈ t.indices_in_cluster := hoffs off (List.mem_cons_self _ _)
    have hindx : t.updater.trans_matrix ref_indx off < n := hR ref_indx href off hoff
    simp only [detach_loop] at h
    split at h
    · exact ih assigned t hA hR hN hrest hroot answer t' h
    · split at h
      · exact ih assigned t hA hR hN hrest hroot answer t' h
      · rename_i hpar
        have hpar' : t.atomic_clusters.getD (t.updater.trans_matrix ref_indx off) (-1)
            = (ref_indx : Int) := not_not.1 hpar
        split at h
        · -- the root moves to this neighbour
          rename_i hmove
          rw [Bool.and_eq_true] at hmove
          have hr0 := hroot hmove.1 (by simpa using hmove.2)
          have hne : t.updater.trans_matrix ref_indx off ≠ ref_indx :=
            hN ref_indx href off hoff
          have hF1 := hA.forest.cut_site (t.updater.trans_matrix ref_indx off)
          have hroot1 : (t.atomic_clusters.set (t.updater.trans_matrix ref_indx off)
              (-1)).getD ref_indx (-1) = -1 := by
            rw [getD_set_int, if_neg (fun hh => hne hh.1.symm)]
            exact hr0
          have hroot2 : (t.atomic_clusters.set (t.updater.trans_matrix ref_indx off)
              (-1)).getD (t.updater.trans_matrix ref_indx off) (-1) = -1 := by
            rw [getD_set_int, if_pos ⟨rfl, by rw [hA.length_eq]; exact hindx⟩]
          have hF2 := hF1.link_root hroot1 href hindx (Walk.root hroot2) hne
          obtain ⟨r1, r2⟩ := ih true
            { t with
              atomic_clusters := (t.atomic_clusters.set (t.updater.trans_matrix ref_indx off)
                (-1)).set ref_indx (t.updater.trans_matrix ref_indx off : Int) }
            ⟨by simp [hA.length_eq], hF2, hA.solute_lt⟩ hR hN hrest
            (fun _ hh => absurd hh (by simp)) answer t' h
          exact ⟨r1, r2⟩
        · rename_i hmove
          have hkeep : is_ref_indx = true → assigned = false →
              False := fun h1 h2 => hmove (by rw [h1, h2]; rfl)
          split at h
          · exact absurd h (by simp)
          · -- the neighbour is pointed at another solute neighbour
            rename_i indx2 hsearch
            obtain ⟨off2, ho2, e2, hcon⟩ := detach_search_some t _ _ _ _ hsearch
            have hi2 : indx2 < n := e2 ▸ hR _ hindx off2 ho2
            have hne2 : indx2 ≠ t.updater.trans_matrix ref_indx off :=
              e2 ▸ hN _ hindx off2 ho2
            have hF1 := hA.forest.reparent hA.length_eq hindx hi2 hne2
              (is_connected_false t _ _ hcon)
            obtain ⟨r1, r2⟩ := ih assigned
              { t with
                atomic_clusters := t.atomic_clusters.set (t.updater.trans_matrix ref_indx off)
                  (indx2 : Int) }
              ⟨by simp [hA.length_eq], hF1, hA.solute_lt⟩ hR hN hrest
              (fun h1 h2 => absurd (hkeep h1 h2) id) answer t' h
            exact ⟨r1, r2⟩
          · split at h
            · -- the neighbour becomes a root
              obtain ⟨r1, r2⟩ := ih assigned
                { t with
                  atomic_clusters :=
                    t.atomic_clusters.set (t.updater.trans_matrix ref_indx off) (-1) }
                ⟨by simp [hA.length_eq], hA.forest.cut_site _, hA.solute_lt⟩ hR hN hrest
                (fun h1 h2 => absurd (hkeep h1 h2) id) answer t' h
              exact ⟨r1, r2⟩
            · simp only [Run.mk.injEq] at h
              rw [← h.1]
              exact ⟨hA, rfl, rfl, rfl⟩

theorem detach_neighbours_acyclic (t : ClusterTracker) (n ref_indx : Nat)
    (can_create_new_clusters : Bool) (indx_in_change : List Nat)
    (hA : AcyclicState t n) (hR : InRange t n) (hN : NoSelfNeighbour t n)
    (href : ref_indx < n) (answer : Bool) (t' : ClusterTracker)
    (h : detach_neighbours t ref_indx can_create_new_clusters indx_in_change
      = ⟨t', .ok answer⟩) :
    AcyclicState t' n ∧ SameLattice t t' := by
  unfold detach_neighbours at h
  split at h
  · exact absurd (congrArg Run.outcome h) (by simp)
  · split at h
    · exact absurd (congrArg Run.outcome h) (by simp)
    · exact detach_loop_acyclic n ref_indx can_create_new_clusters indx_in_change _ href
        t.indices_in_cluster false t hA hR hN (fun _ ho => ho)
        (fun h1 _ => of_decide_eq_true h1) answer t' h

theorem run_calls_acyclic (n : Nat) :
    ∀ (calls : List Call) (t : ClusterTracker),
      AcyclicState t n → InRange t n → NoSelfNeighbour t n →
      (∀ call ∈ calls, call.valid n) →
      (run_calls calls t).outcome = .ok () →
      AcyclicState (run_calls calls t).tracker n := by
  intro calls
  induction calls with
  | nil => exact fun t hA _ _ _ _ => hA
  | cons call rest ih =>
    intro t hA hR hN hv hret
    have hvr : ∀ c ∈ rest, c.valid n := fun c hc => hv c (List.mem_cons_of_mem _ hc)
    cases call with
    | applyMove changes =>
      obtain ⟨t1, h1, hA1, hL⟩ :=
        update_clusters_acyclic t n changes hA hR (hv _ (List.mem_cons_self _ _))
      simp only [run_calls, h1] at hret ⊢
      exact ih t1 hA1 (hL.inRange hR) (hL.noSelf hN) hvr hret
    | detachNeighbours ref_indx flag change =>
      simp only [run_calls] at hret ⊢
      match hd : detach_neighbours t ref_indx flag change with
      | ⟨t1, .ok answer⟩ =>
        rw [hd] at hret
        obtain ⟨hA1, hL⟩ := detach_neighbours_acyclic t n ref_indx flag change hA hR hN
          (hv _ (List.mem_cons_self _ _)) answer t1 hd
        exact ih t1 hA1 (hL.inRange hR) (hL.noSelf hN) hvr hret
      | ⟨t1, .error e⟩ =>
        rw [hd] at hret
        exact absurd hret (by simp)

/-- C8. Forest acyclicity is preserved: on a lattice where no site is its own neighbour, starting
from a state whose forest is acyclic, after any sequence of `update_clusters` and
`detach_neighbours` calls that return without raising, `root_indx(i)` does not raise and returns
a root for every site `i`. -/
theorem root_indx_returns_after_calls (t : ClusterTracker) (calls : List Call)
    (hA : AcyclicState t t.atomic_clusters.length)
    (hR : InRange t t.atomic_clusters.length)
    (hN : NoSelfNeighbour t t.atomic_clusters.length)
    (hv : ∀ call ∈ calls, call.valid t.atomic_clusters.length)
    (hret : (run_calls calls t).outcome = .ok ()) :
    ∀ i, i < t.atomic_clusters.length →
      ∃ r, root_indx (run_calls calls t).tracker i = .ok r ∧
        (run_calls calls t).tracker.atomic_clusters.getD r (-1) = -1 := by
  intro i hi
  have hA' := run_calls_acyclic _ calls t hA hR hN hv hret
  obtain ⟨k, r, w⟩ := hA'.forest.reach i hi
  exact ⟨r, root_indx_of_walk hA'.forest w hi, w.isRoot⟩

theorem walk_of_root_indx_loop (ac : List Int) :
    ∀ (fuel i : Nat), (root_indx_loop ac fuel i).2 ≠ 0 →
      ∃ k, Walk ac k i (root_indx_loop ac fuel i).1 := by
  intro fuel
  induction fuel with
  | zero =>
    intro i h
    simp [root_indx_loop] at h
  | succ f ih =>
    intro i h
    simp only [root_indx_loop] at h ⊢
    split
    · rename_i hn
      rw [if_pos hn] at h
      obtain ⟨k, hk⟩ := ih _ h
      exact ⟨k + 1, Walk.step hn hk⟩
    · rename_i hn
      exact ⟨0, Walk.root (not_not.1 hn)⟩

/-- A decidable test for an acyclic state. -/
theorem acyclicState_of_check (t : ClusterTracker)
    (hclosed : ∀ i, i < t.atomic_clusters.length → t.atomic_clusters.getD i (-1) ≠ -1 →
      0 ≤ t.atomic_clusters.getD i (-1) ∧
        (t.atomic_clusters.getD i (-1)).toNat < t.atomic_clusters.length)
    (hreach : ∀ i, i < t.atomic_clusters.length →
      (root_indx_loop t.atomic_clusters t.atomic_clusters.length i).2 ≠ 0)
    (hsol : ∀ x ∈ t.solute_atoms_indices, x < t.atomic_clusters.length) :
    AcyclicState t t.atomic_clusters.length :=
  ⟨rfl, ⟨fun _ h => h, hclosed, fun i hi =>
    let ⟨k, hk⟩ := walk_of_root_indx_loop _ _ i (hreach i hi)
    ⟨k, _, hk⟩⟩, hsol⟩

/-- A decidable test for consistency of the solute index set. -/
theorem consistent_of_check (t : ClusterTracker)
    (h1 : ∀ x ∈ t.solute_atoms_indices,
      x < t.symbols_cpy.length ∧ is_cluster_element t (t.symbols_cpy.getD x "") = true)
    (h2 : ∀ x, x < t.symbols_cpy.length →
      is_cluster_element t (t.symbols_cpy.getD x "") = true → x ∈ t.solute_atoms_indices) :
    Consistent t :=
  fun x => ⟨fun hx => h1 x hx, fun hx => h2 x hx.1 hx.2⟩

/-- C1 (the code departs from the claim). On the ring of four sites with species `A B A B` the
probe for the swap that moves the cluster element of site 2 to site 1 returns `false`, and the
forest it leaves differs from the forest before the call: site 1, the site that would have become
solute, was a root and now points to site 0. -/
theorem probe_leaves_parent_at_arrival_site :
    (ring_constructed ["A", "B", "A", "B"]).atomic_clusters = [-1, -1, -1, -1] ∧
    (move_creates_new_cluster (ring_constructed ["A", "B", "A", "B"]) swap_2_1).outcome
      = .ok false ∧
    (move_creates_new_cluster (ring_constructed ["A", "B", "A", "B"])
      swap_2_1).tracker.atomic_clusters = [-1, 0, -1, -1] ∧
    (move_creates_new_cluster (ring_constructed ["A", "B", "A", "B"])
      swap_2_1).tracker.solute_atoms_indices = [0, 2] ∧
    (move_creates_new_cluster (ring_constructed ["A", "B", "A", "B"])
      swap_2_1).tracker.symbols_cpy = ["A", "B", "A", "B"] :=
  ⟨by decide, rfl, by decide, by decide, by decide⟩

/-- C5 (the code departs from the claim). On the ring of five sites visited in the order
0, 3, 2, 1, 4 with species `A A A A B` the constructor returns, but `rebuild_cluster` leaves
sites 1 and 2 pointing at each other, and `root_indx(1)` raises the circular-connection error. -/
theorem construct_leaves_cycle :
    (find_clusters ring5_tracker false).tracker.atomic_clusters = [1, -1, 1, 0, -1] ∧
    (construct ring5_tracker).outcome = .ok () ∧
    (construct ring5_tracker).tracker.atomic_clusters = [-1, 2, 1, 0, -1] ∧
    root_indx (construct ring5_tracker).tracker 1
      = .error "Circular connected clusters appears to be present!" ∧
    root_indx (construct ring5_tracker).tracker 2
      = .error "Circular connected clusters appears to be present!" :=
  ⟨by decide, rfl, by decide, rfl, rfl⟩

/-- C7 (the code departs from the claim). On the ring of four sites with species `A A B A` the
constructed forest has minimal connectivity; after `update_clusters` with the swap that moves the
cluster element of site 3 to site 2, site 2 points to site 0, which is not one of its neighbours,
and `has_minimal_connectivity()` returns `false`. -/
theorem update_clusters_breaks_minimal_connectivity :
    has_minimal_connectivity (ring_constructed ["A", "A", "B", "A"]) = true ∧
    (update_clusters (ring_constructed ["A", "A", "B", "A"]) swap_3_2).outcome = .ok () ∧
    (update_clusters (ring_constructed ["A", "A", "B", "A"])
      swap_3_2).tracker.atomic_clusters = [-1, 0, 0, -1] ∧
    ring_trans 4 2 0 = 3 ∧ ring_trans 4 2 1 = 1 ∧
    has_minimal_connectivity
      (update_clusters (ring_constructed ["A", "A", "B", "A"]) swap_3_2).tracker = false :=
  ⟨by decide, rfl, by decide, by decide, by decide, by decide⟩

/-- The full scan of the ring `A A B A`, read at the solute sites 1 and 3: the hypothesis of C4
holds there. -/
theorem find_clusters_scan_groups_linked_sites_witness :
    InRange (ring_tracker ["A", "A", "B", "A"])
      (ring_tracker ["A", "A", "B", "A"]).updater.symbols.length ∧
    (find_clusters (ring_tracker ["A", "A", "B", "A"]) false).outcome = .ok () ∧
    ∃ ra rb, root_indx (find_clusters (ring_tracker ["A", "A", "B", "A"]) false).tracker 1
        = .ok ra ∧
      root_indx (find_clusters (ring_tracker ["A", "A", "B", "A"]) false).tracker 3 = .ok rb ∧
      (ra = rb ↔ Linked (find_clusters (ring_tracker ["A", "A", "B", "A"]) false).tracker 1 3) := by
  have hR : InRange (ring_tracker ["A", "A", "B", "A"])
      (ring_tracker ["A", "A", "B", "A"]).updater.symbols.length := by
    unfold InRange
    decide
  have h := find_clusters_scan_groups_linked_sites (ring_tracker ["A", "A", "B", "A"]) hR
  exact ⟨hR, h.1, h.2.2.1 1 3 ⟨by decide, by decide⟩ ⟨by decide, by decide⟩⟩

/-- The constructor on the ring of five sites visited in the order 0, 3, 2, 1, 4: the hypotheses
of C6 hold there. -/
theorem construct_minimal_connectivity_witness :
    (InRange ring5_tracker ring5_tracker.updater.symbols.length ∧
      SymmetricLattice ring5_tracker ring5_tracker.updater.symbols.length) ∧
    (construct ring5_tracker).outcome = .ok () ∧
    has_minimal_connectivity (construct ring5_tracker).tracker = true := by
  have hR : InRange ring5_tracker ring5_tracker.updater.symbols.length := by
    unfold InRange
    decide
  have hS : SymmetricLattice ring5_tracker ring5_tracker.updater.symbols.length := by
    unfold SymmetricLattice Neighbour
    decide
  have h := construct_minimal_connectivity ring5_tracker hR hS
  exact ⟨⟨hR, hS⟩, h.1, h.2.1⟩

/-- A detach at site 0 followed by a commit on the ring `A A B A`: the hypotheses of C8 hold
there. -/
theorem root_indx_returns_after_calls_witness :
    (AcyclicState (ring_constructed ["A", "A", "B", "A"])
        (ring_constructed ["A", "A", "B", "A"]).atomic_clusters.length ∧
      InRange (ring_constructed ["A", "A", "B", "A"])
        (ring_constructed ["A", "A", "B", "A"]).atomic_clusters.length ∧
      NoSelfNeighbour (ring_constructed ["A", "A", "B", "A"])
        (ring_constructed ["A", "A", "B", "A"]).atomic_clusters.length ∧
      (∀ call ∈ [Call.detachNeighbours 0 true [0], Call.applyMove swap_3_2],
        call.valid (ring_constructed ["A", "A", "B", "A"]).atomic_clusters.length) ∧
      (run_calls [Call.detachNeighbours 0 true [0], Call.applyMove swap_3_2]
        (ring_constructed ["A", "A", "B", "A"])).outcome = .ok ()) ∧
    ∀ i, i < (ring_constructed ["A", "A", "B", "A"]).atomic_clusters.length →
      ∃ r, root_indx (run_calls [Call.detachNeighbours 0 true [0], Call.applyMove swap_3_2]
          (ring_constructed ["A", "A", "B", "A"])).tracker i = .ok r ∧
        (run_calls [Call.detachNeighbours 0 true [0], Call.applyMove swap_3_2]
          (ring_constructed ["A", "A", "B", "A"])).tracker.atomic_clusters.getD r (-1) = -1 := by
  have hA : AcyclicState (ring_constructed ["A", "A", "B", "A"])
      (ring_constructed ["A", "A", "B", "A"]).atomic_clusters.length :=
    acyclicState_of_check _ (by decide) (by decide) (by decide)
  have hR : InRange (ring_constructed ["A", "A", "B", "A"])
      (ring_constructed ["A", "A", "B", "A"]).atomic_clusters.length := by
    unfold InRange
    decide
  have hN : NoSelfNeighbour (ring_constructed ["A", "A", "B", "A"])
      (ring_constructed ["A", "A", "B", "A"]).atomic_clusters.length := by
    unfold NoSelfNeighbour
    decide
  have hv : ∀ call ∈ [Call.detachNeighbours 0 true [0], Call.applyMove swap_3_2],
      call.valid (ring_constructed ["A", "A", "B", "A"]).atomic_clusters.length := by
    intro call hcall
    simp only [List.mem_cons, List.mem_singleton, List.not_mem_nil, or_false] at hcall
    rcases hcall with rfl | rfl
    · show 0 < _
      decide
    · exact ⟨by decide, by decide⟩
  have hret : (run_calls [Call.detachNeighbours 0 true [0], Call.applyMove swap_3_2]
      (ring_constructed ["A", "A", "B", "A"])).outcome = .ok () := rfl
  exact ⟨⟨hA, hR, hN, hv, hret⟩,
    root_indx_returns_after_calls (ring_constructed ["A", "A", "B", "A"]) _ hA hR hN hv hret⟩

/-- The constructor and a commit on the ring `A B A B`: the hypotheses of C9 hold there. -/
theorem solute_index_set_invariant_witness :
    (InRange (ring_tracker ["A", "B", "A", "B"])
        (ring_tracker ["A", "B", "A", "B"]).updater.symbols.length ∧
      WellFormed (ring_constructed ["A", "B", "A", "B"]) ∧
      Consistent (ring_constructed ["A", "B", "A", "B"]) ∧
      ConsistentSwap (ring_constructed ["A", "B", "A", "B"]) swap_2_1) ∧
    ((construct (ring_tracker ["A", "B", "A", "B"])).outcome = .ok () ∧
      Consistent (construct (ring_tracker ["A", "B", "A", "B"])).tracker) ∧
    ((update_clusters (ring_constructed ["A", "B", "A", "B"]) swap_2_1).outcome = .ok () ∧
      Consistent (update_clusters (ring_constructed ["A", "B", "A", "B"]) swap_2_1).tracker) := by
  have hR : InRange (ring_tracker ["A", "B", "A", "B"])
      (ring_tracker ["A", "B", "A", "B"]).updater.symbols.length := by
    unfold InRange
    decide
  have hw : WellFormed (ring_constructed ["A", "B", "A", "B"]) :=
    ⟨by decide, by unfold InRange; decide, by decide⟩
  have hc : Consistent (ring_constructed ["A", "B", "A", "B"]) :=
    consistent_of_check _ (by decide) (by decide)
  have hs : ConsistentSwap (ring_constructed ["A", "B", "A", "B"]) swap_2_1 :=
    ⟨by decide, by decide, by decide, by decide, by decide, by decide, by decide⟩
  exact ⟨⟨hR, hw, hc, hs⟩,
    solute_index_set_invariant (ring_tracker ["A", "B", "A", "B"])
      (ring_constructed ["A", "B", "A", "B"]) swap_2_1 hR hw hc hs⟩

/-- A change between two sites holding `B` on the ring `A B A B`: the hypothesis of C10 holds
there. -/
theorem update_clusters_noop_off_boundary_witness :
    is_cluster_element (ring_constructed ["A", "B", "A", "B"]) swap_1_3_same.c0.old_symb =
      is_cluster_element (ring_constructed ["A", "B", "A", "B"]) swap_1_3_same.c0.new_symb ∧
    update_clusters (ring_constructed ["A", "B", "A", "B"]) swap_1_3_same =
      ⟨ring_constructed ["A", "B", "A", "B"], .ok ()⟩ ∧
    move_creates_new_cluster (ring_constructed ["A", "B", "A", "B"]) swap_1_3_same =
      ⟨ring_constructed ["A", "B", "A", "B"], .ok false⟩ :=
  ⟨by decide,
    update_clusters_noop_off_boundary (ring_constructed ["A", "B", "A", "B"]) swap_1_3_same
      (by decide)⟩

theorem detach_loop_frame (ref_indx : Nat) (can_create_new_clusters : Bool)
    (indx_in_change : List Nat) (is_ref_indx : Bool) (orig : List Int) :
    ∀ (offs : List Nat) (assigned : Bool) (t : ClusterTracker),
      (∀ x, x ≠ ref_indx → orig.getD x (-1) ≠ (ref_indx : Int) →
        t.atomic_clusters.getD x (-1) = orig.getD x (-1)) →
      ∀ (r : Run Bool),
        detach_loop ref_indx can_create_new_clusters indx_in_change is_ref_indx offs assigned t
          = r →
        r.tracker.symbols_cpy = t.symbols_cpy ∧
        r.tracker.solute_atoms_indices = t.solute_atoms_indices ∧
        ∀ x, x ≠ ref_indx → orig.getD x (-1) ≠ (ref_indx : Int) →
          r.tracker.atomic_clusters.getD x (-1) = orig.getD x (-1) := by
  intro offs
  induction offs with
  | nil =>
    intro assigned t hinv r h
    simp only [detach_loop] at h
    rw [← h]
    exact ⟨rfl, rfl, hinv⟩
  | cons off rest ih =>
    intro assigned t hinv r h
    simp only [detach_loop] at h
    -- a write at a site whose entry is `ref_indx` keeps the frame
    have hwrite : ∀ (v : Int),
        t.atomic_clusters.getD (t.updater.trans_matrix ref_indx off) (-1) = (ref_indx : Int) →
        ∀ x, x ≠ ref_indx → orig.getD x (-1) ≠ (ref_indx : Int) →
          (t.atomic_clusters.set (t.updater.trans_matrix ref_indx off) v).getD x (-1)
            = orig.getD x (-1) := by
      intro v hpar x hx ho
      rw [getD_set_int, if_neg, hinv x hx ho]
      rintro ⟨hxe, _⟩
      exact ho (by rw [← hinv x hx ho, hxe]; exact hpar)
    split at h
    · exact ih assigned t hinv r h
    · split at h
      · exact ih assigned t hinv r h
      · rename_i hpar
        have hpar' : t.atomic_clusters.getD (t.updater.trans_matrix ref_indx off) (-1)
            = (ref_indx : Int) := not_not.1 hpar
        split at h
        · refine ih true
            { t with
              atomic_clusters := (t.atomic_clusters.set (t.updater.trans_matrix ref_indx off)
                (-1)).set ref_indx (t.updater.trans_matrix ref_indx off : Int) } ?_ r h
          intro x hx ho
          show ((t.atomic_clusters.set _ _).set _ _).getD x (-1) = _
          rw [getD_set_int, if_neg (fun hh => hx hh.1)]
          exact hwrite (-1) hpar' x hx ho
        · split at h
          · rw [← h]
            exact ⟨rfl, rfl, hinv⟩
          · rename_i indx2 _
            exact ih assigned
              { t with
                atomic_clusters := t.atomic_clusters.set (t.updater.trans_matrix ref_indx off)
                  (indx2 : Int) } (hwrite (indx2 : Int) hpar') r h
          · split at h
            · exact ih assigned
                { t with
                  atomic_clusters :=
                    t.atomic_clusters.set (t.updater.trans_matrix ref_indx off) (-1) }
                (hwrite (-1) hpar') r h
            · rw [← h]
              exact ⟨rfl, rfl, hinv⟩

theorem MinimalConnectivity.set {t : ClusterTracker} {ac : List Int}
    (h : MinimalConnectivity t ac) (x : Nat) (v : Int)
    (hv : v = -1 ∨ ∃ c ∈ t.indices_in_cluster, v = (t.updater.trans_matrix x c : Int)) :
    MinimalConnectivity t (ac.set x v) := by
  intro i hi hne
  rw [List.length_set] at hi
  rw [getD_set_int] at hne ⊢
  by_cases hc : i = x ∧ x < ac.length
  · rw [if_pos hc] at hne ⊢
    rcases hv with hv | hv
    · exact absurd hv hne
    · rw [hc.1]
      exact hv
  · rw [if_neg hc] at hne ⊢
    exact h i hi hne

theorem detach_loop_minimal (ref_indx : Nat) (can_create_new_clusters : Bool)
    (indx_in_change : List Nat) (is_ref_indx : Bool) (t0 : ClusterTracker) :
    ∀ (offs : List Nat) (assigned : Bool) (t : ClusterTracker),
      (∀ off ∈ offs, off ∈ t0.indices_in_cluster) →
      t.updater = t0.updater → t.indices_in_cluster = t0.indices_in_cluster →
      MinimalConnectivity t0 t.atomic_clusters →
      ∀ (r : Run Bool),
        detach_loop ref_indx can_create_new_clusters indx_in_change is_ref_indx offs assigned t
          = r →
        r.tracker.updater = t0.updater ∧ r.tracker.indices_in_cluster = t0.indices_in_cluster ∧
        MinimalConnectivity t0 r.tracker.atomic_clusters ∧
        r.tracker.atomic_clusters.length = t.atomic_clusters.length := by
  intro offs
  induction offs with
  | nil =>
    intro assigned t _ hu hi hm r h
    simp only [detach_loop] at h
    rw [← h]
    exact ⟨hu, hi, hm, rfl⟩
  | cons off rest ih =>
    intro assigned t hoffs hu hi hm r h
    have hrest : ∀ o ∈ rest, o ∈ t0.indices_in_cluster :=
      fun o ho => hoffs o (List.mem_cons_of_mem _ ho)
    have hoff : off ∈ t0.indices_in_cluster := hoffs off (List.mem_cons_self _ _)
    simp only [detach_loop] at h
    split at h
    · exact ih assigned t hrest hu hi hm r h
    · split at h
      · exact ih assigned t hrest hu hi hm r h
      · split at h
        · obtain ⟨a1, a2, a3, a4⟩ := ih true
            { t with
              atomic_clusters := (t.atomic_clusters.set (t.updater.trans_matrix ref_indx off)
                (-1)).set ref_indx (t.updater.trans_matrix ref_indx off : Int) }
            hrest hu hi
            ((hm.set _ _ (Or.inl rfl)).set _ _ (Or.inr ⟨off, hoff, by rw [hu]⟩)) r h
          exact ⟨a1, a2, a3, by rw [a4]; simp⟩
        · split at h
          · rw [← h]
            exact ⟨hu, hi, hm, rfl⟩
          · rename_i indx2 hsearch
            obtain ⟨off2, ho2, e2, _⟩ := detach_search_some t _ _ _ _ hsearch
            obtain ⟨a1, a2, a3, a4⟩ := ih assigned
              { t with
                atomic_clusters := t.atomic_clusters.set (t.updater.trans_matrix ref_indx off)
                  (indx2 : Int) } hrest hu hi
              (hm.set _ _ (Or.inr ⟨off2, hi ▸ ho2, by rw [← e2, hu]⟩)) r h
            exact ⟨a1, a2, a3, by rw [a4]; simp⟩
          · split at h
            · obtain ⟨a1, a2, a3, a4⟩ := ih assigned
                { t with
                  atomic_clusters :=
                    t.atomic_clusters.set (t.updater.trans_matrix ref_indx off) (-1) }
                hrest hu hi (hm.set _ _ (Or.inl rfl)) r h
              exact ⟨a1, a2, a3, by rw [a4]; simp⟩
            · rw [← h]
              exact ⟨hu, hi, hm, rfl⟩

/-- C14. `detach_neighbours` preserves minimal connectivity: from a state for which
`has_minimal_connectivity()` holds, after every call with `ref_indx` in `indx_in_change`, in
particular after one that returns normally, every site whose parent is not `-1` still has its
parent among its own neighbours under the tracked offsets, and `has_minimal_connectivity()` still
returns `true`. -/
theorem detach_neighbours_keeps_minimal_connectivity (t : ClusterTracker) (ref_indx : Nat)
    (can_create_new_clusters : Bool) (indx_in_change : List Nat)
    (hmin : has_minimal_connectivity t = true) (href : ref_indx ∈ indx_in_change) :
    has_minimal_connectivity
      (detach_neighbours t ref_indx can_create_new_clusters indx_in_change).tracker = true ∧
    ∀ i, i < t.atomic_clusters.length →
      (detach_neighbours t ref_indx can_create_new_clusters
        indx_in_change).tracker.atomic_clusters.getD i (-1) ≠ -1 →
      ∃ c ∈ t.indices_in_cluster,
        (detach_neighbours t ref_indx can_create_new_clusters
          indx_in_change).tracker.atomic_clusters.getD i (-1)
          = (t.updater.trans_matrix i c : Int) := by
  have hm0 : MinimalConnectivity t t.atomic_clusters :=
    (has_minimal_connectivity_iff t).1 hmin
  have hloop : detach_neighbours t ref_indx can_create_new_clusters indx_in_change =
      detach_loop ref_indx can_create_new_clusters indx_in_change
        (decide (t.atomic_clusters.getD ref_indx (-1) = -1)) t.indices_in_cluster false t := by
    unfold detach_neighbours
    rw [if_neg (by rw [(is_in_vector_iff _ _).2 href]; simp),
      if_neg (by rw [hmin]; simp)]
  obtain ⟨hu, hi, hm, hlen⟩ := detach_loop_minimal ref_indx can_create_new_clusters
    indx_in_change _ t t.indices_in_cluster false t (fun _ h => h) rfl rfl hm0 _ hloop.symm
  constructor
  · rw [has_minimal_connectivity_iff, hu, hi]
    exact hm
  · intro i hi' hne
    exact hm i (hlen ▸ hi') hne

/-- C15. `detach_neighbours` raises the invalid-argument error "Ref_indx not in the change
vector!" whenever `ref_indx` is not an element of `indx_in_change`, for every state and every
flag, and the tracker (forest, solute index set, shadow species) is then as before the call. -/
theorem detach_neighbours_rejects_foreign_ref (t : ClusterTracker) (ref_indx : Nat)
    (can_create_new_clusters : Bool) (indx_in_change : List Nat)
    (href : ref_indx ∉ indx_in_change) :
    detach_neighbours t ref_indx can_create_new_clusters indx_in_change
      = ⟨t, .error "Ref_indx not in the change vector!"⟩ := by
  unfold detach_neighbours
  rw [if_pos]
  have : is_in_vector ref_indx indx_in_change = false := by
    rw [← Bool.not_eq_true, is_in_vector_iff]
    exact href
  rw [this]
  rfl

theorem forest_of_reaching {ac : List Int} (hr : EntriesInRange ac) :
    Forest (fun x => x < ac.length ∧ ∃ k r, Walk ac k x r) ac := by
  refine ⟨fun i hi => hi.1, ?_, fun i hi => hi.2⟩
  rintro i ⟨hi, k, r, w⟩ hne
  rcases hr i hi with h | ⟨h0, h1⟩
  · exact absurd h hne
  · refine ⟨h0, by omega, ?_⟩
    cases w with
    | root h => exact absurd h hne
    | step _ hw => exact ⟨_, _, hw⟩

theorem chain_forest_getD (n j : Nat) (hj : j < n) :
    (chain_forest n).getD j (-1) = (j : Int) - 1 := by
  unfold chain_forest
  rw [List.getD_eq_getElem _ _ (by simpa using hj)]
  simp

theorem chain_forest_walk (n : Nat) : ∀ j, j < n → Walk (chain_forest n) j j 0 := by
  intro j
  induction j with
  | zero =>
    intro h
    exact Walk.root (by rw [chain_forest_getD n 0 h]; rfl)
  | succ j ih =>
    intro h
    have he : (chain_forest n).getD (j + 1) (-1) = (j : Int) := by
      rw [chain_forest_getD n (j + 1) h]
      push_cast
      omega
    refine Walk.step (by rw [he]; omega) ?_
    rw [he, Int.toNat_ofNat]
    exact ih (by omega)

/-- C11. Root lookup fails exactly on corruption: for every forest array whose entries are `-1`
or sites and every site `i`, `root_indx(i)` raises if and only if the parent chain from `i` never
reaches a site with parent `-1`; otherwise it returns the one root `r` reached from `i`, with
`atomic_clusters[r] = -1`, after fewer steps than the cap allows. In the forest that is a single
chain of `n + 1` sites, the lookup from the last site follows `n` links and returns site 0. -/
theorem root_indx_raises_iff_no_root (t : ClusterTracker) (i : Nat)
    (hr : EntriesInRange t.atomic_clusters) (hi : i < t.atomic_clusters.length) :
    ((∃ e, root_indx t i = .error e) ↔ ¬ ∃ k r, Walk t.atomic_clusters k i r) ∧
    (∀ k r, Walk t.atomic_clusters k i r →
      root_indx t i = .ok r ∧ t.atomic_clusters.getD r (-1) = -1 ∧
      k < t.atomic_clusters.length ∧ ∀ k' r', Walk t.atomic_clusters k' i r' → r' = r) ∧
    ∀ n, Walk (chain_forest (n + 1)) n n 0 ∧
      root_indx { t with atomic_clusters := chain_forest (n + 1) } n = .ok 0 := by
  have hF := forest_of_reaching hr
  have hret : ∀ k r, Walk t.atomic_clusters k i r →
      root_indx t i = .ok r ∧ t.atomic_clusters.getD r (-1) = -1 ∧
      k < t.atomic_clusters.length ∧ ∀ k' r', Walk t.atomic_clusters k' i r' → r' = r := by
    intro k r w
    exact ⟨root_indx_of_walk hF w ⟨hi, k, r, w⟩, w.isRoot, w.lt_length hF ⟨hi, k, r, w⟩,
      fun k' r' w' => (w'.det w).2⟩
  refine ⟨⟨?_, ?_⟩, hret, ?_⟩
  · rintro ⟨e, he⟩ ⟨k, r, w⟩
    rw [(hret k r w).1] at he
    exact absurd he (by simp)
  · intro hno
    by_cases hz : (root_indx_loop t.atomic_clusters t.atomic_clusters.length i).2 = 0
    · exact ⟨_, by simp only [root_indx]; rw [if_pos hz]⟩
    · obtain ⟨k, w⟩ := walk_of_root_indx_loop _ _ i hz
      exact absurd ⟨k, _, w⟩ hno
  · intro n
    have w := chain_forest_walk (n + 1) n (by omega)
    refine ⟨w, ?_⟩
    simp only [root_indx]
    rw [root_indx_loop_of_walk w _ (by simp [chain_forest])]
    rw [if_neg (by simp [chain_forest])]

theorem is_connected_loop_spec {ac : List Int} (b : Nat) {k a r : Nat} (h : Walk ac k a r) :
    ∀ fuel, k < fuel →
      ((is_connected_loop ac b fuel a).1 = true ↔ Ancestor ac a b) ∧
      ((is_connected_loop ac b fuel a).1 = false → (is_connected_loop ac b fuel a).2 ≠ 0) := by
  induction h with
  | @root i h0 =>
    intro fuel hf
    obtain ⟨f, rfl⟩ : ∃ f, fuel = f + 1 := ⟨fuel - 1, by omega⟩
    simp only [is_connected_loop]
    rw [if_neg (by simpa using h0)]
    refine ⟨⟨fun hh => absurd hh (by simp), fun hh => ?_⟩, fun _ => by simp⟩
    cases hh with
    | parent hn => exact absurd h0 hn
    | step hn _ => exact absurd h0 hn
  | @step k i r hn hw ih =>
    intro fuel hf
    obtain ⟨f, rfl⟩ : ∃ f, fuel = f + 1 := ⟨fuel - 1, by omega⟩
    simp only [is_connected_loop]
    rw [if_pos hn]
    by_cases hp : (ac.getD i (-1)).toNat = b
    · rw [if_pos hp]
      exact ⟨⟨fun _ => hp ▸ Ancestor.parent hn, fun _ => rfl⟩, fun hh => absurd hh (by simp)⟩
    · rw [if_neg hp]
      obtain ⟨h1, h2⟩ := ih f (by omega)
      refine ⟨⟨fun hh => Ancestor.step hn (h1.1 hh), fun hh => ?_⟩, h2⟩
      cases hh with
      | parent _ => exact absurd rfl hp
      | step _ ha => exact h1.2 ha

theorem Ancestor.closer {ac : List Int} {a b : Nat} (h : Ancestor ac a b) :
    ∀ {k r : Nat}, Walk ac k a r → ∃ k', k' < k ∧ Walk ac k' b r := by
  induction h with
  | parent hn =>
    intro k r w
    cases w with
    | root h0 => exact absurd h0 hn
    | step _ hw => exact ⟨_, Nat.lt_succ_self _, hw⟩
  | step hn _ ih =>
    intro k r w
    cases w with
    | root h0 => exact absurd h0 hn
    | step _ hw =>
      obtain ⟨k', hk', w'⟩ := ih hw
      exact ⟨k', by omega, w'⟩

theorem is_connected_spec (t : ClusterTracker) (a b : Nat)
    (hF : Forest (fun i => i < t.atomic_clusters.length) t.atomic_clusters)
    (ha : a < t.atomic_clusters.length) :
    ∃ c, is_connected t a b = .ok c ∧ (c = true ↔ Ancestor t.atomic_clusters a b) := by
  obtain ⟨k, r, w⟩ := hF.reach a ha
  obtain ⟨h1, h2⟩ := is_connected_loop_spec b w _ (w.lt_length hF ha)
  unfold is_connected
  simp only
  cases hc : (is_connected_loop t.atomic_clusters b t.atomic_clusters.length a).1
  · refine ⟨false, ?_, ?_⟩
    · rw [if_neg (by simp), if_neg (h2 hc)]
    · rw [← h1, hc]
  · exact ⟨true, by rw [if_pos rfl], by rw [← h1, hc]⟩

/-- C12. For every acyclic forest and all sites `a`, `b`, `is_connected(a, b)` returns, and it
returns `true` if and only if `b` lies on the root path of `a`, that is `b` is reached from `a`
by following one or more parent pointers; the relation is directional: `is_connected(a, b)` and
`is_connected(b, a)` never both return `true`. -/
theorem is_connected_iff_on_root_path (t : ClusterTracker) (a b : Nat)
    (hF : Forest (fun i => i < t.atomic_clusters.length) t.atomic_clusters)
    (ha : a < t.atomic_clusters.length) (hb : b < t.atomic_clusters.length) :
    (∃ c, is_connected t a b = .ok c ∧ (c = true ↔ Ancestor t.atomic_clusters a b)) ∧
    ¬ (is_connected t a b = .ok true ∧ is_connected t b a = .ok true) := by
  refine ⟨is_connected_spec t a b hF ha, ?_⟩
  rintro ⟨h1, h2⟩
  obtain ⟨c1, e1, i1⟩ := is_connected_spec t a b hF ha
  obtain ⟨c2, e2, i2⟩ := is_connected_spec t b a hF hb
  rw [h1] at e1
  rw [h2] at e2
  have hab : Ancestor t.atomic_clusters a b := i1.1 (by injection e1 with e; exact e.symm)
  have hba : Ancestor t.atomic_clusters b a := i2.1 (by injection e2 with e; exact e.symm)
  obtain ⟨k, r, w⟩ := hF.reach a ha
  obtain ⟨k1, hk1, w1⟩ := hab.closer w
  obtain ⟨k2, hk2, w2⟩ := hba.closer w1
  have := (w.det w2).1
  omega

theorem map_value_nil (x : Nat) : map_value [] x = 0 := rfl

theorem map_value_cons (k v : Nat) (m : List (Nat × Nat)) (x : Nat) :
    map_value ((k, v) :: m) x = (if k = x then v else 0) + map_value m x := by
  unfold map_value
  by_cases h : k = x
  · simp [List.filter_cons, h]
  · simp [List.filter_cons, h]

theorem map_value_eq_zero (m : List (Nat × Nat)) (x : Nat) (h : ∀ e ∈ m, e.1 ≠ x) :
    map_value m x = 0 := by
  induction m with
  | nil => rfl
  | cons e m ih =>
    obtain ⟨k, v⟩ := e
    rw [map_value_cons, if_neg (h (k, v) (List.mem_cons_self _ _)),
      ih (fun e he => h e (List.mem_cons_of_mem _ he))]

theorem map_value_ge (m : List (Nat × Nat)) (e : Nat × Nat) (he : e ∈ m) :
    e.2 ≤ map_value m e.1 := by
  induction m with
  | nil => exact absurd he (List.not_mem_nil e)
  | cons e' m ih =>
    obtain ⟨k, v⟩ := e'
    rw [map_value_cons]
    rcases List.mem_cons.1 he with rfl | he
    · simp
    · have := ih he
      omega

theorem map_count_value (r : Nat) (m : List (Nat × Nat)) (x : Nat) :
    map_value (map_count r m) x = map_value m x + if r = x then 1 else 0 := by
  induction m with
  | nil =>
    simp only [map_count]
    rw [map_value_cons, map_value_nil]
    omega
  | cons e m ih =>
    obtain ⟨k, v⟩ := e
    simp only [map_count]
    split
    · rw [map_value_cons]
      omega
    · split
      · rename_i hrk
        subst hrk
        rw [map_value_cons, map_value_cons]
        split <;> omega
      · rw [map_value_cons, map_value_cons, ih]
        omega

theorem map_count_keys (r : Nat) (m : List (Nat × Nat)) :
    ∀ e ∈ map_count r m, e.1 = r ∨ ∃ e' ∈ m, e'.1 = e.1 := by
  induction m with
  | nil =>
    intro e he
    simp only [map_count, List.mem_singleton] at he
    exact Or.inl (by rw [he])
  | cons e0 m ih =>
    obtain ⟨k, v⟩ := e0
    intro e he
    simp only [map_count] at he
    split at he
    · rcases List.mem_cons.1 he with rfl | he
      · exact Or.inl rfl
      · exact Or.inr ⟨e, he, rfl⟩
    · split at he
      · rcases List.mem_cons.1 he with rfl | he
        · exact Or.inr ⟨(k, v), List.mem_cons_self _ _, rfl⟩
        · exact Or.inr ⟨e, List.mem_cons_of_mem _ he, rfl⟩
      · rcases List.mem_cons.1 he with rfl | he
        · exact Or.inr ⟨(k, v), List.mem_cons_self _ _, rfl⟩
        · rcases ih e he with h | ⟨e', he', h⟩
          · exact Or.inl h
          · exact Or.inr ⟨e', List.mem_cons_of_mem _ he', h⟩

theorem map_count_sorted (r : Nat) (m : List (Nat × Nat))
    (h : m.Pairwise fun e1 e2 => e1.1 < e2.1) :
    (map_count r m).Pairwise fun e1 e2 => e1.1 < e2.1 := by
  induction m with
  | nil => simp [map_count]
  | cons e0 m ih =>
    obtain ⟨k, v⟩ := e0
    rw [List.pairwise_cons] at h
    simp only [map_count]
    split
    · rename_i hrk
      refine List.pairwise_cons.2 ⟨?_, List.pairwise_cons.2 h⟩
      intro e he
      rcases List.mem_cons.1 he with rfl | he
      · exact hrk
      · exact lt_trans hrk (h.1 e he)
    · split
      · exact List.pairwise_cons.2 ⟨fun e he => h.1 e he, h.2⟩
      · rename_i h1 h2
        refine List.pairwise_cons.2 ⟨?_, ih h.2⟩
        intro e he
        rcases map_count_keys r m e he with hk | ⟨e', he', hk⟩
        · show k < e.1
          omega
        · show k < e.1
          rw [← hk]
          exact h.1 e' he'

theorem map_count_positive (r : Nat) (m : List (Nat × Nat)) (h : ∀ e ∈ m, 1 ≤ e.2) :
    ∀ e ∈ map_count r m, 1 ≤ e.2 := by
  induction m with
  | nil =>
    intro e he
    simp only [map_count, List.mem_singleton] at he
    rw [he]
  | cons e0 m ih =>
    obtain ⟨k, v⟩ := e0
    intro e he
    simp only [map_count] at he
    split at he
    · rcases List.mem_cons.1 he with rfl | he
      · exact le_refl 1
      · exact h e he
    · split at he
      · rcases List.mem_cons.1 he with rfl | he
        · show 1 ≤ v + 1
          omega
        · exact h e (List.mem_cons_of_mem _ he)
      · rcases List.mem_cons.1 he with rfl | he
        · exact h _ (List.mem_cons_self _ _)
        · exact ih (fun e' he' => h e' (List.mem_cons_of_mem _ he')) e he

theorem Histogram.count {m : List (Nat × Nat)} {f : Nat → Nat} (h : Histogram m f) (r : Nat) :
    Histogram (map_count r m) fun x => f x + if r = x then 1 else 0 :=
  ⟨map_count_sorted r m h.sorted, map_count_positive r m h.positive,
    fun x => by rw [map_count_value, h.value]⟩

/-- Two histograms of the same function are the same list of entries. -/
theorem Histogram.unique {f : Nat → Nat} :
    ∀ {m m' : List (Nat × Nat)}, Histogram m f → Histogram m' f → m = m' := by
  intro m
  induction m generalizing f with
  | nil =>
    intro m' h h'
    cases m' with
    | nil => rfl
    | cons e m' =>
      have h1 := map_value_ge (e :: m') e (List.mem_cons_self _ _)
      have h2 := h'.positive e (List.mem_cons_self _ _)
      rw [h'.value, ← h.value, map_value_nil] at h1
      omega
  | cons e m ih =>
    intro m' h h'
    obtain ⟨k, v⟩ := e
    have hs := List.pairwise_cons.1 h.sorted
    cases m' with
    | nil =>
      have h1 := map_value_ge ((k, v) :: m) (k, v) (List.mem_cons_self _ _)
      have h2 := h.positive (k, v) (List.mem_cons_self _ _)
      rw [h.value, ← h'.value, map_value_nil] at h1
      omega
    | cons e' m' =>
      obtain ⟨k', v'⟩ := e'
      have hs' := List.pairwise_cons.1 h'.sorted
      have hv := h.positive (k, v) (List.mem_cons_self _ _)
      have hv' := h'.positive (k', v') (List.mem_cons_self _ _)
      have z : map_value m k = 0 :=
        map_value_eq_zero m k fun e he => Nat.ne_of_gt (hs.1 e he)
      have z' : map_value m' k' = 0 :=
        map_value_eq_zero m' k' fun e he => Nat.ne_of_gt (hs'.1 e he)
      have e1 := h.value k
      have e2 := h'.value k
      have e3 := h.value k'
      have e4 := h'.value k'
      rw [map_value_cons] at e1 e2 e3 e4
      have hk : k = k' := by
        rcases Nat.lt_trichotomy k k' with hlt | heq | hgt
        · have : map_value m' k = 0 :=
            map_value_eq_zero m' k fun e he => Nat.ne_of_gt (lt_trans hlt (hs'.1 e he))
          rw [if_neg (by omega), this] at e2
          rw [if_pos rfl, z] at e1
          omega
        · exact heq
        · have : map_value m k' = 0 :=
            map_value_eq_zero m k' fun e he => Nat.ne_of_gt (lt_trans hgt (hs.1 e he))
          rw [if_neg (by omega), this] at e3
          rw [if_pos rfl, z'] at e4
          omega
      subst hk
      rw [if_pos rfl, z] at e1
      rw [if_pos rfl, z'] at e2
      have hvv : v = v' := by omega
      subst hvv
      have htail : m = m' := by
        refine ih (f := fun x => if x = k then 0 else f x)
          ⟨hs.2, fun e he => h.positive e (List.mem_cons_of_mem _ he), fun x => ?_⟩
          ⟨hs'.2, fun e he => h'.positive e (List.mem_cons_of_mem _ he), fun x => ?_⟩
        · by_cases hx : x = k
          · rw [if_pos hx, hx, z]
          · have := h.value x
            rw [map_value_cons, if_neg (fun hh => hx hh.symm)] at this
            rw [if_neg hx, ← this]
            omega
        · by_cases hx : x = k
          · rw [if_pos hx, hx, z']
          · have := h'.value x
            rw [map_value_cons, if_neg (fun hh => hx hh.symm)] at this
            rw [if_neg hx, ← this]
            omega
      rw [htail]

theorem Acyclic.group_of_is_root {ac : List Int} (h : Acyclic ac) (x : Nat) (hx : x < ac.length) :
    group_of ac x < ac.length ∧ group_of ac (group_of ac x) = group_of ac x ∧
      ac.getD (group_of ac x) (-1) = -1 := by
  obtain ⟨k, r, w⟩ := h.reach x hx
  have hr : r < ac.length := w.mem h hx
  rw [group_of_eq_of_walk h w hx]
  exact ⟨hr, group_of_eq_of_walk h (Walk.root w.isRoot) hr, w.isRoot⟩

theorem Acyclic.root_indx_eq {t : ClusterTracker} (h : Acyclic t.atomic_clusters) (x : Nat)
    (hx : x < t.atomic_clusters.length) : root_indx t x = .ok (group_of t.atomic_clusters x) := by
  obtain ⟨k, r, w⟩ := h.reach x hx
  rw [group_of_eq_of_walk h w hx]
  exact root_indx_of_walk h w hx

theorem Histogram.of_eq {m : List (Nat × Nat)} {f g : Nat → Nat} (h : Histogram m f)
    (hfg : ∀ x, f x = g x) : Histogram m g :=
  ⟨h.sorted, h.positive, fun x => by rw [h.value, hfg]⟩

theorem get_cluster_size_loop_spec (t : ClusterTracker) :
    ∀ (sites : List Nat) (m : List (Nat × Nat)) (f : Nat → Nat),
      (∀ i ∈ sites, root_indx t i = .ok (group_of t.atomic_clusters i)) → Histogram m f →
      ∃ m', get_cluster_size_loop t sites m = .ok m' ∧
        Histogram m' fun x => f x +
          (sites.filter fun i => decide (i ≠ x ∧ group_of t.atomic_clusters i = x)).length := by
  intro sites
  induction sites with
  | nil =>
    intro m f _ h
    exact ⟨m, rfl, h.of_eq fun x => by simp⟩
  | cons i rest ih =>
    intro m f hroot h
    have hrest : ∀ j ∈ rest, root_indx t j = .ok (group_of t.atomic_clusters j) :=
      fun j hj => hroot j (List.mem_cons_of_mem _ hj)
    simp only [get_cluster_size_loop]
    rw [hroot i (List.mem_cons_self _ _)]
    simp only
    by_cases hne : group_of t.atomic_clusters i ≠ i
    · rw [if_pos hne]
      obtain ⟨m', e, hm⟩ := ih _ _ hrest (h.count (group_of t.atomic_clusters i))
      refine ⟨m', e, hm.of_eq fun x => ?_⟩
      rw [List.filter_cons]
      by_cases hx : group_of t.atomic_clusters i = x
      · have : i ≠ x := fun hh => hne (hx.trans hh.symm)
        simp [hx, this]
        omega
      · simp [hx]
    · rw [if_neg hne]
      obtain ⟨m', e, hm⟩ := ih _ _ hrest h
      refine ⟨m', e, hm.of_eq fun x => ?_⟩
      rw [List.filter_cons]
      have : ¬ (i ≠ x ∧ group_of t.atomic_clusters i = x) := by
        rintro ⟨h1, h2⟩
        exact hne (by rw [h2]; exact Ne.symm h1)
      simp [this]

theorem map_value_map (f : Nat → Nat) (x : Nat) :
    ∀ (L : List Nat), L.Nodup →
      map_value (L.map fun r => (r, f r)) x = if x ∈ L then f x else 0 := by
  intro L
  induction L with
  | nil => intro _; rfl
  | cons a L ih =>
    intro hnd
    rw [List.nodup_cons] at hnd
    rw [List.map_cons, map_value_cons, ih hnd.2]
    by_cases hax : a = x
    · subst hax
      simp [hnd.1]
    · have : ¬ x = a := fun hh => hax hh.symm
      simp [hax, this]

theorem attached_eq_zero {ac : List Int} (h : Acyclic ac) (x : Nat) (hx : ¬ x < ac.length) :
    attached ac x = 0 := by
  unfold attached
  rw [List.length_eq_zero, List.filter_eq_nil_iff]
  intro i hi
  have hlt := (h.group_of_is_root i (List.mem_range.1 hi)).1
  simp only [decide_eq_true_eq, not_and]
  intro _ hh
  omega

theorem histogram_of_attached {ac : List Int} (h : Acyclic ac) :
    Histogram ((cluster_roots ac).map fun r => (r, attached ac r)) (attached ac) := by
  have hsorted : (cluster_roots ac).Pairwise (· < ·) :=
    (List.pairwise_lt_range _).filter _
  refine ⟨?_, ?_, ?_⟩
  · rw [List.pairwise_map]
    exact hsorted
  · intro e he
    obtain ⟨r, hr, rfl⟩ := List.mem_map.1 he
    unfold cluster_roots at hr
    rw [List.mem_filter] at hr
    simpa using hr.2
  · intro x
    rw [map_value_map _ _ _ (hsorted.imp fun hab => Nat.ne_of_lt hab)]
    split
    · rfl
    · rename_i hx
      unfold cluster_roots at hx
      rw [List.mem_filter, List.mem_range] at hx
      by_cases hlt : x < ac.length
      · have : ¬ 1 ≤ attached ac x := fun hh => hx ⟨hlt, by simpa using hh⟩
        omega
      · exact (attached_eq_zero h x hlt).symm

theorem get_cluster_size_eq (t : ClusterTracker) (h : Acyclic t.atomic_clusters) :
    get_cluster_size t [] =
      .ok ((cluster_roots t.atomic_clusters).map fun r => (r, attached t.atomic_clusters r)) := by
  obtain ⟨m', e, hm⟩ := get_cluster_size_loop_spec t (List.range t.atomic_clusters.length) []
    (fun _ => 0) (fun i hi => h.root_indx_eq i (List.mem_range.1 hi))
    ⟨List.Pairwise.nil, fun e he => absurd he (List.not_mem_nil e), fun _ => rfl⟩
  unfold get_cluster_size
  rw [e]
  congr 1
  refine Histogram.unique (f := attached t.atomic_clusters) (hm.of_eq fun x => ?_)
    (histogram_of_attached h)
  simp [attached]

theorem get_cluster_statistics_loop_sizes :
    ∀ (m : List (Nat × Nat)) (a mx : Nat) (sq : Int) (cs : List Nat), (∀ e ∈ m, 1 ≤ e.2) →
      (get_cluster_statistics_loop m a mx sq cs).2.2.2 = cs ++ m.map fun e => e.2 + 1 := by
  intro m
  induction m with
  | nil => intro a mx sq cs _; simp [get_cluster_statistics_loop]
  | cons e m ih =>
    intro a mx sq cs h
    obtain ⟨k, v⟩ := e
    have hv : v ≥ 1 := h (k, v) (List.mem_cons_self _ _)
    simp only [get_cluster_statistics_loop]
    rw [ih _ _ _ _ (fun e he => h e (List.mem_cons_of_mem _ he))]
    simp [hv]

theorem filter_length_split (p : Nat → Bool) (r : Nat) :
    ∀ (L : List Nat), L.Nodup → r ∈ L → p r = true →
      (L.filter p).length = (L.filter fun i => decide (i ≠ r ∧ p i = true)).length + 1 := by
  intro L
  induction L with
  | nil => intro _ h _; exact absurd h (List.not_mem_nil r)
  | cons a L ih =>
    intro hnd hr hp
    rw [List.nodup_cons] at hnd
    by_cases har : a = r
    · subst har
      have hsame : (L.filter fun i => decide (i ≠ a ∧ p i = true)) = L.filter p := by
        apply List.filter_congr
        intro i hi
        have : i ≠ a := fun hh => hnd.1 (hh ▸ hi)
        simp [this]
      rw [List.filter_cons, if_pos hp, List.filter_cons, if_neg (by simp), hsame]
      rfl
    · have hr' : r ∈ L := by
        rcases List.mem_cons.1 hr with h | h
        · exact absurd h.symm har
        · exact h
      rw [List.filter_cons, List.filter_cons]
      by_cases hpa : p a = true
      · rw [if_pos hpa, if_pos (by simp [har, hpa]), List.length_cons, List.length_cons,
          ih hnd.2 hr' hp]
      · rw [if_neg hpa, if_neg (by simp [hpa]), ih hnd.2 hr' hp]

theorem group_size_eq_attached_succ {ac : List Int} (r : Nat) (hr : r < ac.length)
    (hroot : group_of ac r = r) : group_size ac r = attached ac r + 1 := by
  unfold group_size attached
  rw [filter_length_split (fun i => decide (group_of ac i = r)) r _ (List.nodup_range _)
    (List.mem_range.2 hr) (by simpa using hroot)]
  congr 2
  apply List.filter_congr
  intro i _
  simp

theorem cluster_roots_root {ac : List Int} (h : Acyclic ac) {r : Nat}
    (hr : r ∈ cluster_roots ac) : r < ac.length ∧ 1 ≤ attached ac r ∧ group_of ac r = r := by
  unfold cluster_roots at hr
  rw [List.mem_filter, List.mem_range] at hr
  have h1 : 1 ≤ attached ac r := by simpa using hr.2
  refine ⟨hr.1, h1, ?_⟩
  unfold attached at h1
  obtain ⟨i, hi⟩ := List.exists_mem_of_length_pos (Nat.lt_of_lt_of_le Nat.zero_lt_one h1)
  rw [List.mem_filter, List.mem_range] at hi
  have hg : group_of ac i = r := (of_decide_eq_true hi.2).2
  rw [← hg]
  exact (h.group_of_is_root i hi.1).2.1

theorem mem_cluster_roots_iff {ac : List Int} (h : Acyclic ac) (r : Nat) :
    r ∈ cluster_roots ac ↔
      r < ac.length ∧ ac.getD r (-1) = -1 ∧
        ∃ i, i < ac.length ∧ i ≠ r ∧ group_of ac i = r := by
  constructor
  · intro hr
    obtain ⟨h1, h2, h3⟩ := cluster_roots_root h hr
    refine ⟨h1, ?_, ?_⟩
    · rw [← h3]
      exact (h.group_of_is_root r h1).2.2
    · unfold attached at h2
      obtain ⟨i, hi⟩ := List.exists_mem_of_length_pos (Nat.lt_of_lt_of_le Nat.zero_lt_one h2)
      rw [List.mem_filter, List.mem_range] at hi
      exact ⟨i, hi.1, of_decide_eq_true hi.2⟩
  · rintro ⟨h1, _, i, hi, hne, hg⟩
    unfold cluster_roots
    rw [List.mem_filter, List.mem_range]
    refine ⟨h1, decide_eq_true ?_⟩
    unfold attached
    exact List.length_pos_of_mem
      (List.mem_filter.2 ⟨List.mem_range.2 hi, decide_eq_true ⟨hne, hg⟩⟩)

theorem get_cluster_statistics_eq (t : ClusterTracker) (h : Acyclic t.atomic_clusters) :
    ∃ stats, get_cluster_statistics t = .ok stats ∧
      stats.number_of_clusters = (cluster_roots t.atomic_clusters).length ∧
      stats.cluster_sizes =
        (cluster_roots t.atomic_clusters).map fun r => attached t.atomic_clusters r + 1 := by
  have hs := get_cluster_statistics_loop_sizes
    ((cluster_roots t.atomic_clusters).map fun r => (r, attached t.atomic_clusters r)) 0 0 0 []
    (histogram_of_attached h).positive
  unfold get_cluster_statistics
  rw [get_cluster_size_eq t h]
  refine ⟨_, rfl, ?_, ?_⟩
  · simp only
    rw [hs]
    simp
  · simp only
    rw [hs]
    simp [Function.comp_def]

/-- C17. For every acyclic forest `get_cluster_statistics` returns and records a cluster exactly
for each root that has at least one attached member: `number_of_clusters` is the number of roots
`r` for which some site `i ≠ r` has `root_indx(i) = r`, and `cluster_sizes` holds, for each such
root in ascending order, the number of sites of its group, the root included; roots without an
attached member contribute nothing. -/
theorem get_cluster_statistics_records_clusters (t : ClusterTracker)
    (h : Acyclic t.atomic_clusters) :
    (∀ i, i < t.atomic_clusters.length →
      root_indx t i = .ok (group_of t.atomic_clusters i)) ∧
    (∀ r, r ∈ cluster_roots t.atomic_clusters ↔
      r < t.atomic_clusters.length ∧ t.atomic_clusters.getD r (-1) = -1 ∧
        ∃ i, i < t.atomic_clusters.length ∧ i ≠ r ∧ group_of t.atomic_clusters i = r) ∧
    ∃ stats, get_cluster_statistics t = .ok stats ∧
      stats.number_of_clusters = (cluster_roots t.atomic_clusters).length ∧
      stats.cluster_sizes =
        (cluster_roots t.atomic_clusters).map (group_size t.atomic_clusters) := by
  refine ⟨fun i hi => h.root_indx_eq i hi, mem_cluster_roots_iff h, ?_⟩
  obtain ⟨stats, e, h1, h2⟩ := get_cluster_statistics_eq t h
  refine ⟨stats, e, h1, ?_⟩
  rw [h2]
  apply List.map_congr_left
  intro r hr
  obtain ⟨a1, _, a3⟩ := cluster_roots_root h hr
  exact (group_size_eq_attached_succ r a1 a3).symm

/-- C18 (the claim as stated fails). On the ring of four sites with species `A A A B` the one
cluster has root 0 and two attached members: the histogram `get_cluster_size` holds `2` for
it, while `get_cluster_statistics` stores `3`, the members and the root. -/
theorem get_cluster_size_counts_attached_members_only :
    get_cluster_size (ring_constructed ["A", "A", "A", "B"]) [] = .ok [(0, 2)] ∧
    attached (ring_constructed ["A", "A", "A", "B"]).atomic_clusters 0 = 2 ∧
    (get_cluster_statistics (ring_constructed ["A", "A", "A", "B"])).map
      (fun stats => stats.cluster_sizes) = .ok [3] :=
  ⟨rfl, by decide, rfl⟩

/-- C18 (amended). For every acyclic forest the histogram `get_cluster_size` maps each root
having at least one attached member to the number of its attached members, the root not counted:
one less than the size of its group, which is the value `get_cluster_statistics` stores for that
cluster in `cluster_sizes`. -/
theorem get_cluster_size_maps_root_to_attached (t : ClusterTracker)
    (h : Acyclic t.atomic_clusters) :
    ∃ m stats, get_cluster_size t [] = .ok m ∧ get_cluster_statistics t = .ok stats ∧
      m = (cluster_roots t.atomic_clusters).map (fun r => (r, attached t.atomic_clusters r)) ∧
      stats.cluster_sizes = m.map (fun e => e.2 + 1) ∧
      ∀ e ∈ m, e.2 + 1 = group_size t.atomic_clusters e.1 := by
  obtain ⟨stats, e, _, h2⟩ := get_cluster_statistics_eq t h
  refine ⟨_, stats, get_cluster_size_eq t h, e, rfl, ?_, ?_⟩
  · rw [h2]
    simp [Function.comp_def]
  · intro e he
    obtain ⟨r, hr, rfl⟩ := List.mem_map.1 he
    obtain ⟨a1, _, a3⟩ := cluster_roots_root h hr
    exact (group_size_eq_attached_succ r a1 a3).symm

theorem root_indx_largest_cluster_loop_spec :
    ∀ (m : List (Nat × Nat)) (r s : Nat), (m.Pairwise fun e1 e2 => e1.1 < e2.1) →
      ((∀ e ∈ m, e.2 ≤ s) → root_indx_largest_cluster_loop m r s = r) ∧
      ((∃ e ∈ m, s < e.2) → ∃ e ∈ m, root_indx_largest_cluster_loop m r s = e.1 ∧ s < e.2 ∧
        ∀ e' ∈ m, e'.2 ≤ e.2 ∧ (e'.2 = e.2 → e.1 ≤ e'.1)) := by
  intro m
  induction m with
  | nil =>
    intro r s _
    exact ⟨fun _ => rfl, fun ⟨e, he, _⟩ => absurd he (List.not_mem_nil e)⟩
  | cons e0 m ih =>
    intro r s hs
    obtain ⟨k, v⟩ := e0
    rw [List.pairwise_cons] at hs
    simp only [root_indx_largest_cluster_loop]
    by_cases hv : v > s
    · rw [if_pos hv]
      obtain ⟨i1, i2⟩ := ih k v hs.2
      constructor
      · intro hall
        have := hall (k, v) (List.mem_cons_self _ _)
        simp only at this
        omega
      · intro _
        by_cases hbig : ∃ e ∈ m, v < e.2
        · obtain ⟨e, he, h1, h2, h3⟩ := i2 hbig
          refine ⟨e, List.mem_cons_of_mem _ he, h1, by omega, ?_⟩
          intro e' he'
          rcases List.mem_cons.1 he' with rfl | he'
          · exact ⟨by simp only; omega, fun hh => by simp only at hh; omega⟩
          · exact h3 e' he'
        · have hall : ∀ e ∈ m, e.2 ≤ v := by
            intro e he
            by_contra hlt
            exact hbig ⟨e, he, by omega⟩
          refine ⟨(k, v), List.mem_cons_self _ _, i1 hall, hv, ?_⟩
          intro e' he'
          rcases List.mem_cons.1 he' with rfl | he'
          · exact ⟨le_refl _, fun _ => le_refl _⟩
          · exact ⟨hall e' he', fun _ => Nat.le_of_lt (hs.1 e' he')⟩
    · rw [if_neg hv]
      obtain ⟨i1, i2⟩ := ih r s hs.2
      constructor
      · intro hall
        exact i1 fun e he => hall e (List.mem_cons_of_mem _ he)
      · rintro ⟨e, he, hlt⟩
        have hin : ∃ e ∈ m, s < e.2 := by
          rcases List.mem_cons.1 he with rfl | he
          · exact absurd hlt hv
          · exact ⟨e, he, hlt⟩
        obtain ⟨e1, he1, h1, h2, h3⟩ := i2 hin
        refine ⟨e1, List.mem_cons_of_mem _ he1, h1, h2, ?_⟩
        intro e' he'
        rcases List.mem_cons.1 he' with rfl | he'
        · exact ⟨by simp only; omega, fun hh => by simp only at hh; omega⟩
        · exact h3 e' he'

theorem get_members_of_largest_cluster_loop_eq (t : ClusterTracker) (r : Nat) :
    ∀ (sites : List Nat), (∀ i ∈ sites, root_indx t i = .ok (group_of t.atomic_clusters i)) →
      get_members_of_largest_cluster_loop t r sites =
        .ok (sites.filter fun id => decide (group_of t.atomic_clusters id = r)) := by
  intro sites
  induction sites with
  | nil => intro _; rfl
  | cons i rest ih =>
    intro h
    simp only [get_members_of_largest_cluster_loop]
    rw [h i (List.mem_cons_self _ _), ih (fun j hj => h j (List.mem_cons_of_mem _ hj))]
    simp only [List.filter_cons]
    by_cases hg : group_of t.atomic_clusters i = r
    · simp [hg]
    · simp [hg]

/-- C19. For every acyclic forest that contains at least one cluster,
`get_members_of_largest_cluster` returns, in strictly increasing site order, exactly the sites
whose root is the root of a cluster of maximum size, the smallest such root when several
clusters tie; the length of the returned list is the maximum entry of `cluster_sizes`. -/
theorem get_members_of_largest_cluster_spec (t : ClusterTracker)
    (h : Acyclic t.atomic_clusters) (hc : cluster_roots t.atomic_clusters ≠ []) :
    ∃ members r, get_members_of_largest_cluster t = .ok members ∧
      root_indx_largest_cluster t = .ok r ∧
      r ∈ cluster_roots t.atomic_clusters ∧
      (∀ r' ∈ cluster_roots t.atomic_clusters,
        group_size t.atomic_clusters r' ≤ group_size t.atomic_clusters r ∧
        (group_size t.atomic_clusters r' = group_size t.atomic_clusters r → r ≤ r')) ∧
      members = (List.range t.atomic_clusters.length).filter
        (fun id => decide (group_of t.atomic_clusters id = r)) ∧
      members.Pairwise (· < ·) ∧
      ∃ stats, get_cluster_statistics t = .ok stats ∧
        members.length ∈ stats.cluster_sizes ∧
        ∀ s ∈ stats.cluster_sizes, s ≤ members.length := by
  obtain ⟨r0, hr0⟩ := List.exists_mem_of_ne_nil _ hc
  have hH := histogram_of_attached h
  have hex : ∃ e ∈ (cluster_roots t.atomic_clusters).map
      (fun r => (r, attached t.atomic_clusters r)), 0 < e.2 :=
    ⟨(r0, attached t.atomic_clusters r0), List.mem_map.2 ⟨r0, hr0, rfl⟩,
      (cluster_roots_root h hr0).2.1⟩
  obtain ⟨e, he, h1, _, h3⟩ := (root_indx_largest_cluster_loop_spec _ 0 0 hH.sorted).2 hex
  obtain ⟨r, hr, rfl⟩ := List.mem_map.1 he
  have hsize : ∀ r' ∈ cluster_roots t.atomic_clusters,
      group_size t.atomic_clusters r' = attached t.atomic_clusters r' + 1 := by
    intro r' hr'
    obtain ⟨a1, _, a3⟩ := cluster_roots_root h hr'
    exact group_size_eq_attached_succ r' a1 a3
  have hlargest : root_indx_largest_cluster t = .ok r := by
    unfold root_indx_largest_cluster
    rw [get_cluster_size_eq t h]
    simp only
    rw [h1]
  obtain ⟨stats, es, _, hsz⟩ := get_cluster_statistics_eq t h
  refine ⟨_, r, ?_, hlargest, hr, ?_, rfl, (List.pairwise_lt_range _).filter _, stats, es,
    ?_, ?_⟩
  · unfold get_members_of_largest_cluster
    rw [hlargest]
    exact get_members_of_largest_cluster_loop_eq t r _
      (fun i hi => h.root_indx_eq i (List.mem_range.1 hi))
  · intro r' hr'
    obtain ⟨b1, b2⟩ := h3 (r', attached t.atomic_clusters r') (List.mem_map.2 ⟨r', hr', rfl⟩)
    rw [hsize r' hr', hsize r hr]
    exact ⟨by simp only at b1; omega, fun hh => b2 (by simp only; omega)⟩
  · rw [hsz]
    refine List.mem_map.2 ⟨r, hr, ?_⟩
    rw [← hsize r hr]
    rfl
  · intro s hs
    rw [hsz] at hs
    obtain ⟨r', hr', rfl⟩ := List.mem_map.1 hs
    have := (h3 (r', attached t.atomic_clusters r') (List.mem_map.2 ⟨r', hr', rfl⟩)).1
    have hlen : ((List.range t.atomic_clusters.length).filter
        (fun id => decide (group_of t.atomic_clusters id = r))).length
        = group_size t.atomic_clusters r := rfl
    rw [hlen, hsize r hr]
    simp only at this
    omega

/-- C16 (the code departs from the claim). On the ring of four sites with species `A B A B`,
the probe for a swap of sites 0 and 2 that names `B` as the old species of site 2 raises the
solute-count error and leaves the solute index set `[0]` instead of `[0, 2]` and the shadow
species `B B A B` instead of `A B A B`. -/
theorem probe_raises_without_restoring :
    (ring_constructed ["A", "B", "A", "B"]).solute_atoms_indices = [0, 2] ∧
    (ring_constructed ["A", "B", "A", "B"]).symbols_cpy = ["A", "B", "A", "B"] ∧
    (move_creates_new_cluster (ring_constructed ["A", "B", "A", "B"]) swap_0_2_wrong).outcome
      = .error "Number of solute atoms tracker changes." ∧
    (move_creates_new_cluster (ring_constructed ["A", "B", "A", "B"])
      swap_0_2_wrong).tracker.solute_atoms_indices = [0] ∧
    (move_creates_new_cluster (ring_constructed ["A", "B", "A", "B"])
      swap_0_2_wrong).tracker.symbols_cpy = ["B", "B", "A", "B"] :=
  ⟨by decide, by decide, rfl, by decide, by decide⟩

/-- C20 (the code departs from the claim). On the ring of four sites with species `A A B B` the
cluster has root 0 and member 1, and each of the two sites has one neighbour that holds no
cluster element: the claim counts 2, `surface` assigns 1 to root 0, because it skips the root
site itself. -/
theorem surface_skips_root_site :
    (ring_constructed ["A", "A", "B", "B"]).atomic_clusters = [-1, 0, -1, -1] ∧
    exposed_offsets (ring_constructed ["A", "A", "B", "B"]) 0 = 1 ∧
    exposed_offsets (ring_constructed ["A", "A", "B", "B"]) 1 = 1 ∧
    surface_by_claim (ring_constructed ["A", "A", "B", "B"]) 0 = 2 ∧
    surface ring_catalog ["c2"] (ring_constructed ["A", "A", "B", "B"]) [] = .ok [(0, 1)] :=
  ⟨by decide, by decide, by decide, by decide, rfl⟩

/-- The lookup from site 2 of the ring `A A A B`, whose forest is `[-1, 0, 1, -1]`: the
hypotheses of C11 hold there. -/
theorem root_indx_raises_iff_no_root_witness :
    (EntriesInRange (ring_constructed ["A", "A", "A", "B"]).atomic_clusters ∧
      2 < (ring_constructed ["A", "A", "A", "B"]).atomic_clusters.length) ∧
    ((∃ e, root_indx (ring_constructed ["A", "A", "A", "B"]) 2 = .error e) ↔
      ¬ ∃ k r, Walk (ring_constructed ["A", "A", "A", "B"]).atomic_clusters k 2 r) := by
  have h1 : EntriesInRange (ring_constructed ["A", "A", "A", "B"]).atomic_clusters := by
    unfold EntriesInRange
    decide
  have h2 : 2 < (ring_constructed ["A", "A", "A", "B"]).atomic_clusters.length := by decide
  exact ⟨⟨h1, h2⟩,
    (root_indx_raises_iff_no_root (ring_constructed ["A", "A", "A", "B"]) 2 h1 h2).1⟩

/-- The test `is_connected(2, 0)` on the ring `A A A B`: the hypotheses of C12 hold there. -/
theorem is_connected_iff_on_root_path_witness :
    (Forest (fun i => i < (ring_constructed ["A", "A", "A", "B"]).atomic_clusters.length)
        (ring_constructed ["A", "A", "A", "B"]).atomic_clusters ∧
      2 < (ring_constructed ["A", "A", "A", "B"]).atomic_clusters.length ∧
      0 < (ring_constructed ["A", "A", "A", "B"]).atomic_clusters.length) ∧
    ¬ (is_connected (ring_constructed ["A", "A", "A", "B"]) 2 0 = .ok true ∧
      is_connected (ring_constructed ["A", "A", "A", "B"]) 0 2 = .ok true) := by
  have hF := (acyclicState_of_check (ring_constructed ["A", "A", "A", "B"])
    (by decide) (by decide) (by decide)).forest
  have h2 : 2 < (ring_constructed ["A", "A", "A", "B"]).atomic_clusters.length := by decide
  have h0 : 0 < (ring_constructed ["A", "A", "A", "B"]).atomic_clusters.length := by decide
  exact ⟨⟨hF, h2, h0⟩,
    (is_connected_iff_on_root_path (ring_constructed ["A", "A", "A", "B"]) 2 0 hF h2 h0).2⟩

/-- The call `detach_neighbours(0, true, [0])` on the ring `A A B A`: the hypotheses of C14 hold
there. -/
theorem detach_neighbours_keeps_minimal_connectivity_witness :
    (has_minimal_connectivity (ring_constructed ["A", "A", "B", "A"]) = true ∧
      0 ∈ [0]) ∧
    has_minimal_connectivity
      (detach_neighbours (ring_constructed ["A", "A", "B", "A"]) 0 true [0]).tracker = true := by
  have h1 : has_minimal_connectivity (ring_constructed ["A", "A", "B", "A"]) = true := by
    decide
  have h2 : 0 ∈ [0] := by decide
  exact ⟨⟨h1, h2⟩,
    (detach_neighbours_keeps_minimal_connectivity (ring_constructed ["A", "A", "B", "A"]) 0
      true [0] h1 h2).1⟩

/-- The call `detach_neighbours(1, true, [0])` on the ring `A A B A`: the hypothesis of C15 holds
there. -/
theorem detach_neighbours_rejects_foreign_ref_witness :
    1 ∉ [0] ∧
    detach_neighbours (ring_constructed ["A", "A", "B", "A"]) 1 true [0]
      = ⟨ring_constructed ["A", "A", "B", "A"], .error "Ref_indx not in the change vector!"⟩ :=
  ⟨by decide,
    detach_neighbours_rejects_foreign_ref (ring_constructed ["A", "A", "B", "A"]) 1 true [0]
      (by decide)⟩

/-- The statistics of the ring `A A A B`: the hypothesis of C17 holds there. -/
theorem get_cluster_statistics_records_clusters_witness :
    Acyclic (ring_constructed ["A", "A", "A", "B"]).atomic_clusters ∧
    ∃ stats, get_cluster_statistics (ring_constructed ["A", "A", "A", "B"]) = .ok stats ∧
      stats.number_of_clusters
        = (cluster_roots (ring_constructed ["A", "A", "A", "B"]).atomic_clusters).length ∧
      stats.cluster_sizes
        = (cluster_roots (ring_constructed ["A", "A", "A", "B"]).atomic_clusters).map
          (group_size (ring_constructed ["A", "A", "A", "B"]).atomic_clusters) := by
  have hA : Acyclic (ring_constructed ["A", "A", "A", "B"]).atomic_clusters :=
    (acyclicState_of_check (ring_constructed ["A", "A", "A", "B"])
      (by decide) (by decide) (by decide)).forest
  exact ⟨hA,
    (get_cluster_statistics_records_clusters (ring_constructed ["A", "A", "A", "B"]) hA).2.2⟩

/-- The histogram of the ring `A A B A`: the hypothesis of the amended C18 holds there. -/
theorem get_cluster_size_maps_root_to_attached_witness :
    Acyclic (ring_constructed ["A", "A", "B", "A"]).atomic_clusters ∧
    ∃ m stats, get_cluster_size (ring_constructed ["A", "A", "B", "A"]) [] = .ok m ∧
      get_cluster_statistics (ring_constructed ["A", "A", "B", "A"]) = .ok stats ∧
      m = (cluster_roots (ring_constructed ["A", "A", "B", "A"]).atomic_clusters).map
        (fun r => (r, attached (ring_constructed ["A", "A", "B", "A"]).atomic_clusters r)) ∧
      stats.cluster_sizes = m.map (fun e => e.2 + 1) ∧
      ∀ e ∈ m, e.2 + 1 = group_size (ring_constructed ["A", "A", "B", "A"]).atomic_clusters
        e.1 := by
  have hA : Acyclic (ring_constructed ["A", "A", "B", "A"]).atomic_clusters :=
    (acyclicState_of_check (ring_constructed ["A", "A", "B", "A"])
      (by decide) (by decide) (by decide)).forest
  exact ⟨hA, get_cluster_size_maps_root_to_attached (ring_constructed ["A", "A", "B", "A"]) hA⟩

/-- The largest cluster of the ring `A A A B`: the hypotheses of C19 hold there. -/
theorem get_members_of_largest_cluster_spec_witness :
    (Acyclic (ring_constructed ["A", "A", "A", "B"]).atomic_clusters ∧
      cluster_roots (ring_constructed ["A", "A", "A", "B"]).atomic_clusters ≠ []) ∧
    ∃ members r, get_members_of_largest_cluster (ring_constructed ["A", "A", "A", "B"])
        = .ok members ∧
      root_indx_largest_cluster (ring_constructed ["A", "A", "A", "B"]) = .ok r ∧
      members = (List.range (ring_constructed ["A", "A", "A", "B"]).atomic_clusters.length).filter
        (fun id => decide
          (group_of (ring_constructed ["A", "A", "A", "B"]).atomic_clusters id = r)) ∧
      members.Pairwise (· < ·) := by
  have hA : Acyclic (ring_constructed ["A", "A", "A", "B"]).atomic_clusters :=
    (acyclicState_of_check (ring_constructed ["A", "A", "A", "B"])
      (by decide) (by decide) (by decide)).forest
  have hc : cluster_roots (ring_constructed ["A", "A", "A", "B"]).atomic_clusters ≠ [] := by
    decide
  obtain ⟨members, r, h1, h2, _, _, h5, h6, _⟩ :=
    get_members_of_largest_cluster_spec (ring_constructed ["A", "A", "A", "B"]) hA hc
  exact ⟨⟨hA, hc⟩, members, r, h1, h2, h5, h6⟩

theorem cyclic_permute_step_spec {α : Type} (x y : α) (a b : List α) :
    cyclic_permute_step (x :: a ++ y :: b) a.length = y :: (a ++ [x]) ++ b := by
  have h1 : (x :: a ++ y :: b)[a.length + 1]? = some y := by
    rw [List.cons_append, List.getElem?_cons_succ, List.getElem?_append_right (le_refl _)]
    simp
  simp only [cyclic_permute_step, h1]
  simp [List.set_append_right]

theorem cyclic_permute_loop_spec {α : Type} :
    ∀ (b a : List α) (x : α),
      ((List.range b.length).map (· + a.length)).foldl cyclic_permute_step (x :: a ++ b)
        = (a ++ x :: b).rotate (a.length + b.length) := by
  intro b
  induction b with
  | nil =>
    intro a x
    have : (a ++ [x]).rotate a.length = [x] ++ a := List.rotate_append_length_eq a [x]
    simp [this]
  | cons y b ih =>
    intro a x
    rw [List.length_cons, List.range_succ_eq_map, List.map_cons, List.foldl_cons, Nat.zero_add,
      cyclic_permute_step_spec, List.map_map]
    have hm : (List.range b.length).map ((· + a.length) ∘ Nat.succ)
        = (List.range b.length).map (· + (a ++ [x]).length) := by
      apply List.map_congr_left
      intro i _
      simp
      omega
    rw [hm]
    have := ih (a ++ [x]) y
    simp only [List.cons_append] at this ⊢
    rw [this]
    simp
    congr 1
    omega

theorem cyclic_permute_eq_rotate {α : Type} (v : List α) :
    cyclic_permute v = v.rotate (v.length - 1) := by
  cases v with
  | nil => rfl
  | cons x b =>
    have := cyclic_permute_loop_spec b [] x
    simpa [cyclic_permute] using this

theorem iterate_rotate {α : Type} (k : Nat) :
    ∀ (n : Nat) (v : List α), v.length = n →
      (cyclic_permute^[k]) v = v.rotate (k * (n - 1)) := by
  induction k with
  | zero => intro n v _; simp
  | succ k ih =>
    intro n v hn
    rw [Function.iterate_succ_apply, ih n (cyclic_permute v) (by
      rw [cyclic_permute_eq_rotate, List.length_rotate, hn]),
      cyclic_permute_eq_rotate, List.rotate_rotate, hn]
    congr 1
    ring

/-- C30. For every non-empty vector `v` of length `n`, `cyclic_permute(v)` is `v` rotated by one
position so that the last element comes first, the others keeping their order; it therefore
holds the same elements with the same multiplicities, and `n` applications give back `v`. -/
theorem cyclic_permute_moves_last_to_front {α : Type} (v : List α) (hv : v ≠ []) :
    cyclic_permute v = v.getLast hv :: v.dropLast ∧
    ((cyclic_permute v : List α) : Multiset α) = (v : Multiset α) ∧
    (cyclic_permute^[v.length]) v = v := by
  refine ⟨?_, ?_, ?_⟩
  · rw [cyclic_permute_eq_rotate]
    have h := List.rotate_append_length_eq v.dropLast [v.getLast hv]
    rw [List.dropLast_append_getLast hv, List.length_dropLast] at h
    exact h
  · rw [cyclic_permute_eq_rotate]
    exact Multiset.coe_eq_coe.2 (List.rotate_perm v _)
  · rw [iterate_rotate v.length v.length v rfl, List.rotate_length_mul]

/-- The vector `[1, 2, 3]` is not empty, and the statement of C30 holds for it. -/
theorem cyclic_permute_moves_last_to_front_witness :
    ([1, 2, 3] : List Nat) ≠ [] ∧ cyclic_permute [1, 2, 3] = [3, 1, 2] ∧
    ((cyclic_permute [1, 2, 3] : List Nat) : Multiset Nat) = (([1, 2, 3] : List Nat) : Multiset Nat) ∧
    (cyclic_permute^[3]) [1, 2, 3] = [1, 2, 3] :=
  ⟨by decide, cyclic_permute_moves_last_to_front [1, 2, 3] (by decide)⟩

theorem getD_all_roots {ac : List Int} (h : ∀ x ∈ ac, x = -1) (i : Nat) :
    ac.getD i (-1) = -1 := by
  rw [List.getD_eq_getElem?_getD]
  cases hx : ac[i]? with
  | none => rfl
  | some x => exact h x (List.getElem?_mem hx)

theorem group_of_all_roots {ac : List Int} (h : ∀ i, ac.getD i (-1) = -1) (i : Nat)
    (hn : 0 < ac.length) : group_of ac i = i := by
  unfold group_of
  obtain ⟨m, hm⟩ : ∃ m, ac.length = m + 1 := ⟨ac.length - 1, by omega⟩
  rw [hm]
  simp only [root_indx_loop]
  rw [if_neg (not_not.2 (h i))]

theorem acyclic_all_roots {ac : List Int} (h : ∀ i, ac.getD i (-1) = -1) : Acyclic ac :=
  ⟨fun _ hi => hi, fun i _ hne => absurd (h i) hne, fun i _ => ⟨0, i, Walk.root (h i)⟩⟩

theorem cluster_roots_all_roots {ac : List Int} (h : ∀ i, ac.getD i (-1) = -1) :
    cluster_roots ac = [] := by
  unfold cluster_roots
  rw [List.filter_eq_nil_iff]
  intro r hr
  have hn : 0 < ac.length := Nat.lt_of_le_of_lt (Nat.zero_le _) (List.mem_range.1 hr)
  have : attached ac r = 0 := by
    unfold attached
    rw [List.length_eq_zero, List.filter_eq_nil_iff]
    intro i _
    rw [group_of_all_roots h i hn]
    simp
  simp [this]

theorem filter_range_eq_zero (n : Nat) (hn : 0 < n) :
    (List.range n).filter (fun id => decide (id = 0)) = [0] := by
  obtain ⟨m, rfl⟩ : ∃ m, n = m + 1 := ⟨n - 1, by omega⟩
  rw [List.range_succ_eq_map, List.filter_cons, if_pos (by simp)]
  congr 1
  rw [List.filter_eq_nil_iff]
  intro i hi
  obtain ⟨j, _, rfl⟩ := List.mem_map.1 hi
  simp

/-- C29. When every site of a lattice with at least one site is a root (the forest contains no
cluster), `root_indx_largest_cluster` returns `0` and `get_members_of_largest_cluster` returns
the one-element list `[0]`; the species of site 0 plays no role. -/
theorem largest_cluster_of_cluster_free_forest (t : ClusterTracker)
    (hn : 0 < t.atomic_clusters.length) (hroots : ∀ x ∈ t.atomic_clusters, x = -1) :
    root_indx_largest_cluster t = .ok 0 ∧ get_members_of_largest_cluster t = .ok [0] := by
  have h := getD_all_roots hroots
  have hA := acyclic_all_roots h
  have h0 : root_indx_largest_cluster t = .ok 0 := by
    unfold root_indx_largest_cluster
    rw [get_cluster_size_eq t hA, cluster_roots_all_roots h]
    rfl
  refine ⟨h0, ?_⟩
  unfold get_members_of_largest_cluster
  rw [h0]
  simp only
  rw [get_members_of_largest_cluster_loop_eq t 0 _ (fun i hi => hA.root_indx_eq i (List.mem_range.1 hi))]
  congr 1
  rw [← filter_range_eq_zero _ hn]
  apply List.filter_congr
  intro i _
  rw [group_of_all_roots h i hn]

/-- The ring `B A B A`, whose site 0 holds no cluster element, has four sites that are all
roots, and the statement of C29 holds for it. -/
theorem largest_cluster_of_cluster_free_forest_witness :
    0 < (ring_constructed ["B", "A", "B", "A"]).atomic_clusters.length ∧
    (∀ x ∈ (ring_constructed ["B", "A", "B", "A"]).atomic_clusters, x = -1) ∧
    is_cluster_element (ring_constructed ["B", "A", "B", "A"])
      ((ring_constructed ["B", "A", "B", "A"]).symbols_cpy.getD 0 "") = false ∧
    root_indx_largest_cluster (ring_constructed ["B", "A", "B", "A"]) = .ok 0 ∧
    get_members_of_largest_cluster (ring_constructed ["B", "A", "B", "A"]) = .ok [0] :=
  ⟨by decide, by decide, by decide,
    largest_cluster_of_cluster_free_forest (ring_constructed ["B", "A", "B", "A"])
      (by decide) (by decide)⟩

theorem wave_vector_component_eq_fftfreq_iff (n k : Nat) (hn : 0 < n) :
    wave_vector_component k n = fftfreq n k ↔ ¬ (n % 2 = 1 ∧ k = n / 2) := by
  have hn' : (n : ℚ) ≠ 0 := by exact_mod_cast hn.ne'
  unfold wave_vector_component fftfreq
  by_cases h1 : k < n / 2
  · rw [if_pos h1, if_pos (by omega)]
    constructor
    · intro _ h
      omega
    · intro _
      rfl
  · rw [if_neg h1]
    by_cases h2 : k ≤ (n - 1) / 2
    · rw [if_pos h2]
      constructor
      · intro h
        exfalso
        have : (-1 : ℚ) = 0 := by linarith
        norm_num at this
      · intro h
        exact absurd ⟨by omega, by omega⟩ h
    · rw [if_neg h2]
      constructor
      · intro _ h
        omega
      · intro _
        field_simp
        ring

theorem int_log10_eq (iter d : Nat) (hd : d ≠ 0) (h1 : 10 ^ d ≤ iter) (h2 : iter < 10 ^ (d + 1)) :
    int_log10 iter = d :=
  (Nat.log_eq_iff (Or.inl hd)).2 ⟨h1, h2⟩

/-- C26 (the code departs from the claim). On an axis of 5 points the index 2 is the last
non-negative frequency of `numpy.fft.fftfreq(5)`, `2/5`; `wave_vector` tests `indx < 5/2 = 2`,
takes the other branch and returns `-1 + 2/5 = -3/5`. The same happens at `n = 1`, `k = 0`. -/
theorem wave_vector_misses_middle_of_odd_axis :
    wave_vector (5, 5, 5) (2, 1, 3) = (-3 / 5, 1 / 5, -2 / 5) ∧
    (fftfreq 5 2, fftfreq 5 1, fftfreq 5 3) = (2 / 5, 1 / 5, -2 / 5) ∧
    wave_vector_component 2 5 ≠ fftfreq 5 2 ∧
    wave_vector_component 0 1 = -1 ∧ fftfreq 1 0 = 0 := by
  refine ⟨?_, ?_, ?_, ?_, ?_⟩
  · norm_num [wave_vector, wave_vector_component]
  · norm_num [fftfreq]
  · norm_num [wave_vector_component, fftfreq]
  · norm_num [wave_vector_component]
  · norm_num [fftfreq]

/-- C27 (the code departs from the claim). `get_digit_string` writes `10 - num_digits` zeros,
where `num_digits = (int) log10(iter)` is one less than the number of digits of `iter`, so the
identifier has 11 characters: ten zeros before `1`, one zero before the ten digits of
`4294967295`. -/
theorem get_digit_string_has_eleven_characters :
    get_digit_string 10 1 = "00000000001" ∧ (get_digit_string 10 1).length = 11 ∧
    get_digit_string 10 250 = "00000000250" ∧ (get_digit_string 10 250).length = 11 ∧
    get_digit_string 10 4294967295 = "04294967295" ∧
    (get_digit_string 10 4294967295).length = 11 := by
  have e1 : int_log10 1 = 0 := by simp [int_log10]
  have e2 : int_log10 250 = 2 := int_log10_eq 250 2 (by decide) (by norm_num) (by norm_num)
  have e3 : int_log10 4294967295 = 9 :=
    int_log10_eq 4294967295 9 (by decide) (by norm_num) (by norm_num)
  have s1 : get_digit_string 10 1 = "00000000001" := by
    simp only [get_digit_string, e1]
    decide
  have s2 : get_digit_string 10 250 = "00000000250" := by
    simp only [get_digit_string, e2]
    decide
  have s3 : get_digit_string 10 4294967295 = "04294967295" := by
    simp only [get_digit_string, e3]
    decide
  refine ⟨s1, ?_, s2, ?_, s3, ?_⟩
  · rw [s1]; decide
  · rw [s2]; decide
  · rw [s3]; decide

theorem verify_cluster_name_exists_names_spec (clusters : cluster_catalog) (cnames : List String)
    (group : List (String × List (List Nat))) :
    ∀ (names : List String),
      (verify_cluster_name_exists_names clusters cnames group names = .ok () ∧
        ∀ cname ∈ names, find_cluster cname group ≠ none) ∨
      (verify_cluster_name_exists_names clusters cnames group names
          = .error (no_cluster_name_message clusters cnames) ∧
        ∃ cname ∈ names, find_cluster cname group = none) := by
  intro names
  induction names with
  | nil => exact Or.inl ⟨rfl, fun c hc => absurd hc (List.not_mem_nil c)⟩
  | cons cname rest ih =>
    simp only [verify_cluster_name_exists_names]
    cases hf : find_cluster cname group with
    | none => exact Or.inr ⟨rfl, cname, List.mem_cons_self _ _, hf⟩
    | some members =>
      simp only
      rcases ih with ⟨h1, h2⟩ | ⟨h1, c, hc, h2⟩
      · refine Or.inl ⟨h1, fun c hc => ?_⟩
        rcases List.mem_cons.1 hc with rfl | hc
        · rw [hf]; simp
        · exact h2 c hc
      · exact Or.inr ⟨h1, c, List.mem_cons_of_mem _ hc, h2⟩

theorem verify_cluster_name_exists_groups_spec (clusters : cluster_catalog)
    (cnames : List String) :
    ∀ (groups : cluster_catalog),
      (verify_cluster_name_exists_groups clusters cnames groups = .ok () ∧
        ∀ group ∈ groups, ∀ cname ∈ cnames, find_cluster cname group ≠ none) ∨
      (verify_cluster_name_exists_groups clusters cnames groups
          = .error (no_cluster_name_message clusters cnames) ∧
        ∃ group ∈ groups, ∃ cname ∈ cnames, find_cluster cname group = none) := by
  intro groups
  induction groups with
  | nil => exact Or.inl ⟨rfl, fun g hg => absurd hg (List.not_mem_nil g)⟩
  | cons group rest ih =>
    simp only [verify_cluster_name_exists_groups]
    rcases verify_cluster_name_exists_names_spec clusters cnames group cnames with
      ⟨h1, h2⟩ | ⟨h1, c, hc, h2⟩
    · rw [h1]
      simp only
      rcases ih with ⟨i1, i2⟩ | ⟨i1, g, hg, i2⟩
      · refine Or.inl ⟨i1, fun g hg => ?_⟩
        rcases List.mem_cons.1 hg with rfl | hg
        · exact h2
        · exact i2 g hg
      · exact Or.inr ⟨i1, g, List.mem_cons_of_mem _ hg, i2⟩
    · rw [h1]
      exact Or.inr ⟨rfl, group, List.mem_cons_self _ _, c, hc, h2⟩

theorem root_indx_error (t : ClusterTracker) (i : Nat) (e : String)
    (h : root_indx t i = .error e) : e ∈ runtime_error_messages := by
  unfold root_indx at h
  simp only at h
  split at h
  · cases h
    decide
  · cases h

theorem attach2cluster_loop_error (i cur : Nat) (e : String) :
    ∀ (cs : List Nat) (t : ClusterTracker),
      (attach2cluster_loop i cur cs t).outcome = .error e → e ∈ runtime_error_messages := by
  intro cs
  induction cs with
  | nil => intro t h; cases h
  | cons c rest ih =>
    intro t h
    simp only [attach2cluster_loop] at h
    split at h
    · split at h
      · rename_i e' he
        cases h
        exact root_indx_error t _ _ he
      · split at h
        · exact ih _ h
        · exact ih _ h
    · exact ih _ h

theorem attach2cluster_error (t : ClusterTracker) (i : Nat) (e : String)
    (h : (attach2cluster t i).outcome = .error e) : e ∈ runtime_error_messages := by
  unfold attach2cluster at h
  split at h
  · cases h
  · split at h
    · rename_i e' he
      cases h
      exact root_indx_error t _ _ he
    · split at h
      · cases h
        decide
      · exact attach2cluster_loop_error _ _ _ _ _ h

theorem find_clusters_scan_error (symbs : List String) (e : String) :
    ∀ (sites : List Nat) (t : ClusterTracker),
      (find_clusters_scan symbs sites t).outcome = .error e → e ∈ runtime_error_messages := by
  intro sites
  induction sites with
  | nil => intro t h; cases h
  | cons i rest ih =>
    intro t h
    simp only [find_clusters_scan] at h
    split at h
    · exact ih _ h
    · rename_i t2 e' he
      cases h
      exact attach2cluster_error _ _ _ (by rw [he])

theorem atomic_clusters2group_indx_loop_error (ac : List Int) (e : String) :
    ∀ (sites : List Nat),
      atomic_clusters2group_indx_loop ac sites = .error e → e ∈ runtime_error_messages := by
  intro sites
  induction sites with
  | nil => intro h; cases h
  | cons i rest ih =>
    intro h
    simp only [atomic_clusters2group_indx_loop] at h
    split at h
    · cases h
      decide
    · split at h
      · cases h
      · rename_i e' he
        cases h
        exact ih he

theorem construct_error (t : ClusterTracker) (e : String)
    (h : (construct t).outcome = .error e) : e ∈ runtime_error_messages := by
  unfold construct at h
  split at h
  · rename_i t1 e' he
    cases h
    have : (find_clusters t false).outcome = .error e := by rw [he]
    unfold find_clusters at this
    simp only [Bool.not_false, if_true] at this
    exact find_clusters_scan_error _ _ _ _ this
  · unfold rebuild_cluster at h
    split at h
    · rename_i e' he
      cases h
      exact atomic_clusters2group_indx_loop_error _ _ _ he
    · cases h

theorem no_cluster_name_message_not_runtime (clusters : cluster_catalog)
    (cnames : List String) : no_cluster_name_message clusters cnames ∉ runtime_error_messages := by
  intro h
  have hhead : ∀ e ∈ runtime_error_messages, e.data.head? ≠ some 'T' := by decide
  apply hhead _ h
  simp [no_cluster_name_message, String.data_append]

/-- C21. Constructing a tracker raises the invalid-argument error of the name validation exactly
when some requested cluster name is absent from the cluster map of some symmetry group of the
catalog, and before anything else is done; when every requested name is present in every
symmetry group the name validation returns, and an error of the construction, if any, is one of
the runtime errors of the scan. -/
theorem construction_raises_invalid_argument_iff (updater : CEUpdater)
    (clusters : cluster_catalog) (cnames elements : List String) :
    ((construct_tracker updater clusters cnames elements).outcome
        = .error (no_cluster_name_message clusters cnames) ↔
      ∃ group ∈ clusters, ∃ cname ∈ cnames, find_cluster cname group = none) ∧
    ((∃ group ∈ clusters, ∃ cname ∈ cnames, find_cluster cname group = none) →
      construct_tracker updater clusters cnames elements
        = ⟨⟨updater, elements, [], [], [], []⟩,
            .error (no_cluster_name_message clusters cnames)⟩) ∧
    ((∀ group ∈ clusters, ∀ cname ∈ cnames, find_cluster cname group ≠ none) →
      verify_cluster_name_exists clusters cnames = .ok () ∧
      ∀ e, (construct_tracker updater clusters cnames elements).outcome = .error e →
        e ∈ runtime_error_messages) := by
  have key := verify_cluster_name_exists_groups_spec clusters cnames clusters
  have hbad : (∃ group ∈ clusters, ∃ cname ∈ cnames, find_cluster cname group = none) →
      construct_tracker updater clusters cnames elements
        = ⟨⟨updater, elements, [], [], [], []⟩,
            .error (no_cluster_name_message clusters cnames)⟩ := by
    rintro ⟨g, hg, c, hc, hn⟩
    rcases key with ⟨_, h2⟩ | ⟨h1, _⟩
    · exact absurd hn (h2 g hg c hc)
    · unfold construct_tracker verify_cluster_name_exists
      rw [h1]
  have hgood : (∀ group ∈ clusters, ∀ cname ∈ cnames, find_cluster cname group ≠ none) →
      verify_cluster_name_exists clusters cnames = .ok () ∧
      ∀ e, (construct_tracker updater clusters cnames elements).outcome = .error e →
        e ∈ runtime_error_messages := by
    intro hall
    rcases key with ⟨h1, _⟩ | ⟨_, g, hg, c, hc, hn⟩
    · refine ⟨h1, fun e he => ?_⟩
      unfold construct_tracker verify_cluster_name_exists at he
      rw [h1] at he
      exact construct_error _ _ he
    · exact absurd hn (hall g hg c hc)
  refine ⟨⟨fun h => ?_, fun h => by rw [hbad h]⟩, hbad, hgood⟩
  by_contra hno
  have hall : ∀ group ∈ clusters, ∀ cname ∈ cnames, find_cluster cname group ≠ none := by
    intro g hg c hc hn
    exact hno ⟨g, hg, c, hc, hn⟩
  exact no_cluster_name_message_not_runtime clusters cnames ((hgood hall).2 _ h)

/-- C22. The ring scenario. On the ring of four sites with cluster element `A` and species
`A B A B` the constructor leaves the solute index set `{0, 2}`, every site a root, and
`number_of_clusters` is 0. With site 1 changed to `A` (species `A A A B`), both the constructor
and a full scan `find_clusters(false)` of the first tracker give the solute index set
`{0, 1, 2}`, exactly one cluster, of size 3, the members `0, 1, 2` of the largest cluster, and a
cluster size histogram with exactly one entry. -/
theorem ring_scenario :
    (ring_constructed ["A", "B", "A", "B"]).solute_atoms_indices = [0, 2] ∧
    (ring_constructed ["A", "B", "A", "B"]).atomic_clusters = [-1, -1, -1, -1] ∧
    (get_cluster_statistics (ring_constructed ["A", "B", "A", "B"])).map
      (fun stats => (stats.number_of_clusters, stats.cluster_sizes)) = .ok (0, []) ∧
    (ring_constructed ["A", "A", "A", "B"]).solute_atoms_indices = [0, 1, 2] ∧
    (get_cluster_statistics (ring_constructed ["A", "A", "A", "B"])).map
      (fun stats => (stats.number_of_clusters, stats.cluster_sizes)) = .ok (1, [3]) ∧
    get_members_of_largest_cluster (ring_constructed ["A", "A", "A", "B"]) = .ok [0, 1, 2] ∧
    (get_cluster_size (ring_constructed ["A", "A", "A", "B"]) []).map List.length = .ok 1 ∧
    (find_clusters ring_site_1_changed false).tracker.solute_atoms_indices = [0, 1, 2] ∧
    (get_cluster_statistics (find_clusters ring_site_1_changed false).tracker).map
      (fun stats => (stats.number_of_clusters, stats.cluster_sizes)) = .ok (1, [3]) ∧
    get_members_of_largest_cluster (find_clusters ring_site_1_changed false).tracker
      = .ok [0, 1, 2] ∧
    (get_cluster_size (find_clusters ring_site_1_changed false).tracker []).map List.length = .ok 1 :=
  ⟨by decide, by decide, rfl, by decide, rfl, rfl, rfl, by decide, rfl, rfl, rfl⟩

theorem int_mul_of_small (s : Nat) (h : s ≤ 46340) : int_mul s s = ((s * s : Nat) : Int) := by
  have h2 : s * s ≤ 46340 * 46340 := Nat.mul_le_mul h h
  unfold int_mul
  rw [Int.bmod_pos]
  · rw [← Int.natCast_mul]
    apply Int.emod_eq_of_lt
    · exact Int.natCast_nonneg _
    · norm_cast
      omega
  · rw [← Int.natCast_mul, Int.emod_eq_of_lt (Int.natCast_nonneg _) (by norm_cast; omega)]
    norm_cast
    omega

theorem get_cluster_statistics_loop_spec :
    ∀ (m : List (Nat × Nat)) (a mx : Nat) (sq : Int) (cs : List Nat), (∀ e ∈ m, 1 ≤ e.2) →
      get_cluster_statistics_loop m a mx sq cs =
        (a + (m.map fun e => e.2 + 1).sum, (m.map fun e => e.2 + 1).foldl max mx,
          sq + ((m.map fun e => e.2 + 1).map fun (s : Nat) => int_mul (s : Int) (s : Int)).sum,
          cs ++ m.map fun e => e.2 + 1) := by
  intro m
  induction m with
  | nil =>
    intro a mx sq cs _
    rw [get_cluster_statistics_loop, List.map_nil, List.map_nil, List.sum_nil, List.sum_nil,
      List.foldl_nil, List.append_nil, Nat.add_zero, Int.add_zero]
  | cons e m ih =>
    intro a mx sq cs h
    obtain ⟨k, v⟩ := e
    have hv : v ≥ 1 := h (k, v) (List.mem_cons_self _ _)
    have e1 : get_cluster_statistics_loop ((k, v) :: m) a mx sq cs =
        get_cluster_statistics_loop m (a + (v + 1)) (if v + 1 > mx then v + 1 else mx)
          (sq + int_mul ((v + 1 : Nat) : Int) ((v + 1 : Nat) : Int)) (cs ++ [v + 1]) := by
      rw [get_cluster_statistics_loop]
      simp only [if_pos hv]
    have hmax : (if v + 1 > mx then v + 1 else mx) = max mx (v + 1) := by
      rcases Nat.lt_or_ge mx (v + 1) with hlt | hge
      · rw [if_pos hlt, Nat.max_eq_right (Nat.le_of_lt hlt)]
      · rw [if_neg (by omega), Nat.max_eq_left hge]
    rw [e1, ih _ _ _ _ (fun e he => h e (List.mem_cons_of_mem _ he)), hmax, List.map_cons,
      List.map_cons, List.sum_cons, List.sum_cons, List.foldl_cons, List.append_assoc,
      List.singleton_append, Nat.add_assoc, Int.add_assoc]

theorem foldl_max_spec : ∀ (l : List Nat) (mx : Nat),
    (∀ s ∈ l, s ≤ l.foldl max mx) ∧ mx ≤ l.foldl max mx ∧
      (l.foldl max mx = mx ∨ l.foldl max mx ∈ l) := by
  intro l
  induction l with
  | nil => intro mx; exact ⟨fun s hs => absurd hs (List.not_mem_nil s), Nat.le_refl _, Or.inl rfl⟩
  | cons x l ih =>
    intro mx
    obtain ⟨h1, h2, h3⟩ := ih (max mx x)
    rw [List.foldl_cons]
    refine ⟨fun s hs => ?_, Nat.le_trans (Nat.le_max_left _ _) h2, ?_⟩
    · rcases List.mem_cons.1 hs with rfl | hs
      · exact Nat.le_trans (Nat.le_max_right _ _) h2
      · exact h1 s hs
    · rcases h3 with h3 | h3
      · rw [h3]
        rcases Nat.le_total mx x with hle | hle
        · rw [Nat.max_eq_right hle]
          exact Or.inr (List.mem_cons_self _ _)
        · rw [Nat.max_eq_left hle]
          exact Or.inl rfl
      · exact Or.inr (List.mem_cons_of_mem _ h3)

theorem get_cluster_statistics_sums (t : ClusterTracker) (h : Acyclic t.atomic_clusters) :
    ∃ stats, get_cluster_statistics t = .ok stats ∧
      stats.avg_size = stats.cluster_sizes.sum ∧
      stats.max_size = stats.cluster_sizes.foldl max 0 ∧
      (∀ s ∈ stats.cluster_sizes, s ≤ stats.max_size) ∧
      (stats.cluster_sizes ≠ [] → stats.max_size ∈ stats.cluster_sizes) ∧
      stats.avg_size_sq
        = (stats.cluster_sizes.map fun (s : Nat) => int_mul (s : Int) (s : Int)).sum ∧
      ((∀ s ∈ stats.cluster_sizes, s ≤ 46340) →
        stats.avg_size_sq = (((stats.cluster_sizes.map fun s => s * s).sum : Nat) : Int)) := by
  have hs := get_cluster_statistics_loop_spec
    ((cluster_roots t.atomic_clusters).map fun r => (r, attached t.atomic_clusters r)) 0 0 0 []
    (histogram_of_attached h).positive
  unfold get_cluster_statistics
  rw [get_cluster_size_eq t h]
  simp only
  rw [hs]
  simp only [Nat.zero_add, Int.zero_add, List.nil_append]
  obtain ⟨m1, _, m3⟩ := foldl_max_spec
    (((cluster_roots t.atomic_clusters).map fun r => (r, attached t.atomic_clusters r)).map
      fun e => e.2 + 1) 0
  refine ⟨_, rfl, rfl, rfl, m1, fun hne => ?_, rfl, fun hsmall => ?_⟩
  · rcases m3 with m3 | m3
    · obtain ⟨s, hs'⟩ := List.exists_mem_of_ne_nil _ hne
      have h0 := m1 s hs'
      rw [m3] at h0
      obtain ⟨e, _, rfl⟩ := List.mem_map.1 hs'
      omega
    · exact m3
  · simp only
    generalize ((cluster_roots t.atomic_clusters).map
      fun r => (r, attached t.atomic_clusters r)).map (fun e => e.2 + 1) = sizes at hsmall ⊢
    induction sizes with
    | nil => rfl
    | cons s rest ih =>
      rw [List.map_cons, List.sum_cons, List.map_cons, List.sum_cons,
        ih (fun x hx => hsmall x (List.mem_cons_of_mem _ hx)),
        int_mul_of_small s (hsmall s (List.mem_cons_self _ _))]
      push_cast
      rfl

theorem star_forest_succ (k j : Nat) (hj : j < k + 1) :
    (star_forest (k + 2)).getD (j + 1) (-1) = 0 := by
  unfold star_forest
  rw [List.getD_cons_succ, List.getD_eq_getElem?_getD, List.getElem?_replicate,
    if_pos (by omega)]
  rfl

theorem star_forest_length (k : Nat) : (star_forest (k + 2)).length = k + 2 := by
  unfold star_forest
  rw [List.length_cons, List.length_replicate]
  rfl

theorem group_of_star (k i : Nat) (hi : i < k + 2) : group_of (star_forest (k + 2)) i = 0 := by
  unfold group_of
  rw [star_forest_length]
  cases i with
  | zero =>
    simp only [root_indx_loop]
    rw [if_neg (by unfold star_forest; simp)]
  | succ j =>
    have h0 := star_forest_succ k j (by omega)
    simp only [root_indx_loop]
    rw [if_pos (by rw [h0]; decide), h0]
    rw [if_neg (by unfold star_forest; simp)]
    rfl

theorem acyclic_star (k : Nat) : Acyclic (star_forest (k + 2)) := by
  have hroot : (star_forest (k + 2)).getD 0 (-1) = -1 := rfl
  refine ⟨fun _ hi => hi, fun i hi hne => ?_, fun i hi => ?_⟩
  · rw [star_forest_length] at hi ⊢
    cases i with
    | zero => exact absurd hroot hne
    | succ j =>
      rw [star_forest_succ k j (by omega)]
      exact ⟨le_refl _, by simp⟩
  · rw [star_forest_length] at hi
    cases i with
    | zero => exact ⟨0, 0, Walk.root hroot⟩
    | succ j =>
      have h0 := star_forest_succ k j (by omega)
      refine ⟨1, 0, Walk.step (by rw [h0]; decide) ?_⟩
      rw [h0]
      exact Walk.root hroot

theorem filter_range_ne_zero (n : Nat) :
    ((List.range (n + 1)).filter fun i => decide (i ≠ 0)).length = n := by
  rw [List.range_succ_eq_map, List.filter_cons, if_neg (by simp)]
  have : ((List.range n).map Nat.succ).filter (fun i => decide (i ≠ 0))
      = (List.range n).map Nat.succ := by
    rw [List.filter_eq_self]
    intro i hi
    obtain ⟨j, _, rfl⟩ := List.mem_map.1 hi
    simp
  rw [this, List.length_map, List.length_range]

theorem attached_star (k r : Nat) :
    attached (star_forest (k + 2)) r = if r = 0 then k + 1 else 0 := by
  unfold attached
  rw [star_forest_length]
  by_cases hr : r = 0
  · subst hr
    rw [if_pos rfl, ← filter_range_ne_zero (k + 1)]
    congr 1
    apply List.filter_congr
    intro i hi
    rw [group_of_star k i (List.mem_range.1 hi)]
    simp
  · rw [if_neg hr, List.length_eq_zero, List.filter_eq_nil_iff]
    intro i hi
    rw [group_of_star k i (List.mem_range.1 hi)]
    have : ¬ (0 = r) := fun h => hr h.symm
    simp [this]

theorem cluster_roots_star (k : Nat) : cluster_roots (star_forest (k + 2)) = [0] := by
  unfold cluster_roots
  rw [star_forest_length, ← filter_range_eq_zero (k + 2) (by omega)]
  apply List.filter_congr
  intro r _
  rw [attached_star]
  by_cases hr : r = 0
  · simp [hr]
  · simp [hr]

theorem get_cluster_statistics_star (k : Nat) :
    get_cluster_statistics (star_tracker (k + 2))
      = .ok ⟨k + 2, k + 2, int_mul ((k + 2 : Nat) : Int) ((k + 2 : Nat) : Int), 1, [k + 2]⟩ := by
  have hsize : get_cluster_size (star_tracker (k + 2)) [] = .ok [(0, k + 1)] := by
    rw [get_cluster_size_eq (star_tracker (k + 2)) (acyclic_star k)]
    show Except.ok ((cluster_roots (star_forest (k + 2))).map
      fun r => (r, attached (star_forest (k + 2)) r)) = _
    rw [cluster_roots_star, List.map_cons, List.map_nil, attached_star, if_pos rfl]
  unfold get_cluster_statistics
  rw [hsize]
  have hloop := get_cluster_statistics_loop_spec [(0, k + 1)] 0 0 0 []
    (fun e he => by
      rw [List.mem_singleton] at he
      rw [he]
      exact Nat.succ_le_succ (Nat.zero_le _))
  simp only
  rw [hloop, List.map_cons, List.map_nil, List.map_cons, List.map_nil, List.sum_cons,
    List.sum_nil, List.sum_cons, List.sum_nil, List.foldl_cons, List.foldl_nil, List.nil_append,
    Nat.zero_add, Nat.add_zero, Int.zero_add, Int.add_zero, Nat.zero_max]
  dsimp only [List.length_cons, List.length_nil]

/-- The full scan `find_clusters(false)` on the ring of four sites that all hold `A` leaves the
forest `star_forest 4`. -/
theorem find_clusters_all_solute_ring :
    (find_clusters (ring_tracker ["A", "A", "A", "A"]) false).tracker.atomic_clusters
      = [-1, 0, 0, 0] ∧ star_forest 4 = [-1, 0, 0, 0] :=
  ⟨by decide, by decide⟩

/-- C28 (the code departs from the claim). For a forest with one cluster of 46341 sites (site 0
the root, every other site attached to it) `get_cluster_statistics` returns `avg_size = 46341`
and `max_size = 46341`, but `avg_size_sq = -2147479015`: the `int` product `size*size` is
`2147488281`, beyond the largest `int`, and wraps before it is added to the `double`. -/
theorem get_cluster_statistics_square_overflows :
    get_cluster_statistics (star_tracker 46341)
      = .ok ⟨46341, 46341, -2147479015, 1, [46341]⟩ ∧
    (([46341].map fun s => s * s).sum : Nat) = 2147488281 ∧
    (2147488281 : Int) - 2 ^ 32 = -2147479015 := by
  have h := get_cluster_statistics_star 46339
  have e : int_mul ((46339 + 2 : Nat) : Int) ((46339 + 2 : Nat) : Int) = -2147479015 := by
    decide
  rw [e] at h
  exact ⟨h, by decide, by decide⟩

/-- A walk of the current forest that ends at a root other than `cur` is a walk of the forest
`ac0` it came from, when the two differ only at former roots that now point to the root
`cur`. -/
theorem Walk.of_changed_roots {ac ac0 : List Int} {cur : Nat}
    (hval : ∀ x, ac.getD x (-1) ≠ ac0.getD x (-1) → ac.getD x (-1) = (cur : Int))
    (hcur : ac.getD cur (-1) = -1) {k y r : Nat} (h : Walk ac k y r) (hr : r ≠ cur) :
    Walk ac0 k y r := by
  induction h with
  | @root i h0 =>
    refine Walk.root ?_
    by_contra hne
    have := hval i (by rw [h0]; exact fun hh => hne hh.symm)
    rw [h0] at this
    omega
  | @step k i r hn hw ih =>
    have he : ac.getD i (-1) = ac0.getD i (-1) := by
      by_contra hne
      have hv := hval i hne
      rw [hv, Int.toNat_ofNat] at hw
      cases hw with
      | root _ => exact hr rfl
      | step hn' _ => exact hn' hcur
    have hw0 := ih hr
    rw [he] at hn hw0
    exact Walk.step hn hw0

theorem attach2cluster_loop_frame (i cur : Nat) (ac0 : List Int) (Q : Nat → Prop)
    (t0 : ClusterTracker) :
    ∀ (cs : List Nat) (t : ClusterTracker),
      t.elements = t0.elements → t.symbols_cpy = t0.symbols_cpy →
      t.updater = t0.updater →
      t.atomic_clusters.getD cur (-1) = -1 →
      (∀ x, t.atomic_clusters.getD x (-1) ≠ ac0.getD x (-1) →
        t.atomic_clusters.getD x (-1) = (cur : Int) ∧ x ≠ cur ∧
          ∃ j k, Q j ∧ Walk ac0 k j x) →
      (∀ c ∈ cs, is_cluster_element t0 (species t0 (t0.updater.trans_matrix i c)) = true →
        Q (t0.updater.trans_matrix i c)) →
      ∀ x, (attach2cluster_loop i cur cs t).tracker.atomic_clusters.getD x (-1)
          ≠ ac0.getD x (-1) →
        (attach2cluster_loop i cur cs t).tracker.atomic_clusters.getD x (-1) = (cur : Int) ∧
          x ≠ cur ∧ ∃ j k, Q j ∧ Walk ac0 k j x := by
  intro cs
  induction cs with
  | nil =>
    intro t _ _ _ _ hinv _ x hx
    exact hinv x hx
  | cons c rest ih =>
    intro t hel hsy hup hcur hinv hQ x hx
    have hQrest : ∀ c' ∈ rest,
        is_cluster_element t0 (species t0 (t0.updater.trans_matrix i c')) = true →
        Q (t0.updater.trans_matrix i c') := fun c' hc' => hQ c' (List.mem_cons_of_mem _ hc')
    have hsol : is_cluster_element t (t.symbols_cpy.getD (t.updater.trans_matrix i c) "")
        = is_cluster_element t0 (species t0 (t0.updater.trans_matrix i c)) := by
      unfold is_cluster_element species
      rw [hel, hsy, hup]
    simp only [attach2cluster_loop] at hx ⊢
    rw [hsol] at hx ⊢
    by_cases hs : is_cluster_element t0 (species t0 (t0.updater.trans_matrix i c)) = true
    · rw [if_pos hs] at hx ⊢
      cases hroot : root_indx t (t.updater.trans_matrix i c) with
      | error e =>
        rw [hroot] at hx
        exact hinv x hx
      | ok root =>
        rw [hroot] at hx
        simp only at hx ⊢
        by_cases hne : root ≠ cur
        · rw [if_pos hne] at hx ⊢
          -- the root of the neighbour in the current forest is its root in `ac0`
          have hw : ∃ k, Walk t.atomic_clusters k (t.updater.trans_matrix i c) root := by
            unfold root_indx at hroot
            simp only at hroot
            split at hroot
            · cases hroot
            · rename_i h2
              have := walk_of_root_indx_loop t.atomic_clusters t.atomic_clusters.length
                (t.updater.trans_matrix i c) h2
              cases hroot
              exact this
          obtain ⟨k, wk⟩ := hw
          have wk0 : Walk ac0 k (t.updater.trans_matrix i c) root :=
            wk.of_changed_roots (fun y hy => (hinv y hy).1) hcur hne
          refine ih { t with atomic_clusters := t.atomic_clusters.set root (cur : Int) }
            hel hsy hup ?_ ?_ hQrest x hx
          · show (t.atomic_clusters.set root (cur : Int)).getD cur (-1) = -1
            rw [getD_set_int, if_neg (fun hh => hne hh.1.symm)]
            exact hcur
          · intro y hy
            change (t.atomic_clusters.set root (cur : Int)).getD y (-1) ≠ _ at hy
            show (t.atomic_clusters.set root (cur : Int)).getD y (-1) = _ ∧ _
            rw [getD_set_int] at hy ⊢
            by_cases hc : y = root ∧ root < t.atomic_clusters.length
            · rw [if_pos hc]
              refine ⟨rfl, by rw [hc.1]; exact hne, t.updater.trans_matrix i c, k, ?_, ?_⟩
              · rw [hup]
                exact hQ c (List.mem_cons_self _ _) hs
              · rw [hc.1]
                exact wk0
            · rw [if_neg hc] at hy ⊢
              exact hinv y hy
        · rw [if_neg hne] at hx ⊢
          exact ih t hel hsy hup hcur hinv hQrest x hx
    · rw [if_neg hs] at hx ⊢
      exact ih t hel hsy hup hcur hinv hQrest x hx

/-- C24. The attach step. For every acyclic forest and every site `i` of the lattice whose
tracked neighbours are sites of the lattice: when `i` holds no cluster element,
`attach2cluster(i)` changes nothing; when it holds one, the call returns, the forest stays
acyclic, `i` keeps the root `cur` it had before the call, every neighbour of `i` under the tracked
offsets that holds a cluster element now has the root `cur`, and the only entries that changed
are those of the former roots (other than `cur`) of such neighbours, which now point to `cur`. -/
theorem attach2cluster_merges_neighbour_roots (t : ClusterTracker) (i : Nat)
    (hA : Acyclic t.atomic_clusters) (hi : i < t.atomic_clusters.length)
    (hR : ∀ c ∈ t.indices_in_cluster, t.updater.trans_matrix i c < t.atomic_clusters.length) :
    (is_cluster_element t (species t i) = false → attach2cluster t i = ⟨t, .ok ()⟩) ∧
    (is_cluster_element t (species t i) = true →
      ∃ ac' cur, attach2cluster t i = ⟨{ t with atomic_clusters := ac' }, .ok ()⟩ ∧
        Acyclic ac' ∧
        root_indx t i = .ok cur ∧
        root_indx { t with atomic_clusters := ac' } i = .ok cur ∧
        (∀ j, SoluteNbr t t.indices_in_cluster i j →
          root_indx { t with atomic_clusters := ac' } j = .ok cur) ∧
        ∀ x, ac'.getD x (-1) ≠ t.atomic_clusters.getD x (-1) →
          ac'.getD x (-1) = (cur : Int) ∧ x ≠ cur ∧ t.atomic_clusters.getD x (-1) = -1 ∧
            ∃ j, SoluteNbr t t.indices_in_cluster i j ∧ root_indx t j = .ok x) := by
  constructor
  · intro hel
    simp only [attach2cluster]
    rw [if_pos (by
      rw [show is_cluster_element t (t.symbols_cpy.getD i "") = false from hel]
      rfl)]
  · intro hel
    obtain ⟨k, cur, wi⟩ := hA.reach i hi
    have hES : ∀ x y, (x < t.atomic_clusters.length ∧ y < t.atomic_clusters.length ∧
        ∃ ka kb r, Walk t.atomic_clusters ka x r ∧ Walk t.atomic_clusters kb y r) →
        x < t.atomic_clusters.length ∧ y < t.atomic_clusters.length :=
      fun x y h => ⟨h.1, h.2.1⟩
    obtain ⟨ac', h1, hF', hP', h4, hlen, _⟩ :=
      attach2cluster_loop_spec (S := fun x => x < t.atomic_clusters.length) i cur k
        t.indices_in_cluster t _ hA (Partition.self hA) hES hi wi (fun c hc _ => hR c hc)
    have hcall : attach2cluster t i = ⟨{ t with atomic_clusters := ac' }, .ok ()⟩ := by
      rw [← h1]
      simp only [attach2cluster]
      rw [if_neg (by
        rw [show is_cluster_element t (t.symbols_cpy.getD i "") = true from hel]
        simp), root_indx_of_walk hA wi hi]
      simp only
      rw [if_neg (by simpa using wi.isRoot)]
    have hF'' : Forest (fun x => x < t.atomic_clusters.length)
        ({ t with atomic_clusters := ac' } : ClusterTracker).atomic_clusters := hF'
    refine ⟨ac', cur, hcall, ?_, root_indx_of_walk hA wi hi, root_indx_of_walk hF'' h4 hi,
      ?_, ?_⟩
    · unfold Acyclic
      rw [hlen]
      exact hF'
    · intro j hj
      have hjS : j < t.atomic_clusters.length := by
        obtain ⟨c, hc, rfl, _⟩ := hj
        exact hR c hc
      obtain ⟨kj, rj, wj⟩ := hF'.reach j hjS
      have hconn : Conn (fun x y =>
          (x < t.atomic_clusters.length ∧ y < t.atomic_clusters.length ∧
            ∃ ka kb r, Walk t.atomic_clusters ka x r ∧ Walk t.atomic_clusters kb y r) ∨
          (x = i ∧ SoluteNbr t t.indices_in_cluster x y)) i j :=
        Conn.edge (Or.inr ⟨rfl, hj⟩)
      have hroot : cur = rj := (hP' i j k kj cur rj hi hjS h4 wj).2 hconn
      rw [hroot]
      exact root_indx_of_walk hF'' wj hjS
    · intro x hx
      have hframe := attach2cluster_loop_frame i cur t.atomic_clusters
        (fun j => SoluteNbr t t.indices_in_cluster i j) t t.indices_in_cluster t rfl rfl rfl
        wi.isRoot (fun y hy => absurd rfl hy)
        (fun c hc hs => ⟨c, hc, rfl, hs⟩) x (by rw [h1]; exact hx)
      rw [h1] at hframe
      obtain ⟨f1, f2, j, kj, hQ, wj⟩ := hframe
      have hjS : j < t.atomic_clusters.length := by
        obtain ⟨c, hc, rfl, _⟩ := hQ
        exact hR c hc
      exact ⟨f1, f2, wj.isRoot, j, hQ, root_indx_of_walk hA wj hjS⟩

/-- The ring `A A A B` with every site a root is an acyclic forest; for its solute site 1 the
statement of C24 holds: both neighbours are solute, and their roots 0 and 2 are pointed at
site 1. -/
theorem attach2cluster_merges_neighbour_roots_witness :
    Acyclic ring_unlinked.atomic_clusters ∧ 1 < ring_unlinked.atomic_clusters.length ∧
    (∀ c ∈ ring_unlinked.indices_in_cluster,
      ring_unlinked.updater.trans_matrix 1 c < ring_unlinked.atomic_clusters.length) ∧
    is_cluster_element ring_unlinked (species ring_unlinked 1) = true ∧
    (attach2cluster ring_unlinked 1).tracker.atomic_clusters = [1, -1, 1, -1] ∧
    ((is_cluster_element ring_unlinked (species ring_unlinked 1) = false →
        attach2cluster ring_unlinked 1 = ⟨ring_unlinked, .ok ()⟩) ∧
      (is_cluster_element ring_unlinked (species ring_unlinked 1) = true →
        ∃ ac' cur,
          attach2cluster ring_unlinked 1
            = ⟨{ ring_unlinked with atomic_clusters := ac' }, .ok ()⟩ ∧
          Acyclic ac' ∧
          root_indx ring_unlinked 1 = .ok cur ∧
          root_indx { ring_unlinked with atomic_clusters := ac' } 1 = .ok cur ∧
          (∀ j, SoluteNbr ring_unlinked ring_unlinked.indices_in_cluster 1 j →
            root_indx { ring_unlinked with atomic_clusters := ac' } j = .ok cur) ∧
          ∀ x, ac'.getD x (-1) ≠ ring_unlinked.atomic_clusters.getD x (-1) →
            ac'.getD x (-1) = (cur : Int) ∧ x ≠ cur ∧
              ring_unlinked.atomic_clusters.getD x (-1) = -1 ∧
              ∃ j, SoluteNbr ring_unlinked ring_unlinked.indices_in_cluster 1 j ∧
                root_indx ring_unlinked j = .ok x)) :=
  have hA : Acyclic ring_unlinked.atomic_clusters :=
    (acyclicState_of_check ring_unlinked (by decide) (by decide) (by decide)).forest
  ⟨hA, by decide, by decide, by decide, by decide,
    attach2cluster_merges_neighbour_roots ring_unlinked 1 hA (by decide) (by decide)⟩

theorem detach_search_spec (t : ClusterTracker) (indx : Nat) (indx_in_change : List Nat) :
    ∀ (offs : List Nat) (indx2 : Nat),
      detach_search t indx indx_in_change offs = .ok (some indx2) →
      ∃ off ∈ offs, t.updater.trans_matrix indx off = indx2 ∧
        is_cluster_element t (species t indx2) = true ∧
        is_in_vector indx2 indx_in_change = false := by
  intro offs
  induction offs with
  | nil =>
    intro indx2 h
    simp [detach_search] at h
  | cons off rest ih =>
    intro indx2 h
    simp only [detach_search] at h
    split at h
    · obtain ⟨o, ho, h1⟩ := ih indx2 h
      exact ⟨o, List.mem_cons_of_mem _ ho, h1⟩
    · rename_i hin
      split at h
      · rename_i hsol
        split at h
        · exact absurd h (by simp)
        · rename_i connected hcon
          split at h
          · have e : t.updater.trans_matrix indx off = indx2 := by
              simpa using h
            refine ⟨off, List.mem_cons_self _ _, e, ?_, ?_⟩
            · rw [← e]
              exact hsol
            · rw [← e]
              simpa using hin
          · obtain ⟨o, ho, h1⟩ := ih indx2 h
            exact ⟨o, List.mem_cons_of_mem _ ho, h1⟩
      · obtain ⟨o, ho, h1⟩ := ih indx2 h
        exact ⟨o, List.mem_cons_of_mem _ ho, h1⟩

theorem lt_length_of_getD_eq (ac : List Int) (x r : Nat) (h : ac.getD x (-1) = (r : Int)) :
    x < ac.length := by
  by_contra hx
  rw [List.getD_eq_default _ _ (by omega)] at h
  omega

theorem detach_loop_post (ref_indx : Nat) (can_create_new_clusters : Bool)
    (indx_in_change : List Nat) (is_ref_indx : Bool) (orig : List Int)
    (href : is_in_vector ref_indx indx_in_change = true) :
    ∀ (offs : List Nat) (assigned : Bool) (t : ClusterTracker),
      (is_ref_indx = true → assigned = false → t.atomic_clusters.getD ref_indx (-1) = -1) →
      (∀ x, x ≠ ref_indx → t.atomic_clusters.getD x (-1) ≠ orig.getD x (-1) →
        Reattached t indx_in_change x (t.atomic_clusters.getD x (-1))) →
      ∀ (r : Run Bool),
        detach_loop ref_indx can_create_new_clusters indx_in_change is_ref_indx offs assigned t
          = r →
        r.outcome = .ok true →
        (∀ off ∈ offs,
          is_cluster_element t (species t (t.updater.trans_matrix ref_indx off)) = true →
          r.tracker.atomic_clusters.getD (t.updater.trans_matrix ref_indx off) (-1)
            ≠ (ref_indx : Int)) ∧
        (∀ x, t.atomic_clusters.getD x (-1) ≠ (ref_indx : Int) →
          r.tracker.atomic_clusters.getD x (-1) ≠ (ref_indx : Int)) ∧
        (∀ x, x ≠ ref_indx → r.tracker.atomic_clusters.getD x (-1) ≠ orig.getD x (-1) →
          Reattached t indx_in_change x (r.tracker.atomic_clusters.getD x (-1))) := by
  intro offs
  induction offs with
  | nil =>
    intro assigned t _ hinv r h _
    simp only [detach_loop] at h
    rw [← h]
    exact ⟨fun off ho => absurd ho (List.not_mem_nil off), fun _ hx => hx, hinv⟩
  | cons off rest ih =>
    intro assigned t hI hinv r h hout
    simp only [detach_loop] at h
    -- what one write at the neighbour `indx` with a value other than `ref_indx` gives
    have hstep : ∀ (v : Int) (assigned' : Bool), v ≠ (ref_indx : Int) →
        t.atomic_clusters.getD (t.updater.trans_matrix ref_indx off) (-1) = (ref_indx : Int) →
        Reattached t indx_in_change (t.updater.trans_matrix ref_indx off) v →
        (is_ref_indx = true → assigned' = false → t.atomic_clusters.getD ref_indx (-1) = -1) →
        (is_ref_indx = true → assigned' = false → t.updater.trans_matrix ref_indx off ≠ ref_indx) →
        detach_loop ref_indx can_create_new_clusters indx_in_change is_ref_indx rest assigned'
          { t with atomic_clusters :=
              t.atomic_clusters.set (t.updater.trans_matrix ref_indx off) v } = r →
        (∀ off' ∈ off :: rest,
          is_cluster_element t (species t (t.updater.trans_matrix ref_indx off')) = true →
          r.tracker.atomic_clusters.getD (t.updater.trans_matrix ref_indx off') (-1)
            ≠ (ref_indx : Int)) ∧
        (∀ x, t.atomic_clusters.getD x (-1) ≠ (ref_indx : Int) →
          r.tracker.atomic_clusters.getD x (-1) ≠ (ref_indx : Int)) ∧
        (∀ x, x ≠ ref_indx → r.tracker.atomic_clusters.getD x (-1) ≠ orig.getD x (-1) →
          Reattached t indx_in_change x (r.tracker.atomic_clusters.getD x (-1))) := by
      intro v assigned' hv hpar hre hI1 hI2 hr
      have hlt := lt_length_of_getD_eq _ _ _ hpar
      obtain ⟨a1, a2, a3⟩ := ih assigned'
        { t with atomic_clusters :=
            t.atomic_clusters.set (t.updater.trans_matrix ref_indx off) v }
        (by
          intro h1 h2
          show (t.atomic_clusters.set _ v).getD ref_indx (-1) = -1
          rw [getD_set_int, if_neg (fun hh => hI2 h1 h2 hh.1.symm)]
          exact hI1 h1 h2)
        (by
          intro x hx hne
          change (t.atomic_clusters.set _ v).getD x (-1) ≠ _ at hne
          show Reattached t indx_in_change x ((t.atomic_clusters.set _ v).getD x (-1))
          rw [getD_set_int] at hne ⊢
          by_cases hc : x = t.updater.trans_matrix ref_indx off ∧
              t.updater.trans_matrix ref_indx off < t.atomic_clusters.length
          · rw [if_pos hc, hc.1]
            exact hre
          · rw [if_neg hc] at hne ⊢
            exact hinv x hx hne) r hr hout
      have hkeep : ∀ x, t.atomic_clusters.getD x (-1) ≠ (ref_indx : Int) →
          r.tracker.atomic_clusters.getD x (-1) ≠ (ref_indx : Int) := by
        intro x hx
        apply a2
        show (t.atomic_clusters.set _ v).getD x (-1) ≠ _
        rw [getD_set_int]
        split
        · exact hv
        · exact hx
      refine ⟨?_, hkeep, a3⟩
      intro off' ho hs
      rcases List.mem_cons.1 ho with rfl | ho
      · apply a2
        show (t.atomic_clusters.set _ v).getD _ (-1) ≠ _
        rw [getD_set_int, if_pos ⟨rfl, hlt⟩]
        exact hv
      · exact a1 off' ho hs
    split at h
    · -- the neighbour holds no cluster element
      rename_i hns
      obtain ⟨a1, a2, a3⟩ := ih assigned t hI hinv r h hout
      refine ⟨?_, a2, a3⟩
      intro off' ho hs
      rcases List.mem_cons.1 ho with rfl | ho
      · exfalso
        have : is_cluster_element t (t.symbols_cpy.getD (t.updater.trans_matrix ref_indx off') "")
            = true := hs
        rw [this] at hns
        simp at hns
      · exact a1 off' ho hs
    · split at h
      · -- the neighbour does not point to `ref_indx`
        rename_i _ hnp
        obtain ⟨a1, a2, a3⟩ := ih assigned t hI hinv r h hout
        refine ⟨?_, a2, a3⟩
        intro off' ho hs
        rcases List.mem_cons.1 ho with rfl | ho
        · exact a2 _ hnp
        · exact a1 off' ho hs
      · rename_i _ hpar
        have hpar' : t.atomic_clusters.getD (t.updater.trans_matrix ref_indx off) (-1)
            = (ref_indx : Int) := not_not.1 hpar
        have hlt := lt_length_of_getD_eq _ _ _ hpar'
        split at h
        · -- the root moves to the neighbour
          rename_i hmove
          have hm : is_ref_indx = true ∧ assigned = false := by
            simpa using hmove
          have hroot := hI hm.1 hm.2
          have hne : t.updater.trans_matrix ref_indx off ≠ ref_indx := by
            intro hh
            rw [hh, hroot] at hpar'
            omega
          obtain ⟨a1, a2, a3⟩ := ih true
            { t with
              atomic_clusters := (t.atomic_clusters.set (t.updater.trans_matrix ref_indx off)
                (-1)).set ref_indx (t.updater.trans_matrix ref_indx off : Int) }
            (fun _ h2 => absurd h2 (by simp))
            (by
              intro x hx hne'
              change ((t.atomic_clusters.set _ (-1)).set ref_indx _).getD x (-1) ≠ _ at hne'
              show Reattached t indx_in_change x
                (((t.atomic_clusters.set _ (-1)).set ref_indx _).getD x (-1))
              rw [getD_set_int, if_neg (fun hh => hx hh.1), getD_set_int] at hne' ⊢
              split
              · exact Or.inl rfl
              · rename_i hc
                rw [if_neg hc] at hne'
                exact hinv x hx hne') r h hout
          have hkeep : ∀ x, t.atomic_clusters.getD x (-1) ≠ (ref_indx : Int) →
              r.tracker.atomic_clusters.getD x (-1) ≠ (ref_indx : Int) := by
            intro x hx
            apply a2
            show ((t.atomic_clusters.set _ (-1)).set ref_indx _).getD x (-1) ≠ _
            rw [getD_set_int]
            split
            · exact fun hh => hne (by exact_mod_cast hh)
            · rw [getD_set_int]
              split
              · omega
              · exact hx
          refine ⟨?_, hkeep, a3⟩
          intro off' ho hs
          rcases List.mem_cons.1 ho with rfl | ho
          · apply a2
            show ((t.atomic_clusters.set _ (-1)).set ref_indx _).getD _ (-1) ≠ _
            rw [getD_set_int, if_neg (fun hh => hne hh.1), getD_set_int, if_pos ⟨rfl, hlt⟩]
            omega
          · exact a1 off' ho hs
        · rename_i hmove
          have hm : is_ref_indx = true → assigned = false → False := by
            intro h1 h2
            rw [h1, h2] at hmove
            simp at hmove
          split at h
          · rw [← h] at hout
            exact absurd hout (by simp)
          · -- the neighbour is pointed at another neighbour of its own
            rename_i indx2 hsearch
            obtain ⟨off2, ho2, e2, hs2, hin2⟩ := detach_search_spec t _ _ _ _ hsearch
            have hv : (indx2 : Int) ≠ (ref_indx : Int) := by
              intro hh
              have : indx2 = ref_indx := by exact_mod_cast hh
              rw [this, href] at hin2
              exact absurd hin2 (by simp)
            exact hstep (indx2 : Int) assigned hv hpar'
              (Or.inr ⟨off2, ho2, by rw [e2], by rw [e2]; exact hs2, by rw [e2]; exact hin2⟩)
              (fun h1 h2 => (hm h1 h2).elim) (fun h1 h2 => (hm h1 h2).elim) h
          · split at h
            · -- the neighbour becomes a root
              exact hstep (-1) assigned (by omega) hpar' (Or.inl rfl)
                (fun h1 h2 => (hm h1 h2).elim) (fun h1 h2 => (hm h1 h2).elim) h
            · rw [← h] at hout
              exact absurd hout (by simp)

/-- C25 (the claim as stated fails). In the state the probe of C1 leaves on the ring `A B A B`
site 1 holds `B` and points to site 0; the state has minimal connectivity,
`detach_neighbours(0, true, [0])` returns `true`, and site 1, a neighbour of site 0, still has
site 0 as its parent: the loop skips neighbours that hold no cluster element. On a lattice whose
tracked offsets include the site itself, `detach_neighbours(0, true, [0, 1])` moves the root
from site 0 to site 1, so site 0, a neighbour of itself, ends up pointing to site 1, which is in
`indx_in_change`. -/
theorem detach_neighbours_skips_non_solute_neighbour :
    ring_after_probe.atomic_clusters = [-1, 0, -1, -1] ∧
    ring_after_probe.symbols_cpy = ["A", "B", "A", "B"] ∧
    has_minimal_connectivity ring_after_probe = true ∧
    (detach_neighbours ring_after_probe 0 true [0]).outcome = .ok true ∧
    ring_after_probe.updater.trans_matrix 0 0 = 1 ∧
    (detach_neighbours ring_after_probe 0 true [0]).tracker.atomic_clusters.getD 1 (-1) = 0 ∧
    has_minimal_connectivity pair_with_self_offset = true ∧
    (detach_neighbours pair_with_self_offset 0 true [0, 1]).outcome = .ok true ∧
    pair_with_self_offset.updater.trans_matrix 0 0 = 0 ∧
    (detach_neighbours pair_with_self_offset 0 true [0, 1]).tracker.atomic_clusters = [1, -1] :=
  ⟨by decide, by decide, by decide, rfl, by decide, by decide, by decide, rfl, by decide,
    by decide⟩

/-- C25 (amended). For every call `detach_neighbours(ref_indx, flag, indx_in_change)` that
returns `true` (which it does only from a state with minimal connectivity): no neighbour of
`ref_indx` under the tracked offsets that holds a cluster element has `ref_indx` as its parent
afterwards, and every site other than `ref_indx` whose parent changed had `ref_indx` as its
parent and now is a root or points to a neighbour of its own that holds a cluster element and
is not in `indx_in_change`. -/
theorem detach_neighbours_detaches_solute_neighbours (t : ClusterTracker) (ref_indx : Nat)
    (can_create_new_clusters : Bool) (indx_in_change : List Nat)
    (hret : (detach_neighbours t ref_indx can_create_new_clusters indx_in_change).outcome
      = .ok true) :
    has_minimal_connectivity t = true ∧
    (∀ off ∈ t.indices_in_cluster,
      is_cluster_element t (species t (t.updater.trans_matrix ref_indx off)) = true →
      (detach_neighbours t ref_indx can_create_new_clusters
        indx_in_change).tracker.atomic_clusters.getD (t.updater.trans_matrix ref_indx off) (-1)
          ≠ (ref_indx : Int)) ∧
    (∀ x, x ≠ ref_indx →
      (detach_neighbours t ref_indx can_create_new_clusters
        indx_in_change).tracker.atomic_clusters.getD x (-1) ≠ t.atomic_clusters.getD x (-1) →
      t.atomic_clusters.getD x (-1) = (ref_indx : Int) ∧
      Reattached t indx_in_change x
        ((detach_neighbours t ref_indx can_create_new_clusters
          indx_in_change).tracker.atomic_clusters.getD x (-1))) := by
  have hframe := detach_loop_frame ref_indx can_create_new_clusters indx_in_change
    (decide (t.atomic_clusters.getD ref_indx (-1) = -1)) t.atomic_clusters
    t.indices_in_cluster false t (fun _ _ _ => rfl)
  unfold detach_neighbours at hret ⊢
  split at hret
  · exact absurd hret (by simp)
  · rename_i hin
    have href : is_in_vector ref_indx indx_in_change = true := by simpa using hin
    split at hret
    · exact absurd hret (by simp)
    · rename_i hmin
      have hmin' : has_minimal_connectivity t = true := by simpa using hmin
      rw [if_neg hin, if_neg hmin]
      obtain ⟨a1, _, a3⟩ := detach_loop_post ref_indx can_create_new_clusters indx_in_change
        (decide (t.atomic_clusters.getD ref_indx (-1) = -1)) t.atomic_clusters href
        t.indices_in_cluster false t (fun h _ => of_decide_eq_true h)
        (fun x _ hne => absurd rfl hne) _ rfl hret
      refine ⟨hmin', a1, fun x hx hne => ⟨?_, a3 x hx hne⟩⟩
      by_contra hpar
      exact hne ((hframe _ rfl).2.2 x hx hpar)

/-- On the ring `A A A A` as the constructor leaves it (forest `[-1, 0, 1, 0]`),
`detach_neighbours(0, true, [0])` returns `true`: the root moves to site 1 and site 3 is pointed
at its neighbour 2, and the statement of the amended C25 holds. -/
theorem detach_neighbours_detaches_solute_neighbours_witness :
    (detach_neighbours (ring_constructed ["A", "A", "A", "A"]) 0 true [0]).outcome = .ok true ∧
    (ring_constructed ["A", "A", "A", "A"]).atomic_clusters = [-1, 0, 1, 0] ∧
    (detach_neighbours (ring_constructed ["A", "A", "A", "A"]) 0 true
      [0]).tracker.atomic_clusters = [1, -1, 1, 2] ∧
    (has_minimal_connectivity (ring_constructed ["A", "A", "A", "A"]) = true ∧
      (∀ off ∈ (ring_constructed ["A", "A", "A", "A"]).indices_in_cluster,
        is_cluster_element (ring_constructed ["A", "A", "A", "A"])
          (species (ring_constructed ["A", "A", "A", "A"])
            ((ring_constructed ["A", "A", "A", "A"]).updater.trans_matrix 0 off)) = true →
        (detach_neighbours (ring_constructed ["A", "A", "A", "A"]) 0 true
          [0]).tracker.atomic_clusters.getD
            ((ring_constructed ["A", "A", "A", "A"]).updater.trans_matrix 0 off) (-1)
            ≠ ((0 : Nat) : Int)) ∧
      (∀ x, x ≠ 0 →
        (detach_neighbours (ring_constructed ["A", "A", "A", "A"]) 0 true
          [0]).tracker.atomic_clusters.getD x (-1)
          ≠ (ring_constructed ["A", "A", "A", "A"]).atomic_clusters.getD x (-1) →
        (ring_constructed ["A", "A", "A", "A"]).atomic_clusters.getD x (-1) = ((0 : Nat) : Int) ∧
        Reattached (ring_constructed ["A", "A", "A", "A"]) [0] x
          ((detach_neighbours (ring_constructed ["A", "A", "A", "A"]) 0 true
            [0]).tracker.atomic_clusters.getD x (-1)))) :=
  ⟨rfl, by decide, by decide,
    detach_neighbours_detaches_solute_neighbours (ring_constructed ["A", "A", "A", "A"]) 0 true
      [0] rfl⟩

end WangLandau
